import Mathlib

/-!
Verification of the CPU scheduling engine of the repository
`CPU-Scheduling-Algorithm-Visualizer` against its specification.

The file shallowly embeds `src/services/schedulingAlgorithms.ts`.  That file
contains two concatenated variants of the engine (an earlier and a later
revision, separated by a document marker); definitions for the first variant
have no suffix, definitions for the second variant carry the suffix `2`.

Embedding conventions:
  * JavaScript numbers are embedded as `Nat` for times/ids/bursts and `Int`
    for the derived metrics (`completionTime`, `turnaroundTime`,
    `waitingTime`), which the code computes with subtraction.
  * `cloneProcesses` (a deep copy) is the identity in a pure embedding.
  * Mutation of a process object that is shared between `localProcesses`,
    the ready queue and the running slot is embedded by storing list
    *indices* in the queue/running slot and updating `procs` with
    `List.set`, which reproduces JavaScript reference semantics exactly.
  * `while` loops are embedded with an explicit fuel parameter
    (`iterWhile`); top-level engines instantiate the fuel with a value
    proved sufficient, or are conditioned on the loop returning a value.
  * The floating-point averages `avgWaitingTime`/`avgTurnaroundTime` of
    `AlgorithmResult` are not modelled (floating point division); no claim
    mentions them.  All other fields are modelled.
-/

namespace CPUSched

/-- `ProcessState` of `src/types.ts`. -/
inductive ProcState where
  | notArrived
  | waiting
  | running
  | completed
deriving DecidableEq, Repr

/-- `Process` of `src/types.ts`. -/
structure Process where
  id : Nat
  name : String
  arrivalTime : Nat
  burstTime : Nat
  priority : Option Nat
  remainingTime : Nat
  color : String
  completionTime : Int
  turnaroundTime : Int
  waitingTime : Int
  state : ProcState
deriving DecidableEq, Repr

instance : Inhabited Process :=
  ⟨⟨0, "", 0, 0, none, 0, "", 0, 0, 0, ProcState.notArrived⟩⟩

/-- The `{ processName, color }` objects pushed onto `timeline` arrays. -/
structure Marker where
  processName : String
  color : String
deriving DecidableEq, Repr

/-- `GanttEntry` of `src/types.ts`.  The source field `end` is a Lean keyword
and is embedded as `stop`. -/
structure GanttEntry where
  processName : String
  start : Nat
  stop : Nat
  color : String
deriving DecidableEq, Repr

/-- `AlgorithmResult` of `src/types.ts` (without the floating-point average
fields, see the file header). -/
structure AlgorithmResult where
  name : String
  ganttChart : List GanttEntry
  processes : List Process
  totalTime : Nat
deriving DecidableEq, Repr

/-- The objects yielded by the step-by-step generators. -/
structure TickEvent where
  time : Nat
  runningProcess : Option Process
  readyQueue : List Process
  processes : List Process
  eventMessage : String
deriving DecidableEq, Repr

/-- The caller-side input contract of §6 of the spec: unique ids, positive
bursts, and the derived fields in their initial state. -/
def ValidInput (l : List Process) : Prop :=
  (l.map (·.id)).Nodup ∧
    ∀ p ∈ l, 0 < p.burstTime ∧ p.remainingTime = p.burstTime ∧
      p.state = ProcState.notArrived ∧ p.completionTime = 0 ∧
      p.turnaroundTime = 0 ∧ p.waitingTime = 0

instance : DecidablePred ValidInput := fun _ => by
  unfold ValidInput; infer_instance

/-- `createEmptyResult` of `schedulingAlgorithms.ts`. -/
def createEmptyResult (name : String) : AlgorithmResult :=
  { name := name, ganttChart := [], processes := [], totalTime := 0 }

/-! ## Timeline builder (`buildGanttChart`, both variants) -/

/-- Loop body state of `buildGanttChart` (first variant, lines 19-60):
the accumulated chart and the currently open entry, walking the timeline
with its index. -/
def ganttLoop : List (Option Marker) → Nat → List GanttEntry → Option GanttEntry → List GanttEntry
  | [], _, acc, cur =>
    match cur with
    | some e => acc ++ [e]
    | none => acc
  | m :: rest, i, acc, cur =>
    match m with
    | some info =>
      match cur with
      | some e =>
        if e.processName = info.processName then
          ganttLoop rest (i + 1) acc (some { e with stop := i + 1 })
        else
          ganttLoop rest (i + 1) (acc ++ [e])
            (some ⟨info.processName, i, i + 1, info.color⟩)
      | none =>
        ganttLoop rest (i + 1) acc (some ⟨info.processName, i, i + 1, info.color⟩)
    | none =>
      match cur with
      | some e => ganttLoop rest (i + 1) (acc ++ [e]) none
      | none => ganttLoop rest (i + 1) acc none

/-- `buildGanttChart` (first variant). -/
def buildGanttChart (tl : List (Option Marker)) : List GanttEntry :=
  ganttLoop tl 0 [] none

/-- Loop body of the second variant's `buildGanttChart` (lines 821-856);
the conditionals are arranged differently in the source. -/
def ganttLoop2 : List (Option Marker) → Nat → List GanttEntry → Option GanttEntry → List GanttEntry
  | [], _, acc, cur =>
    match cur with
    | some e => acc ++ [e]
    | none => acc
  | m :: rest, i, acc, cur =>
    match m with
    | some info =>
      match cur with
      | none =>
        ganttLoop2 rest (i + 1) acc (some ⟨info.processName, i, i + 1, info.color⟩)
      | some e =>
        if e.processName ≠ info.processName then
          ganttLoop2 rest (i + 1) (acc ++ [e])
            (some ⟨info.processName, i, i + 1, info.color⟩)
        else
          ganttLoop2 rest (i + 1) acc (some { e with stop := i + 1 })
    | none =>
      match cur with
      | some e => ganttLoop2 rest (i + 1) (acc ++ [e]) none
      | none => ganttLoop2 rest (i + 1) acc none

/-- `buildGanttChart` (second variant). -/
def buildGanttChart2 (tl : List (Option Marker)) : List GanttEntry :=
  ganttLoop2 tl 0 [] none

/-- Specification-side merge: prepend a one-tick entry to a segment list,
gluing it onto the head segment exactly when the head is adjacent and has the
same process name. -/
def glue (e : GanttEntry) : List GanttEntry → List GanttEntry
  | [] => [e]
  | s :: rest =>
    if s.start = e.stop ∧ s.processName = e.processName then
      { e with stop := s.stop } :: rest
    else
      e :: s :: rest

/-- Specification-side timeline builder: each executed tick becomes a unit
segment, merged (by name) with an adjacent following segment.  This is the
"minimal ordered segment list" of §4.4, with segment identity keyed by
process name. -/
def ganttSpec : List (Option Marker) → Nat → List GanttEntry
  | [], _ => []
  | none :: rest, i => ganttSpec rest (i + 1)
  | some m :: rest, i =>
    glue ⟨m.processName, i, i + 1, m.color⟩ (ganttSpec rest (i + 1))

/-! ## Generic while-loop machinery -/

/-- Fueled embedding of a `while cond { body }` loop: returns the first state
failing `cond`, or `none` if the fuel runs out first. -/
def iterWhile (cond : α → Bool) (step : α → α) : Nat → α → Option α
  | 0, s => if cond s then none else some s
  | k + 1, s => if cond s then iterWhile cond step k (step s) else some s

/-! ## Sorting (embedding of JavaScript `Array.prototype.sort`)

JavaScript's sort is stable; all comparators in the source are of the form
`(a, b) => key a - key b`, i.e. strict-order comparators.  A stable insertion
sort with the corresponding strict `lt` reproduces it. -/

def insertLt (lt : α → α → Bool) (x : α) : List α → List α
  | [] => [x]
  | y :: ys => if lt y x then y :: insertLt lt x ys else x :: y :: ys

def sortLt (lt : α → α → Bool) : List α → List α
  | [] => []
  | x :: xs => insertLt lt x (sortLt lt xs)

/-! ## FCFS batch engine (first variant, lines 65-97) -/

/-- Comparator of `runFCFS` (first variant):
`a.arrivalTime - b.arrivalTime || a.id - b.id`. -/
def fcfsLt (a b : Process) : Bool :=
  a.arrivalTime < b.arrivalTime || (a.arrivalTime == b.arrivalTime && a.id < b.id)

/-- Body of the `forEach` of `runFCFS`: thread `(currentTime, timeline,
processed)` through the sorted list. -/
def fcfsFold : List Process → Nat → List (Option Marker) → List Process →
    Nat × List (Option Marker) × List Process
  | [], t, tl, acc => (t, tl, acc)
  | p :: rest, t, tl, acc =>
    let tl1 := tl ++ List.replicate (p.arrivalTime - t) none
    let t1 := if t < p.arrivalTime then p.arrivalTime else t
    let completion : Int := (t1 : Int) + (p.burstTime : Int)
    let tat : Int := completion - (p.arrivalTime : Int)
    let wt : Int := tat - (p.burstTime : Int)
    let p' := { p with
      completionTime := completion
      turnaroundTime := tat
      waitingTime := wt }
    let tl2 := tl1 ++ List.replicate p.burstTime (some ⟨p.name, p.color⟩)
    fcfsFold rest (t1 + p.burstTime) tl2 (acc ++ [p'])

/-- `runFCFS` (first variant). -/
def runFCFS (processes : List Process) : AlgorithmResult :=
  if processes = [] then createEmptyResult "First-Come, First-Served (FCFS)"
  else
    let sorted := sortLt fcfsLt processes
    let r := fcfsFold sorted 0 [] []
    { name := "First-Come, First-Served (FCFS)",
      ganttChart := buildGanttChart r.2.1,
      processes := r.2.2,
      totalTime := r.1 }

/-! ## Selection functions -/

/-- JavaScript `Array.prototype.reduce` without an initial value. -/
def reduce1 (f : α → α → α) : List α → Option α
  | [] => none
  | x :: xs => some (xs.foldl f x)

/-- Comparator of the `readyQueue.reduce` in `runSJF` (first variant) and in
`simulateSJF` (both variants), lifted to `(index, process)` pairs so that the
selected array position is known. -/
def sjfCmp (a b : Nat × Process) : Nat × Process :=
  if a.2.burstTime < b.2.burstTime then a
  else if b.2.burstTime < a.2.burstTime then b
  else if a.2.arrivalTime < b.2.arrivalTime then a
  else b

/-- `x < y` where `y` ranges over `Nat ∪ {Infinity}` (JS `Infinity` is
embedded as `none`). -/
def ltInf (a : Nat) : Option Nat → Bool
  | none => true
  | some b => decide (a < b)

/-- `(x ?? Infinity) < (y ?? Infinity)` on JS numbers-or-null. -/
def prioLt : Option Nat → Option Nat → Bool
  | some a, some b => decide (a < b)
  | some _, none => true
  | none, _ => false

/-- Comparator of the `readyQueue.reduce` in `runPriorityNonPreemptive`
(first variant) and `simulatePriorityNonPreemptive` (both variants). -/
def pnpCmp (a b : Nat × Process) : Nat × Process :=
  if prioLt a.2.priority b.2.priority then a
  else if prioLt b.2.priority a.2.priority then b
  else if a.2.arrivalTime < b.2.arrivalTime then a
  else b

/-- The `forEach` minimum-search of `runSRTF` (both variants), lines 181-194:
strict comparisons on `(remainingTime, arrivalTime)`, so the first array
position attaining the minimum is kept.  Returns the selected index. -/
def srtfSel (procs : List Process) (t : Nat) : Option Nat :=
  (procs.enum.foldl
    (fun st ip =>
      if decide (ip.2.arrivalTime ≤ t) && decide (0 < ip.2.remainingTime) then
        if ltInf ip.2.remainingTime st.1 then
          (some ip.2.remainingTime, some ip.2.arrivalTime, some ip.1)
        else if st.1 == some ip.2.remainingTime && ltInf ip.2.arrivalTime st.2.1 then
          (st.1, some ip.2.arrivalTime, some ip.1)
        else st
      else st)
    ((none, none, none) : Option Nat × Option Nat × Option Nat)).2.2

/-- The `forEach` minimum-search of `runPriorityPreemptive` (both variants):
strict comparisons on `(priority ?? Infinity, arrivalTime)`. -/
def ppSel (procs : List Process) (t : Nat) : Option Nat :=
  (procs.enum.foldl
    (fun st ip =>
      if decide (ip.2.arrivalTime ≤ t) && decide (0 < ip.2.remainingTime) then
        if prioLt ip.2.priority st.1 then
          (ip.2.priority, some ip.2.arrivalTime, some ip.1)
        else if ip.2.priority == st.1 && ltInf ip.2.arrivalTime st.2.1 then
          (st.1, some ip.2.arrivalTime, some ip.1)
        else st
      else st)
    ((none, none, none) : Option Nat × Option Nat × Option Nat)).2.2

/-! ## Non-preemptive batch engines (first variant): SJF and Priority -/

/-- Loop state of `runSJF`/`runPriorityNonPreemptive` (first variant). -/
structure NPState where
  procs : List Process
  t : Nat
  completed : Nat
  timeline : List (Option Marker)
  doneIds : List Nat
deriving Repr

/-- One iteration of the `while` loop of `runSJF` (first variant,
lines 108-152). -/
def sjfStep (s : NPState) : NPState :=
  let ready := s.procs.enum.filter fun ip =>
    decide (ip.2.arrivalTime ≤ s.t) && !(s.doneIds.contains ip.2.id)
  match reduce1 sjfCmp ready with
  | none => { s with timeline := s.timeline ++ [none], t := s.t + 1 }
  | some ip =>
    let i := ip.1
    let p := ip.2
    let tl1 := s.timeline ++ List.replicate (p.arrivalTime - s.t) none
    let t1 := if s.t < p.arrivalTime then p.arrivalTime else s.t
    let tl2 := tl1 ++ List.replicate p.burstTime (some ⟨p.name, p.color⟩)
    let fin := t1 + p.burstTime
    let p' := { p with
      completionTime := (fin : Int)
      turnaroundTime := (fin : Int) - (p.arrivalTime : Int)
      waitingTime := ((fin : Int) - (p.arrivalTime : Int)) - (p.burstTime : Int) }
    { procs := s.procs.set i p', t := fin, completed := s.completed + 1,
      timeline := tl2, doneIds := s.doneIds ++ [p.id] }

/-- One iteration of the `while` loop of `runPriorityNonPreemptive` (first
variant, lines 308-352); identical to `sjfStep` except for the comparator. -/
def pnpStep (s : NPState) : NPState :=
  let ready := s.procs.enum.filter fun ip =>
    decide (ip.2.arrivalTime ≤ s.t) && !(s.doneIds.contains ip.2.id)
  match reduce1 pnpCmp ready with
  | none => { s with timeline := s.timeline ++ [none], t := s.t + 1 }
  | some ip =>
    let i := ip.1
    let p := ip.2
    let tl1 := s.timeline ++ List.replicate (p.arrivalTime - s.t) none
    let t1 := if s.t < p.arrivalTime then p.arrivalTime else s.t
    let tl2 := tl1 ++ List.replicate p.burstTime (some ⟨p.name, p.color⟩)
    let fin := t1 + p.burstTime
    let p' := { p with
      completionTime := (fin : Int)
      turnaroundTime := (fin : Int) - (p.arrivalTime : Int)
      waitingTime := ((fin : Int) - (p.arrivalTime : Int)) - (p.burstTime : Int) }
    { procs := s.procs.set i p', t := fin, completed := s.completed + 1,
      timeline := tl2, doneIds := s.doneIds ++ [p.id] }

/-- Largest arrival time of the input (0 for an empty list). -/
def maxArrival (procs : List Process) : Nat :=
  (procs.map (·.arrivalTime)).foldr max 0

/-- Fuel bound for the non-preemptive loops: each iteration either completes
a process or advances an idle tick towards the next arrival. -/
def npFuel (procs : List Process) : Nat :=
  procs.length * (maxArrival procs + 1) + maxArrival procs + 1

/-- `runSJF` (first variant). -/
def runSJF (processes : List Process) : Option AlgorithmResult :=
  if processes = [] then some (createEmptyResult "Non-Preemptive SJF")
  else
    let n := processes.length
    (iterWhile (fun s => decide (s.completed < n)) sjfStep (npFuel processes)
        ⟨processes, 0, 0, [], []⟩).map fun s =>
      { name := "Non-Preemptive SJF", ganttChart := buildGanttChart s.timeline,
        processes := s.procs, totalTime := s.t }

/-- `runPriorityNonPreemptive` (first variant). -/
def runPriorityNonPreemptive (processes : List Process) : Option AlgorithmResult :=
  if processes = [] then some (createEmptyResult "Non-Preemptive Priority")
  else
    let n := processes.length
    (iterWhile (fun s => decide (s.completed < n)) pnpStep (npFuel processes)
        ⟨processes, 0, 0, [], []⟩).map fun s =>
      { name := "Non-Preemptive Priority", ganttChart := buildGanttChart s.timeline,
        processes := s.procs, totalTime := s.t }

/-! ## Preemptive batch engines (first variant): SRTF and Priority -/

/-- Loop state of `runSRTF`/`runPriorityPreemptive` (first variant). -/
structure PreState where
  procs : List Process
  t : Nat
  completed : Nat
  timeline : List (Option Marker)
deriving Repr

/-- One iteration of the `while` loop of `runSRTF` (first variant,
lines 175-213). -/
def srtfStep (s : PreState) : PreState :=
  match srtfSel s.procs s.t with
  | none => { s with timeline := s.timeline ++ [none], t := s.t + 1 }
  | some i =>
    let p := s.procs.getD i default
    let p1 := { p with remainingTime := p.remainingTime - 1 }
    let t1 := s.t + 1
    let tl := s.timeline ++ [some ⟨p.name, p.color⟩]
    if p1.remainingTime = 0 then
      let p2 := { p1 with
        completionTime := (t1 : Int)
        turnaroundTime := (t1 : Int) - (p.arrivalTime : Int)
        waitingTime := ((t1 : Int) - (p.arrivalTime : Int)) - (p.burstTime : Int) }
      { procs := s.procs.set i p2, t := t1, completed := s.completed + 1,
        timeline := tl }
    else
      { procs := s.procs.set i p1, t := t1, completed := s.completed,
        timeline := tl }

/-- One iteration of the `while` loop of `runPriorityPreemptive` (first
variant, lines 375-413); identical to `srtfStep` except for the selection. -/
def ppStep (s : PreState) : PreState :=
  match ppSel s.procs s.t with
  | none => { s with timeline := s.timeline ++ [none], t := s.t + 1 }
  | some i =>
    let p := s.procs.getD i default
    let p1 := { p with remainingTime := p.remainingTime - 1 }
    let t1 := s.t + 1
    let tl := s.timeline ++ [some ⟨p.name, p.color⟩]
    if p1.remainingTime = 0 then
      let p2 := { p1 with
        completionTime := (t1 : Int)
        turnaroundTime := (t1 : Int) - (p.arrivalTime : Int)
        waitingTime := ((t1 : Int) - (p.arrivalTime : Int)) - (p.burstTime : Int) }
      { procs := s.procs.set i p2, t := t1, completed := s.completed + 1,
        timeline := tl }
    else
      { procs := s.procs.set i p1, t := t1, completed := s.completed,
        timeline := tl }

/-- Fuel bound for the preemptive loops: each iteration either executes one
remaining tick or advances an idle tick towards the next arrival. -/
def preFuel (procs : List Process) : Nat :=
  (procs.map (·.remainingTime)).sum * (maxArrival procs + 1) + maxArrival procs + 1

/-- `runSRTF` (first variant). -/
def runSRTF (processes : List Process) : Option AlgorithmResult :=
  if processes = [] then some (createEmptyResult "Preemptive SJF (SRTF)")
  else
    let n := processes.length
    (iterWhile (fun s => !(s.completed == n)) srtfStep (preFuel processes)
        ⟨processes, 0, 0, []⟩).map fun s =>
      { name := "Preemptive SJF (SRTF)", ganttChart := buildGanttChart s.timeline,
        processes := s.procs, totalTime := s.t }

/-- `runPriorityPreemptive` (first variant). -/
def runPriorityPreemptive (processes : List Process) : Option AlgorithmResult :=
  if processes = [] then some (createEmptyResult "Preemptive Priority")
  else
    let n := processes.length
    (iterWhile (fun s => !(s.completed == n)) ppStep (preFuel processes)
        ⟨processes, 0, 0, []⟩).map fun s =>
      { name := "Preemptive Priority", ganttChart := buildGanttChart s.timeline,
        processes := s.procs, totalTime := s.t }

/-! ## Round Robin batch engines (both variants) -/

/-- Loop state of `runRoundRobin`.  The ready queue and the running slot hold
*indices* into `procs` (JS holds object references). -/
structure RrState where
  procs : List Process
  queue : List Nat
  running : Option Nat
  qc : Nat
  t : Nat
  completed : Nat
  timeline : List (Option Marker)
deriving Repr

/-- One iteration of the `while` loop of `runRoundRobin` (first variant,
lines 240-283): retire, enqueue arrivals, dispatch, execute, advance. -/
def rrStep (quantum : Nat) (s : RrState) : RrState :=
  let s1 := match s.running with
    | none => s
    | some i =>
      let p := s.procs.getD i default
      if p.remainingTime = 0 then
        let p' := { p with
          completionTime := (s.t : Int)
          turnaroundTime := (s.t : Int) - (p.arrivalTime : Int)
          waitingTime := ((s.t : Int) - (p.arrivalTime : Int)) - (p.burstTime : Int) }
        { s with
          procs := s.procs.set i p'
          completed := s.completed + 1
          running := none }
      else if s.qc = quantum then
        { s with queue := s.queue ++ [i], running := none }
      else s
  let arr := (sortLt (fun a b : Nat × Process => decide (a.2.id < b.2.id))
      (s1.procs.enum.filter fun ip => ip.2.arrivalTime == s1.t)).map (·.1)
  let s2 := { s1 with queue := s1.queue ++ arr }
  let s3 := match s2.running, s2.queue with
    | none, i :: rest => { s2 with running := some i, queue := rest, qc := 0 }
    | _, _ => s2
  let s4 := match s3.running with
    | some i =>
      let p := s3.procs.getD i default
      { s3 with
        procs := s3.procs.set i { p with remainingTime := p.remainingTime - 1 }
        qc := s3.qc + 1
        timeline := s3.timeline ++ [some (⟨p.name, p.color⟩ : Marker)] }
    | none => { s3 with timeline := s3.timeline ++ [(none : Option Marker)] }
  { s4 with t := s4.t + 1 }

/-- The `while` loop of `runRoundRobin` (first variant) with its safety break
at `currentTime > 20000`.  The fuel `20002` is sufficient because every
iteration advances `t` by one (`rrLoop_isSome` below). -/
def rrLoop (quantum n : Nat) : Nat → RrState → Option RrState
  | 0, _ => none
  | fuel + 1, s =>
    if s.completed < n then
      let s' := rrStep quantum s
      if 20000 < s'.t then some s' else rrLoop quantum n fuel s'
    else some s

/-- Initial loop state shared by both Round Robin variants. -/
def rrInit (processes : List Process) : RrState :=
  ⟨processes, [], none, 0, 0, 0, []⟩

/-- The loop of `runRoundRobin` (first variant) run from the initial state. -/
def rrRun (processes : List Process) (quantum : Nat) : Option RrState :=
  rrLoop quantum processes.length 20002 (rrInit processes)

/-- `runRoundRobin` (first variant). -/
def runRoundRobin (processes : List Process) (quantum : Nat) : Option AlgorithmResult :=
  if processes = [] then some (createEmptyResult "Round Robin")
  else (rrRun processes quantum).map fun s =>
    { name := "Round Robin", ganttChart := buildGanttChart s.timeline,
      processes := s.procs, totalTime := s.t }

/-- One iteration of the `while` loop of `runRoundRobin` (second variant,
lines 1041-1088): enqueue arrivals FIRST, then retire, dispatch, execute,
advance.  The retire step also resets the quantum counter. -/
def rrStep2 (quantum : Nat) (s : RrState) : RrState :=
  let arr := (sortLt (fun a b : Nat × Process => decide (a.2.id < b.2.id))
      (s.procs.enum.filter fun ip =>
        ip.2.arrivalTime == s.t && decide (0 < ip.2.remainingTime))).map (·.1)
  let s1 := { s with queue := s.queue ++ arr }
  let s2 := match s1.running with
    | none => s1
    | some i =>
      let p := s1.procs.getD i default
      if p.remainingTime = 0 then
        let p' := { p with
          completionTime := (s1.t : Int)
          turnaroundTime := (s1.t : Int) - (p.arrivalTime : Int)
          waitingTime := ((s1.t : Int) - (p.arrivalTime : Int)) - (p.burstTime : Int) }
        { s1 with
          procs := s1.procs.set i p'
          completed := s1.completed + 1
          running := none
          qc := 0 }
      else if s1.qc = quantum then
        { s1 with queue := s1.queue ++ [i], running := none, qc := 0 }
      else s1
  let s3 := match s2.running, s2.queue with
    | none, i :: rest => { s2 with running := some i, queue := rest, qc := 0 }
    | _, _ => s2
  let s4 := match s3.running with
    | some i =>
      let p := s3.procs.getD i default
      { s3 with
        procs := s3.procs.set i { p with remainingTime := p.remainingTime - 1 }
        qc := s3.qc + 1
        timeline := s3.timeline ++ [some (⟨p.name, p.color⟩ : Marker)] }
    | none => { s3 with timeline := s3.timeline ++ [(none : Option Marker)] }
  { s4 with t := s4.t + 1 }

/-- The `while` loop of `runRoundRobin` (second variant) with its safety
break at `currentTime > 10000`. -/
def rrLoop2 (quantum n : Nat) : Nat → RrState → Option RrState
  | 0, _ => none
  | fuel + 1, s =>
    if s.completed < n then
      let s' := rrStep2 quantum s
      if 10000 < s'.t then some s' else rrLoop2 quantum n fuel s'
    else some s

/-- The loop of `runRoundRobin` (second variant) run from the initial state. -/
def rrRun2 (processes : List Process) (quantum : Nat) : Option RrState :=
  rrLoop2 quantum processes.length 10002 (rrInit processes)

/-- `runRoundRobin` (second variant); `totalTime` is `currentTime - 1`. -/
def runRoundRobin2 (processes : List Process) (quantum : Nat) : Option AlgorithmResult :=
  if processes = [] then some (createEmptyResult "Round Robin")
  else (rrRun2 processes quantum).map fun s =>
    { name := "Round Robin", ganttChart := buildGanttChart s.timeline,
      processes := s.procs, totalTime := s.t - 1 }

/-! ## Stepwise engines (generators)

Generators are embedded as functions returning the full (finite) list of
yielded `TickEvent`s; `while` loops again use `iterWhile` with fuel, with the
event list accumulated in the loop state. -/

/-- `updateProcessStates` (identical in both variants). -/
def updateProcessStates (procs : List Process) (running : Option Process)
    (readyQueue : List Process) (t : Nat) : List Process :=
  procs.map fun p =>
    if p.state = ProcState.completed then p
    else if (match running with | some r => p.id == r.id | none => false) then
      { p with state := ProcState.running }
    else if readyQueue.any (fun rq => rq.id == p.id) then
      { p with state := ProcState.waiting }
    else if t < p.arrivalTime then
      { p with state := ProcState.notArrived }
    else if 0 < p.remainingTime then
      { p with state := ProcState.waiting }
    else p

/-- `` `${names.join(', ')} arrive${n > 1 ? '' : 's'}. ` `` -/
def arrivesMsg (l : List Process) : String :=
  String.intercalate ", " (l.map (·.name)) ++
    (if 1 < l.length then " arrive. " else " arrives. ")

/-- Idle loop of `simulateFCFS` (`while (currentTime < arrivalTime)`),
structurally recursing on the remaining idle ticks. -/
def simFcfsIdleLoop : Nat → List Process → Nat → List TickEvent
  | 0, _, _ => []
  | k + 1, procs, t =>
    ⟨t, none, [], updateProcessStates procs none [] t, "CPU is idle."⟩ ::
      simFcfsIdleLoop k procs (t + 1)

/-- Burst loop of `simulateFCFS` (`for i < runDuration`): one event per tick,
decrementing the running process; the dispatch message only on the first. -/
def simFcfsBurstLoop : Nat → List Process → Nat → Nat → List Nat → String →
    List TickEvent × List Process × Nat
  | 0, procs, _, t, _, _ => ([], procs, t)
  | k + 1, procs, i, t, restIdx, msg =>
    let p := procs.getD i default
    let p' := { p with remainingTime := p.remainingTime - 1 }
    let procs1 := procs.set i p'
    let ready := restIdx.map fun j => procs1.getD j default
    let ev : TickEvent :=
      ⟨t, some p', ready, updateProcessStates procs1 (some p') ready t, msg⟩
    let r := simFcfsBurstLoop k procs1 i (t + 1) restIdx ""
    (ev :: r.1, r.2.1, r.2.2)

/-- Main loop of `simulateFCFS`, recursing over the queue of (indices of)
processes in sorted order. -/
def simFcfsMain : List Nat → List Process → Nat → List TickEvent × List Process × Nat
  | [], procs, t => ([], procs, t)
  | i :: rest, procs, t =>
    let p := procs.getD i default
    let idleEvs := simFcfsIdleLoop (p.arrivalTime - t) procs t
    let t1 := if t < p.arrivalTime then p.arrivalTime else t
    let msg := p.name ++ " arrives. CPU starts running " ++ p.name ++ "."
    let rb := simFcfsBurstLoop p.burstTime procs i t1 rest msg
    let procs1 := rb.2.1
    let t2 := rb.2.2
    let q := procs1.getD i default
    let q' := { q with
      completionTime := (t2 : Int)
      turnaroundTime := (t2 : Int) - (q.arrivalTime : Int)
      waitingTime := ((t2 : Int) - (q.arrivalTime : Int)) - (q.burstTime : Int)
      state := ProcState.completed }
    let procs2 := procs1.set i q'
    let readyRest := rest.map fun j => procs2.getD j default
    let evC : TickEvent :=
      ⟨t2 - 1, some q', [], updateProcessStates procs2 none readyRest (t2 - 1),
        q'.name ++ " completes execution."⟩
    let r := simFcfsMain rest procs2 t2
    (idleEvs ++ rb.1 ++ [evC] ++ r.1, r.2.1, r.2.2)

/-- `simulateFCFS` (first variant, lines 453-494).  Total by construction. -/
def simulateFCFS (processes : List Process) : List TickEvent :=
  if processes = [] then []
  else
    let sorted := sortLt fcfsLt processes
    let r := simFcfsMain (List.range sorted.length) sorted 0
    r.1 ++ [⟨r.2.2, none, [], updateProcessStates r.2.1 none [] r.2.2,
      "All processes complete."⟩]

/-- Loop state of `simulateSJF`/`simulatePriorityNonPreemptive`. -/
structure SimNPState where
  procs : List Process
  t : Nat
  completed : Nat
  events : List TickEvent
deriving Repr

/-- Burst loop of `simulateSJF`/`simulatePriorityNonPreemptive`: one event
per executed tick. -/
def simNpBurst : Nat → List Process → Nat → Nat → String → List TickEvent →
    List Process × Nat × List TickEvent
  | 0, procs, _, t, _, evs => (procs, t, evs)
  | k + 1, procs, i, t, msg, evs =>
    let p := procs.getD i default
    let p' := { p with remainingTime := p.remainingTime - 1 }
    let procs1 := procs.set i p'
    let ready := procs1.filter fun q =>
      decide (q.arrivalTime ≤ t) && !(q.state == ProcState.completed) && !(q.id == p'.id)
    let ev : TickEvent :=
      ⟨t, some p', ready, updateProcessStates procs1 (some p') ready t, msg⟩
    simNpBurst k procs1 i (t + 1) "" (evs ++ [ev])

/-- One iteration of the `while` loop of `simulateSJF` (first variant,
lines 503-549), parameterised by the reduce comparator and the selection
message so that `simulatePriorityNonPreemptive` (lines 685-733, identical up
to those two points) shares the body. -/
def simNpStep (cmp : Nat × Process → Nat × Process → Nat × Process)
    (selMsg : String) (s : SimNPState) : SimNPState :=
  let newly := s.procs.filter fun p => p.arrivalTime == s.t
  let msg0 := if newly.isEmpty then "" else arrivesMsg newly
  let ready := s.procs.enum.filter fun ip =>
    decide (ip.2.arrivalTime ≤ s.t) && !(ip.2.state == ProcState.completed)
  match reduce1 cmp ready with
  | none =>
    let msg := if msg0 = "" then "CPU is idle." else msg0
    { s with
      events := s.events ++
        [⟨s.t, none, [], updateProcessStates s.procs none [] s.t, msg⟩]
      t := s.t + 1 }
  | some ip =>
    let i := ip.1
    let p := ip.2
    let msg := msg0 ++ "CPU selects " ++ p.name ++ selMsg
    let rb := simNpBurst p.burstTime s.procs i s.t msg s.events
    let procs1 := rb.1
    let t1 := rb.2.1
    let evs1 := rb.2.2
    let q := procs1.getD i default
    let q' := { q with
      completionTime := (t1 : Int)
      turnaroundTime := (t1 : Int) - (q.arrivalTime : Int)
      waitingTime := ((t1 : Int) - (q.arrivalTime : Int)) - (q.burstTime : Int)
      state := ProcState.completed }
    let procs2 := procs1.set i q'
    let evC : TickEvent :=
      ⟨t1 - 1, some q', [], updateProcessStates procs2 none [] (t1 - 1),
        q'.name ++ " completes execution."⟩
    { procs := procs2, t := t1, completed := s.completed + 1,
      events := evs1 ++ [evC] }

/-- Terminal event of every generator. -/
def allCompleteEvent (procs : List Process) (t : Nat) : TickEvent :=
  ⟨t, none, [], updateProcessStates procs none [] t, "All processes complete."⟩

/-- `simulateSJF` (first variant). -/
def simulateSJF (processes : List Process) : Option (List TickEvent) :=
  if processes = [] then some []
  else
    let n := processes.length
    (iterWhile (fun s => decide (s.completed < n))
        (simNpStep sjfCmp " (shortest job).") (npFuel processes)
        ⟨processes, 0, 0, []⟩).map fun s =>
      s.events ++ [allCompleteEvent s.procs s.t]

/-- `simulatePriorityNonPreemptive` (first variant). -/
def simulatePriorityNonPreemptive (processes : List Process) : Option (List TickEvent) :=
  if processes = [] then some []
  else
    let n := processes.length
    (iterWhile (fun s => decide (s.completed < n))
        (simNpStep pnpCmp " (highest priority).") (npFuel processes)
        ⟨processes, 0, 0, []⟩).map fun s =>
      s.events ++ [allCompleteEvent s.procs s.t]

/-- Comparator of the `readyQueue.reduce` in `simulateSRTF` (both variants),
lifted to `(index, process)` pairs. -/
def srtfCmp (a b : Nat × Process) : Nat × Process :=
  if a.2.remainingTime < b.2.remainingTime then a
  else if b.2.remainingTime < a.2.remainingTime then b
  else if a.2.arrivalTime < b.2.arrivalTime then a
  else b

/-- Loop state of `simulateSRTF`/`simulatePriorityPreemptive`. -/
structure SimPreState where
  procs : List Process
  t : Nat
  completed : Nat
  lastId : Option Nat
  events : List TickEvent
deriving Repr

/-- One iteration of the `while` loop of `simulateSRTF` (first variant,
lines 563-610), parameterised by the comparator and the preemption phrase so
that `simulatePriorityPreemptive` (lines 747-797, identical up to those two
points) shares the body. -/
def simPreStep (cmp : Nat × Process → Nat × Process → Nat × Process)
    (preemptPhrase : String) (s : SimPreState) : SimPreState :=
  let newly := s.procs.filter fun p => p.arrivalTime == s.t
  let msg0 := if newly.isEmpty then "" else arrivesMsg newly
  let readyIdx := s.procs.enum.filter fun ip =>
    decide (ip.2.arrivalTime ≤ s.t) && decide (0 < ip.2.remainingTime)
  match reduce1 cmp readyIdx with
  | none =>
    let msg := msg0 ++ "CPU is idle."
    { s with
      events := s.events ++
        [⟨s.t, none, [], updateProcessStates s.procs none [] s.t, msg.trim⟩]
      t := s.t + 1
      lastId := none }
  | some ip =>
    let i := ip.1
    let p := ip.2
    let msg1 :=
      if s.lastId ≠ some p.id then
        match (match s.lastId with
               | none => (none : Option Process)
               | some lid => s.procs.find? fun q => q.id == lid) with
        | some lp =>
          if 0 < lp.remainingTime then
            msg0 ++ p.name ++ " preempts " ++ lp.name ++ preemptPhrase
          else msg0 ++ "CPU starts running " ++ p.name ++ "."
        | none => msg0 ++ "CPU starts running " ++ p.name ++ "."
      else msg0
    let p1 := { p with remainingTime := p.remainingTime - 1 }
    let done := p1.remainingTime = 0
    let p2 :=
      if done then
        { p1 with
          completionTime := (s.t : Int) + 1
          turnaroundTime := ((s.t : Int) + 1) - (p.arrivalTime : Int)
          waitingTime := (((s.t : Int) + 1) - (p.arrivalTime : Int)) - (p.burstTime : Int)
          state := ProcState.completed }
      else p1
    let msg2 := if done then msg1 ++ " " ++ p.name ++ " completes execution." else msg1
    let procs1 := s.procs.set i p2
    let readyOther := (readyIdx.map (·.2)).filter fun q => !(q.id == p.id)
    let ev : TickEvent :=
      ⟨s.t, some p2, readyOther,
        updateProcessStates procs1 (some p2) readyOther s.t, msg2.trim⟩
    { procs := procs1, t := s.t + 1,
      completed := if done then s.completed + 1 else s.completed,
      lastId := some p.id, events := s.events ++ [ev] }

/-- `simulateSRTF` (first variant). -/
def simulateSRTF (processes : List Process) : Option (List TickEvent) :=
  if processes = [] then some []
  else
    let n := processes.length
    (iterWhile (fun s => decide (s.completed < n))
        (simPreStep srtfCmp " (shorter remaining time).") (preFuel processes)
        ⟨processes, 0, 0, none, []⟩).map fun s =>
      s.events ++ [allCompleteEvent s.procs s.t]

/-- `simulatePriorityPreemptive` (first variant). -/
def simulatePriorityPreemptive (processes : List Process) : Option (List TickEvent) :=
  if processes = [] then some []
  else
    let n := processes.length
    (iterWhile (fun s => decide (s.completed < n))
        (simPreStep pnpCmp " (higher priority).") (preFuel processes)
        ⟨processes, 0, 0, none, []⟩).map fun s =>
      s.events ++ [allCompleteEvent s.procs s.t]

/-- Loop state of `simulateRoundRobin` (both variants). -/
structure SimRrState where
  procs : List Process
  queue : List Nat
  running : Option Nat
  qc : Nat
  t : Nat
  completed : Nat
  events : List TickEvent
deriving Repr

/-- One iteration of the `while` loop of `simulateRoundRobin` (first
variant, lines 627-672): retire (with commit), enqueue arrivals, dispatch,
execute, yield, advance. -/
def simRrStep (quantum : Nat) (s : SimRrState) : SimRrState :=
  let retired : SimRrState × String := match s.running with
    | none => (s, "")
    | some i =>
      let p := s.procs.getD i default
      if p.remainingTime = 0 then
        let p' := { p with
          completionTime := (s.t : Int)
          turnaroundTime := (s.t : Int) - (p.arrivalTime : Int)
          waitingTime := ((s.t : Int) - (p.arrivalTime : Int)) - (p.burstTime : Int)
          state := ProcState.completed }
        ({ s with
            procs := s.procs.set i p'
            completed := s.completed + 1
            running := none },
          p.name ++ " completes execution. ")
      else if s.qc = quantum then
        ({ s with queue := s.queue ++ [i], running := none },
          "Time quantum for " ++ p.name ++ " expires. Moved to back of queue. ")
      else (s, "")
  let s1 := retired.1
  let newly := s1.procs.enum.filter fun ip => ip.2.arrivalTime == s1.t
  let msg1 := retired.2 ++
    (if newly.isEmpty then "" else arrivesMsg (newly.map (·.2)))
  let arr := (sortLt (fun a b : Nat × Process => decide (a.2.id < b.2.id)) newly).map (·.1)
  let s2 := { s1 with queue := s1.queue ++ arr }
  let dispatched : SimRrState × String := match s2.running, s2.queue with
    | none, i :: rest =>
      ({ s2 with running := some i, queue := rest, qc := 0 },
        "CPU takes " ++ (s2.procs.getD i default).name ++ " from queue.")
    | _, _ => (s2, "")
  let s3 := dispatched.1
  let msg2 := msg1 ++ dispatched.2
  match s3.running with
  | some i =>
    let p := s3.procs.getD i default
    let p' := { p with remainingTime := p.remainingTime - 1 }
    let procs1 := s3.procs.set i p'
    let ready := s3.queue.map fun j => procs1.getD j default
    let ev : TickEvent :=
      ⟨s3.t, some p', ready, updateProcessStates procs1 (some p') ready s3.t,
        msg2.trim⟩
    { s3 with
      procs := procs1
      qc := s3.qc + 1
      t := s3.t + 1
      events := s3.events ++ [ev] }
  | none =>
    let msg3 := if msg2 = "" then "CPU is idle." else msg2
    let ready := s3.queue.map fun j => s3.procs.getD j default
    let ev : TickEvent :=
      ⟨s3.t, none, ready, updateProcessStates s3.procs none ready s3.t,
        msg3.trim⟩
    { s3 with t := s3.t + 1, events := s3.events ++ [ev] }

/-- Fuel bound for the stepwise Round Robin loop (which has no safety
break): executed ticks plus retire-only ticks plus idle ticks. -/
def simRrFuel (procs : List Process) : Nat :=
  ((procs.map (·.remainingTime)).sum + procs.length) * (maxArrival procs + 1) +
    maxArrival procs + 1

/-- `simulateRoundRobin` (first variant). -/
def simulateRoundRobin (processes : List Process) (quantum : Nat) :
    Option (List TickEvent) :=
  if processes = [] then some []
  else
    let n := processes.length
    (iterWhile (fun s => decide (s.completed < n)) (simRrStep quantum)
        (simRrFuel processes) ⟨processes, [], none, 0, 0, 0, []⟩).map fun s =>
      s.events ++ [allCompleteEvent s.procs s.t]

/-- One iteration of the `while` loop of `simulateRoundRobin` (second
variant, lines 1431-1475): enqueue arrivals FIRST (with a ready-queue
narration), then retire (without commit - the commit happens at the
execution tick), dispatch, execute, yield, advance. -/
def simRrStep2 (quantum : Nat) (s : SimRrState) : SimRrState :=
  let newly : List (Nat × Process) :=
    s.procs.enum.filter fun ip => ip.2.arrivalTime == s.t
  let msg0 :=
    if newly.isEmpty then ""
    else
      arrivesMsg (newly.map (·.2)) ++ "Ready queue: [" ++
        String.intercalate ", "
          ((s.queue.map fun j => (s.procs.getD j default).name) ++
            (newly.map fun ip => ip.2.name)) ++ "]. "
  let s1 := { s with queue := s.queue ++ newly.map Prod.fst }
  let retired : SimRrState × String := match s1.running with
    | none => (s1, "")
    | some i =>
      let p := s1.procs.getD i default
      if p.remainingTime = 0 || p.remainingTime ≠ 0 && s1.qc = quantum then
        if 0 < p.remainingTime then
          ({ s1 with queue := s1.queue ++ [i], running := none },
            (if s1.qc = quantum then
              "Time quantum for " ++ p.name ++ " expires. " else "") ++
              p.name ++ " moved to back of queue.")
        else ({ s1 with running := none }, "")
      else (s1, "")
  let s2 := retired.1
  let msg1 := msg0 ++ retired.2
  let dispatched : SimRrState × String := match s2.running, s2.queue with
    | none, i :: rest =>
      ({ s2 with running := some i, queue := rest, qc := 0 },
        "CPU takes " ++ (s2.procs.getD i default).name ++ " from queue.")
    | _, _ => (s2, "")
  let s3 := dispatched.1
  let msg2 := msg1 ++ dispatched.2
  match s3.running with
  | some i =>
    let p := s3.procs.getD i default
    let p1 := { p with remainingTime := p.remainingTime - 1 }
    let done := p1.remainingTime = 0
    let p2 :=
      if done then
        { p1 with
          completionTime := (s3.t : Int) + 1
          turnaroundTime := ((s3.t : Int) + 1) - (p.arrivalTime : Int)
          waitingTime := (((s3.t : Int) + 1) - (p.arrivalTime : Int)) - (p.burstTime : Int)
          state := ProcState.completed }
      else p1
    let msg3 := if done then msg2 ++ " " ++ p.name ++ " completes execution." else msg2
    let procs1 := s3.procs.set i p2
    let ready := s3.queue.map fun j => procs1.getD j default
    let ev : TickEvent :=
      ⟨s3.t, some p2, ready, updateProcessStates procs1 (some p2) ready s3.t,
        msg3.trim⟩
    { s3 with
      procs := procs1
      qc := s3.qc + 1
      t := s3.t + 1
      completed := if done then s3.completed + 1 else s3.completed
      events := s3.events ++ [ev] }
  | none =>
    let msg3 := if msg2 = "" then "CPU is idle." else msg2
    let ready := s3.queue.map fun j => s3.procs.getD j default
    let ev : TickEvent :=
      ⟨s3.t, none, ready, updateProcessStates s3.procs none ready s3.t,
        msg3.trim⟩
    { s3 with t := s3.t + 1, events := s3.events ++ [ev] }

/-- `simulateRoundRobin` (second variant). -/
def simulateRoundRobin2 (processes : List Process) (quantum : Nat) :
    Option (List TickEvent) :=
  if processes = [] then some []
  else
    let n := processes.length
    (iterWhile (fun s => decide (s.completed < n)) (simRrStep2 quantum)
        (simRrFuel processes) ⟨processes, [], none, 0, 0, 0, []⟩).map fun s =>
      s.events ++ [allCompleteEvent s.procs s.t]


/-! ## Additional definitions used by the claim statements -/

/-- The selection loop of `runSJF` (second variant, lines 904-929): a
`forEach` with strict comparisons on `(burstTime, arrivalTime)` over the
non-completed arrived processes.  Returns the selected index. -/
def sjfSel2 (procs : List Process) (t : Nat) (done : List Nat) : Option Nat :=
  (procs.enum.foldl
    (fun st ip =>
      if decide (ip.2.arrivalTime ≤ t) && !(done.contains ip.2.id) then
        if ltInf ip.2.burstTime st.1 then
          (some ip.2.burstTime, some ip.2.arrivalTime, some ip.1)
        else if st.1 == some ip.2.burstTime && ltInf ip.2.arrivalTime st.2.1 then
          (st.1, some ip.2.arrivalTime, some ip.1)
        else st
      else st)
    ((none, none, none) : Option Nat × Option Nat × Option Nat)).2.2

/-- Strict lexicographic order on pairs of naturals (specification side). -/
def lex2Lt (a b : Nat × Nat) : Prop :=
  a.1 < b.1 ∨ (a.1 = b.1 ∧ a.2 < b.2)

instance : DecidableRel lex2Lt := fun _ _ => by
  unfold lex2Lt; infer_instance

/-- The SJF selection key of §4.1: primary `burstTime`, tie-break
`arrivalTime`. -/
def sjfKey (p : Process) : Nat × Nat := (p.burstTime, p.arrivalTime)

/-- `keepMin ltB x y` keeps `x` exactly when it is strictly below `y`;
the shape shared by all `reduce` comparators of the source. -/
def keepMin (ltB : α → α → Bool) (x y : α) : α :=
  if ltB x y then x else y

/-- A process record as the UI creates it: derived fields in their initial
state.  Used for the concrete inputs of the claims. -/
def mkP (id : Nat) (nm : String) (a b : Nat) (c : String) : Process :=
  ⟨id, nm, a, b, none, b, c, 0, 0, 0, ProcState.notArrived⟩

/-- Like `mkP` with a priority value. -/
def mkPr (id : Nat) (nm : String) (a b pr : Nat) (c : String) : Process :=
  ⟨id, nm, a, b, some pr, b, c, 0, 0, 0, ProcState.notArrived⟩

/-- Two distinct processes sharing the display name "A". -/
def exDup : List Process := [mkP 1 "A" 0 1 "c1", mkP 2 "A" 0 1 "c2"]

/-- Two processes tied on `(burstTime, arrivalTime)`, listed in id order. -/
def exTie : List Process := [mkP 1 "P1" 0 2 "c1", mkP 2 "P2" 0 2 "c2"]

/-- `exTie` listed in the opposite order. -/
def exTieRev : List Process := [mkP 2 "P2" 0 2 "c2", mkP 1 "P1" 0 2 "c1"]

/-- The Round Robin example of §8 of the spec. -/
def exRR : List Process := [mkP 1 "P1" 0 5 "c1", mkP 2 "P2" 1 3 "c2"]

/-- A quantum-1 input where P2 arrives exactly when P1's quantum expires. -/
def exCoin : List Process := [mkP 1 "P1" 0 2 "c1", mkP 2 "P2" 1 1 "c2"]

/-- A single one-tick process. -/
def exOne : List Process := [mkP 1 "P1" 0 1 "c1"]

/-- A single process whose burst exceeds the 20000-tick safety ceiling of
the first-variant Round Robin batch engine. -/
def exLong : List Process := [mkP 1 "P1" 0 30000 "c1"]


/-- The single process of `exLong` with `remainingTime` r (the state it
reaches after `30000 - r` executed ticks). -/
def pLong (r : Nat) : Process :=
  ⟨1, "P1", 0, 30000, none, r, "c1", 0, 0, 0, ProcState.notArrived⟩


/-- The per-process metric equations of §3/§8: whenever completion metrics
have been committed (`completionTime` is positive; valid inputs start all
derived fields at 0), the turnaround and waiting equations hold and the
waiting time is non-negative. -/
def MetricsOK (p : Process) : Prop :=
  0 < p.completionTime →
    p.turnaroundTime = p.completionTime - (p.arrivalTime : Int) ∧
    p.waitingTime = p.turnaroundTime - (p.burstTime : Int) ∧
    0 ≤ p.waitingTime


/-- All processes of a list have correct metrics whenever committed. -/
def RrA (procs : List Process) : Prop := ∀ p ∈ procs, MetricsOK p

/-- Burst/remaining accounting of a process list relative to the clock `t`:
positive bursts, `remainingTime ≤ burstTime`, and every consumed time unit
was consumed after arrival. -/
def RrB (t : Nat) (procs : List Process) : Prop :=
  ∀ p ∈ procs, 0 < p.burstTime ∧ p.remainingTime ≤ p.burstTime ∧
    (p.remainingTime < p.burstTime →
      p.arrivalTime + (p.burstTime - p.remainingTime) ≤ t)

/-- Loop invariant of the Round Robin batch engines at loop boundaries:
metrics and accounting are correct, the ready queue holds no duplicates,
the running index (if any) is in bounds, arrived strictly before `t` and
not queued, and every queued index is in bounds, arrived strictly before
`t` and unfinished. -/
def RrInv (s : RrState) : Prop :=
  RrA s.procs ∧ RrB s.t s.procs ∧ s.queue.Nodup ∧
  (∀ i, s.running = some i → i < s.procs.length ∧
    (s.procs.getD i default).arrivalTime < s.t ∧ i ∉ s.queue) ∧
  (∀ j ∈ s.queue, j < s.procs.length ∧
    (s.procs.getD j default).arrivalTime < s.t ∧
    0 < (s.procs.getD j default).remainingTime)

/-- Mid-tick variant of `RrInv`: freshly arrived indices (arrival time
exactly `t`) may already sit in the queue. -/
def RrMid (s : RrState) : Prop :=
  RrA s.procs ∧ RrB s.t s.procs ∧ s.queue.Nodup ∧
  (∀ i, s.running = some i → i < s.procs.length ∧
    (s.procs.getD i default).arrivalTime < s.t ∧ i ∉ s.queue) ∧
  (∀ j ∈ s.queue, j < s.procs.length ∧
    (s.procs.getD j default).arrivalTime ≤ s.t ∧
    0 < (s.procs.getD j default).remainingTime)

/-- After the retirement stage the running process, if still present, has
work left. -/
def RrRun (s : RrState) : Prop :=
  ∀ i, s.running = some i → 0 < (s.procs.getD i default).remainingTime

/-- The committed copy of a process retired at time `t`. -/
def rrCommitP (p : Process) (t : Nat) : Process :=
  { p with
    completionTime := (t : Int)
    turnaroundTime := (t : Int) - (p.arrivalTime : Int)
    waitingTime := ((t : Int) - (p.arrivalTime : Int)) - (p.burstTime : Int) }

/-- Retirement stage of `rrStep` (first variant): commit a finished running
process or rotate it on quantum expiry. -/
def rrRetire (quantum : Nat) (s : RrState) : RrState :=
  match s.running with
  | none => s
  | some i =>
    let p := s.procs.getD i default
    if p.remainingTime = 0 then
      let p' := { p with
        completionTime := (s.t : Int)
        turnaroundTime := (s.t : Int) - (p.arrivalTime : Int)
        waitingTime := ((s.t : Int) - (p.arrivalTime : Int)) - (p.burstTime : Int) }
      { s with
        procs := s.procs.set i p'
        completed := s.completed + 1
        running := none }
    else if s.qc = quantum then
      { s with queue := s.queue ++ [i], running := none }
    else s

/-- Retirement stage of `rrStep2` (second variant): same as `rrRetire` but
the quantum counter is reset on both exits. -/
def rrRetire2 (quantum : Nat) (s : RrState) : RrState :=
  match s.running with
  | none => s
  | some i =>
    let p := s.procs.getD i default
    if p.remainingTime = 0 then
      let p' := { p with
        completionTime := (s.t : Int)
        turnaroundTime := (s.t : Int) - (p.arrivalTime : Int)
        waitingTime := ((s.t : Int) - (p.arrivalTime : Int)) - (p.burstTime : Int) }
      { s with
        procs := s.procs.set i p'
        completed := s.completed + 1
        running := none
        qc := 0 }
    else if s.qc = quantum then
      { s with queue := s.queue ++ [i], running := none, qc := 0 }
    else s

/-- Arrival stage of `rrStep` (first variant): enqueue the indices of the
processes arriving at the current tick, ordered by id. -/
def rrArrive (s : RrState) : RrState :=
  let arr := (sortLt (fun a b : Nat × Process => decide (a.2.id < b.2.id))
      (s.procs.enum.filter fun ip => ip.2.arrivalTime == s.t)).map (·.1)
  { s with queue := s.queue ++ arr }

/-- Arrival stage of `rrStep2` (second variant): like `rrArrive` but only
processes with work left are enqueued. -/
def rrArrive2 (s : RrState) : RrState :=
  let arr := (sortLt (fun a b : Nat × Process => decide (a.2.id < b.2.id))
      (s.procs.enum.filter fun ip =>
        ip.2.arrivalTime == s.t && decide (0 < ip.2.remainingTime))).map (·.1)
  { s with queue := s.queue ++ arr }

/-- Dispatch/execute/advance stages shared by both Round Robin variants. -/
def rrDispatchExec (s2 : RrState) : RrState :=
  let s3 := match s2.running, s2.queue with
    | none, i :: rest => { s2 with running := some i, queue := rest, qc := 0 }
    | _, _ => s2
  let s4 := match s3.running with
    | some i =>
      let p := s3.procs.getD i default
      { s3 with
        procs := s3.procs.set i { p with remainingTime := p.remainingTime - 1 }
        qc := s3.qc + 1
        timeline := s3.timeline ++ [some (⟨p.name, p.color⟩ : Marker)] }
    | none => { s3 with timeline := s3.timeline ++ [(none : Option Marker)] }
  { s4 with t := s4.t + 1 }

/-- Completion-time accounting of the Round Robin loop at loop boundaries:
committed completion times lie between `arrival + burst` and `t - 1`, the
`completed` counter counts exactly the committed processes, running and
queued processes are uncommitted, and when the counter reaches `n` some
process was committed at tick `t - 1`. -/
def RrC8 (n : Nat) (s : RrState) : Prop :=
  (∀ p ∈ s.procs, p.completionTime = 0 ∨
    ((p.arrivalTime : Int) + (p.burstTime : Int) ≤ p.completionTime ∧
      p.completionTime < (s.t : Int))) ∧
  s.completed = s.procs.countP (fun p => decide (0 < p.completionTime)) ∧
  (∀ i, s.running = some i → (s.procs.getD i default).completionTime = 0) ∧
  (∀ j ∈ s.queue, (s.procs.getD j default).completionTime = 0) ∧
  (s.completed = n → ∃ p ∈ s.procs, p.completionTime = (s.t : Int) - 1)

/-- Mid-tick variant of `RrC8`: a completion may have been committed at the
current tick `t`, which the clock has not yet passed. -/
def RrC8Mid (n : Nat) (s : RrState) : Prop :=
  (∀ p ∈ s.procs, p.completionTime = 0 ∨
    ((p.arrivalTime : Int) + (p.burstTime : Int) ≤ p.completionTime ∧
      p.completionTime ≤ (s.t : Int))) ∧
  s.completed = s.procs.countP (fun p => decide (0 < p.completionTime)) ∧
  (∀ i, s.running = some i → (s.procs.getD i default).completionTime = 0) ∧
  (∀ j ∈ s.queue, (s.procs.getD j default).completionTime = 0) ∧
  (s.completed = n → ∃ p ∈ s.procs, p.completionTime = (s.t : Int))

/-- Retirement stage of `simRrStep` (first-variant stepwise Round Robin),
paired with the narration fragment it contributes. -/
def simRrRetire (quantum : Nat) (s : SimRrState) : SimRrState × String :=
  match s.running with
  | none => (s, "")
  | some i =>
    let p := s.procs.getD i default
    if p.remainingTime = 0 then
      let p' := { p with
        completionTime := (s.t : Int)
        turnaroundTime := (s.t : Int) - (p.arrivalTime : Int)
        waitingTime := ((s.t : Int) - (p.arrivalTime : Int)) - (p.burstTime : Int)
        state := ProcState.completed }
      ({ s with
          procs := s.procs.set i p'
          completed := s.completed + 1
          running := none },
        p.name ++ " completes execution. ")
    else if s.qc = quantum then
      ({ s with queue := s.queue ++ [i], running := none },
        "Time quantum for " ++ p.name ++ " expires. Moved to back of queue. ")
    else (s, "")

/-- Arrival stage of `simRrStep`. -/
def simRrArrive (sp : SimRrState × String) : SimRrState × String :=
  let s1 := sp.1
  let newly := s1.procs.enum.filter fun ip => ip.2.arrivalTime == s1.t
  let msg1 := sp.2 ++
    (if newly.isEmpty then "" else arrivesMsg (newly.map (·.2)))
  let arr := (sortLt (fun a b : Nat × Process => decide (a.2.id < b.2.id)) newly).map (·.1)
  ({ s1 with queue := s1.queue ++ arr }, msg1)

/-- Dispatch stage shared by both stepwise Round Robin variants. -/
def simRrDispatch (sp : SimRrState × String) : SimRrState × String :=
  let s2 := sp.1
  let dispatched : SimRrState × String := match s2.running, s2.queue with
    | none, i :: rest =>
      ({ s2 with running := some i, queue := rest, qc := 0 },
        "CPU takes " ++ (s2.procs.getD i default).name ++ " from queue.")
    | _, _ => (s2, "")
  (dispatched.1, sp.2 ++ dispatched.2)

/-- Execution stage of `simRrStep` (first variant: no commit here). -/
def simRrExec (sp : SimRrState × String) : SimRrState :=
  let s3 := sp.1
  let msg2 := sp.2
  match s3.running with
  | some i =>
    let p := s3.procs.getD i default
    let p' := { p with remainingTime := p.remainingTime - 1 }
    let procs1 := s3.procs.set i p'
    let ready := s3.queue.map fun j => procs1.getD j default
    let ev : TickEvent :=
      ⟨s3.t, some p', ready, updateProcessStates procs1 (some p') ready s3.t,
        msg2.trim⟩
    { s3 with
      procs := procs1
      qc := s3.qc + 1
      t := s3.t + 1
      events := s3.events ++ [ev] }
  | none =>
    let msg3 := if msg2 = "" then "CPU is idle." else msg2
    let ready := s3.queue.map fun j => s3.procs.getD j default
    let ev : TickEvent :=
      ⟨s3.t, none, ready, updateProcessStates s3.procs none ready s3.t,
        msg3.trim⟩
    { s3 with t := s3.t + 1, events := s3.events ++ [ev] }

/-- Arrival stage of `simRrStep2` (second variant: unsorted, with the
ready-queue narration). -/
def simRrArrive2 (s : SimRrState) : SimRrState × String :=
  let newly : List (Nat × Process) :=
    s.procs.enum.filter fun ip => ip.2.arrivalTime == s.t
  let msg0 :=
    if newly.isEmpty then ""
    else
      arrivesMsg (newly.map (·.2)) ++ "Ready queue: [" ++
        String.intercalate ", "
          ((s.queue.map fun j => (s.procs.getD j default).name) ++
            (newly.map fun ip => ip.2.name)) ++ "]. "
  ({ s with queue := s.queue ++ newly.map Prod.fst }, msg0)

/-- Retirement stage of `simRrStep2` (second variant: no commit; a finished
or expired running process is dropped or rotated). -/
def simRrRetire2 (quantum : Nat) (sp : SimRrState × String) : SimRrState × String :=
  let s1 := sp.1
  let retired : SimRrState × String := match s1.running with
    | none => (s1, "")
    | some i =>
      let p := s1.procs.getD i default
      if p.remainingTime = 0 || p.remainingTime ≠ 0 && s1.qc = quantum then
        if 0 < p.remainingTime then
          ({ s1 with queue := s1.queue ++ [i], running := none },
            (if s1.qc = quantum then
              "Time quantum for " ++ p.name ++ " expires. " else "") ++
              p.name ++ " moved to back of queue.")
        else ({ s1 with running := none }, "")
      else (s1, "")
  (retired.1, sp.2 ++ retired.2)

/-- Execution stage of `simRrStep2` (second variant: commit happens here). -/
def simRrExec2 (sp : SimRrState × String) : SimRrState :=
  let s3 := sp.1
  let msg2 := sp.2
  match s3.running with
  | some i =>
    let p := s3.procs.getD i default
    let p1 := { p with remainingTime := p.remainingTime - 1 }
    let done := p1.remainingTime = 0
    let p2 :=
      if done then
        { p1 with
          completionTime := (s3.t : Int) + 1
          turnaroundTime := ((s3.t : Int) + 1) - (p.arrivalTime : Int)
          waitingTime := (((s3.t : Int) + 1) - (p.arrivalTime : Int)) - (p.burstTime : Int)
          state := ProcState.completed }
      else p1
    let msg3 := if done then msg2 ++ " " ++ p.name ++ " completes execution." else msg2
    let procs1 := s3.procs.set i p2
    let ready := s3.queue.map fun j => procs1.getD j default
    let ev : TickEvent :=
      ⟨s3.t, some p2, ready, updateProcessStates procs1 (some p2) ready s3.t,
        msg3.trim⟩
    { s3 with
      procs := procs1
      qc := s3.qc + 1
      t := s3.t + 1
      completed := if done then s3.completed + 1 else s3.completed
      events := s3.events ++ [ev] }
  | none =>
    let msg3 := if msg2 = "" then "CPU is idle." else msg2
    let ready := s3.queue.map fun j => s3.procs.getD j default
    let ev : TickEvent :=
      ⟨s3.t, none, ready, updateProcessStates s3.procs none ready s3.t,
        msg3.trim⟩
    { s3 with t := s3.t + 1, events := s3.events ++ [ev] }

/-- The committed copy of a process in the stepwise engines (retire-commit
of the first-variant stepwise Round Robin). -/
def simCommitP (p : Process) (t : Nat) : Process :=
  { p with
    completionTime := (t : Int)
    turnaroundTime := (t : Int) - (p.arrivalTime : Int)
    waitingTime := ((t : Int) - (p.arrivalTime : Int)) - (p.burstTime : Int)
    state := ProcState.completed }

/-- A process after one executed tick (no completion). -/
def rrStepP (p : Process) : Process :=
  { p with remainingTime := p.remainingTime - 1 }

/-- A process after one executed tick that finishes it (commit-at-execution
of the preemptive and second-variant Round Robin stepwise engines). -/
def rrDoneP (p : Process) (t : Nat) : Process :=
  { p with
    remainingTime := p.remainingTime - 1
    completionTime := (t : Int) + 1
    turnaroundTime := ((t : Int) + 1) - (p.arrivalTime : Int)
    waitingTime := (((t : Int) + 1) - (p.arrivalTime : Int)) - (p.burstTime : Int)
    state := ProcState.completed }

/-- Loop invariant of the first-variant stepwise Round Robin. -/
def SimRrInv (n A : Nat) (st : SimRrState) : Prop :=
  st.procs.length = n ∧
  (∀ p ∈ st.procs, p.arrivalTime ≤ A ∧ 0 < p.burstTime) ∧
  st.completed = st.procs.countP (fun p => p.state == ProcState.completed) ∧
  st.queue.Nodup ∧
  (∀ i, st.running = some i → i < st.procs.length ∧
    (st.procs.getD i default).state ≠ ProcState.completed ∧
    (st.procs.getD i default).arrivalTime < st.t ∧ i ∉ st.queue) ∧
  (∀ j ∈ st.queue, j < st.procs.length ∧
    0 < (st.procs.getD j default).remainingTime ∧
    (st.procs.getD j default).state ≠ ProcState.completed ∧
    (st.procs.getD j default).arrivalTime < st.t) ∧
  (∀ j, j < st.procs.length →
    (st.procs.getD j default).state ≠ ProcState.completed →
    (st.procs.getD j default).arrivalTime < st.t →
    j ∈ st.queue ∨ st.running = some j) ∧
  (∀ p ∈ st.procs, st.t ≤ p.arrivalTime →
    p.remainingTime = p.burstTime ∧ p.state ≠ ProcState.completed)

/-- Loop invariant of the second-variant stepwise Round Robin. -/
def SimRrInv2 (n A : Nat) (st : SimRrState) : Prop :=
  st.procs.length = n ∧
  (∀ p ∈ st.procs, p.arrivalTime ≤ A ∧ 0 < p.burstTime) ∧
  st.completed = st.procs.countP (fun p => p.state == ProcState.completed) ∧
  st.queue.Nodup ∧
  (∀ p ∈ st.procs, p.state = ProcState.completed ↔ p.remainingTime = 0) ∧
  (∀ i, st.running = some i → i < st.procs.length ∧
    (st.procs.getD i default).arrivalTime < st.t ∧ i ∉ st.queue) ∧
  (∀ j ∈ st.queue, j < st.procs.length ∧
    0 < (st.procs.getD j default).remainingTime ∧
    (st.procs.getD j default).arrivalTime < st.t) ∧
  (∀ j, j < st.procs.length →
    (st.procs.getD j default).state ≠ ProcState.completed →
    (st.procs.getD j default).arrivalTime < st.t →
    j ∈ st.queue ∨ st.running = some j) ∧
  (∀ p ∈ st.procs, st.t ≤ p.arrivalTime →
    p.remainingTime = p.burstTime ∧ p.state ≠ ProcState.completed)

/-- Termination measure shared by both stepwise Round Robin variants. -/
def simRrMeasure (n A : Nat) (st : SimRrState) : Nat :=
  ((st.procs.map (fun p => p.remainingTime)).sum + (n - st.completed)) * (A + 1) +
    (A - st.t)

/-- Mid-tick invariant of the first-variant stepwise Round Robin, after
retirement and arrivals and before dispatch/execution. -/
def SimMid (n A : Nat) (st : SimRrState) : Prop :=
  st.procs.length = n ∧
  (∀ p ∈ st.procs, p.arrivalTime ≤ A ∧ 0 < p.burstTime) ∧
  st.completed = st.procs.countP (fun p => p.state == ProcState.completed) ∧
  st.queue.Nodup ∧
  (∀ i, st.running = some i → i < st.procs.length ∧
    (st.procs.getD i default).state ≠ ProcState.completed ∧
    (st.procs.getD i default).arrivalTime < st.t ∧
    0 < (st.procs.getD i default).remainingTime ∧ i ∉ st.queue) ∧
  (∀ j ∈ st.queue, j < st.procs.length ∧
    0 < (st.procs.getD j default).remainingTime ∧
    (st.procs.getD j default).state ≠ ProcState.completed ∧
    (st.procs.getD j default).arrivalTime ≤ st.t) ∧
  (∀ j, j < st.procs.length →
    (st.procs.getD j default).state ≠ ProcState.completed →
    (st.procs.getD j default).arrivalTime ≤ st.t →
    j ∈ st.queue ∨ st.running = some j) ∧
  (∀ p ∈ st.procs, st.t ≤ p.arrivalTime →
    p.remainingTime = p.burstTime ∧ p.state ≠ ProcState.completed)

/-- Mid-tick invariant of the second-variant stepwise Round Robin, after
arrivals and retirement and before dispatch/execution. -/
def SimMid2 (n A : Nat) (st : SimRrState) : Prop :=
  st.procs.length = n ∧
  (∀ p ∈ st.procs, p.arrivalTime ≤ A ∧ 0 < p.burstTime) ∧
  st.completed = st.procs.countP (fun p => p.state == ProcState.completed) ∧
  st.queue.Nodup ∧
  (∀ p ∈ st.procs, p.state = ProcState.completed ↔ p.remainingTime = 0) ∧
  (∀ i, st.running = some i → i < st.procs.length ∧
    (st.procs.getD i default).arrivalTime < st.t ∧
    0 < (st.procs.getD i default).remainingTime ∧ i ∉ st.queue) ∧
  (∀ j ∈ st.queue, j < st.procs.length ∧
    0 < (st.procs.getD j default).remainingTime ∧
    (st.procs.getD j default).arrivalTime ≤ st.t) ∧
  (∀ j, j < st.procs.length →
    (st.procs.getD j default).state ≠ ProcState.completed →
    (st.procs.getD j default).arrivalTime ≤ st.t →
    j ∈ st.queue ∨ st.running = some j) ∧
  (∀ p ∈ st.procs, st.t ≤ p.arrivalTime →
    p.remainingTime = p.burstTime ∧ p.state ≠ ProcState.completed)

/-! ## Lemmas and theorems -/

lemma ganttSpec_start_ge :
    ∀ (tl : List (Option Marker)) (i : Nat), ∀ s ∈ ganttSpec tl i, i ≤ s.start := by
  intro tl
  induction tl with
  | nil => intro i s hs; simp [ganttSpec] at hs
  | cons m rest ih =>
    intro i s hs
    cases m with
    | none =>
      have := ih (i + 1) s (by simpa [ganttSpec] using hs)
      omega
    | some mk =>
      simp only [ganttSpec, glue] at hs
      cases hspec : ganttSpec rest (i + 1) with
      | nil =>
        rw [hspec] at hs
        simp at hs
        simp [hs]
      | cons s0 rest0 =>
        rw [hspec] at hs
        by_cases hcond : s0.start = i + 1 ∧ s0.processName = mk.processName
        · simp only [if_pos hcond] at hs
          rcases List.mem_cons.1 hs with h | h
          · simp [h]
          · have := ih (i + 1) s (by rw [hspec]; exact List.mem_cons_of_mem _ h)
            omega
        · simp only [if_neg hcond] at hs
          rcases List.mem_cons.1 hs with h | h
          · simp [h]
          · have := ih (i + 1) s (by rw [hspec]; exact h)
            omega

lemma glue_glue (e : GanttEntry) (nm : String) (c : String) (S : List GanttEntry)
    (hnm : e.processName = nm) :
    glue e (glue ⟨nm, e.stop, e.stop + 1, c⟩ S) = glue { e with stop := e.stop + 1 } S := by
  cases S with
  | nil => simp [glue, hnm]
  | cons s rest =>
    by_cases hc : s.start = e.stop + 1 ∧ s.processName = nm
    · simp only [glue, if_pos hc]
      have : s.start = ({ e with stop := e.stop + 1 } : GanttEntry).stop ∧
          s.processName = ({ e with stop := e.stop + 1 } : GanttEntry).processName := by
        simpa [hnm] using hc
      simp [glue, this, hnm]
    · have hc' : ¬ (s.start = ({ e with stop := e.stop + 1 } : GanttEntry).stop ∧
          s.processName = ({ e with stop := e.stop + 1 } : GanttEntry).processName) := by
        simpa [hnm] using hc
      simp [glue, if_neg hc, if_neg hc', hnm]

lemma glue_head_start (e : GanttEntry) (S : List GanttEntry) :
    ∃ st rest, glue e S = { e with stop := st } :: rest := by
  cases S with
  | nil => exact ⟨e.stop, [], by simp [glue]⟩
  | cons s rest =>
    by_cases hc : s.start = e.stop ∧ s.processName = e.processName
    · exact ⟨s.stop, rest, by simp [glue, if_pos hc]⟩
    · exact ⟨e.stop, s :: rest, by simp [glue, if_neg hc]⟩

/-- The two builder-loop lemmas, proved simultaneously: with no open entry the
loop appends `ganttSpec`; with an open entry ending at the current index the
loop appends the open entry glued onto `ganttSpec`. -/
lemma ganttLoop_spec :
    ∀ (tl : List (Option Marker)) (i : Nat) (acc : List GanttEntry),
      ganttLoop tl i acc none = acc ++ ganttSpec tl i ∧
      ∀ e : GanttEntry, e.stop = i →
        ganttLoop tl i acc (some e) = acc ++ glue e (ganttSpec tl i) := by
  intro tl
  induction tl with
  | nil =>
    intro i acc
    constructor
    · simp [ganttLoop, ganttSpec]
    · intro e _
      simp [ganttLoop, ganttSpec, glue]
  | cons m rest ih =>
    intro i acc
    constructor
    · cases m with
      | none =>
        simpa [ganttLoop, ganttSpec] using (ih (i + 1) acc).1
      | some mk =>
        have h2 := (ih (i + 1) acc).2 ⟨mk.processName, i, i + 1, mk.color⟩ rfl
        simpa [ganttLoop, ganttSpec] using h2
    · intro e he
      cases m with
      | none =>
        -- idle tick: the open entry is pushed; later segments start at ≥ i+1.
        have h1 := (ih (i + 1) (acc ++ [e])).1
        have hge := ganttSpec_start_ge rest (i + 1)
        have hng : glue e (ganttSpec rest (i + 1)) = e :: ganttSpec rest (i + 1) := by
          cases hspec : ganttSpec rest (i + 1) with
          | nil => simp [glue]
          | cons s0 r0 =>
            have hle : i + 1 ≤ s0.start := hge s0 (by rw [hspec]; exact List.mem_cons_self _ _)
            have hc : ¬ (s0.start = e.stop ∧ s0.processName = e.processName) := by
              rintro ⟨h1', _⟩
              omega
            simp [glue, if_neg hc]
        simp only [ganttLoop, ganttSpec]
        rw [h1, hng]
        simp
      | some mk =>
        by_cases hnm : e.processName = mk.processName
        · -- same name: the open entry is extended one tick.
          have h2 := (ih (i + 1) acc).2 { e with stop := i + 1 } rfl
          have hg : glue e (glue ⟨mk.processName, i, i + 1, mk.color⟩ (ganttSpec rest (i + 1)))
              = glue { e with stop := i + 1 } (ganttSpec rest (i + 1)) := by
            have := glue_glue e mk.processName mk.color (ganttSpec rest (i + 1)) hnm
            rw [he] at this
            exact this
          simp only [ganttLoop, if_pos hnm, ganttSpec]
          rw [h2, hg]
        · -- name change: the open entry is pushed, a fresh one opened.
          have h2 := (ih (i + 1) (acc ++ [e])).2 ⟨mk.processName, i, i + 1, mk.color⟩ rfl
          have hng : glue e (glue ⟨mk.processName, i, i + 1, mk.color⟩ (ganttSpec rest (i + 1)))
              = e :: glue ⟨mk.processName, i, i + 1, mk.color⟩ (ganttSpec rest (i + 1)) := by
            obtain ⟨st, r0, hr0⟩ :=
              glue_head_start ⟨mk.processName, i, i + 1, mk.color⟩ (ganttSpec rest (i + 1))
            rw [hr0]
            have hc : ¬ (((⟨mk.processName, i, st, mk.color⟩ : GanttEntry).start = e.stop ∧
                (⟨mk.processName, i, st, mk.color⟩ : GanttEntry).processName
                  = e.processName)) := by
              intro hcon
              exact hnm hcon.2.symm
            simp [glue, if_neg hc]
          simp only [ganttLoop, if_neg hnm, ganttSpec]
          rw [h2, hng]
          simp

lemma ganttLoop2_eq :
    ∀ (tl : List (Option Marker)) (i : Nat) (acc : List GanttEntry)
      (cur : Option GanttEntry), ganttLoop2 tl i acc cur = ganttLoop tl i acc cur := by
  intro tl
  induction tl with
  | nil => intro i acc cur; cases cur <;> rfl
  | cons m rest ih =>
    intro i acc cur
    cases m with
    | none => cases cur <;> simp [ganttLoop, ganttLoop2, ih]
    | some mk =>
      cases cur with
      | none => simp [ganttLoop, ganttLoop2, ih]
      | some e =>
        by_cases hnm : e.processName = mk.processName
        · simp [ganttLoop, ganttLoop2, hnm, ih]
        · simp [ganttLoop, ganttLoop2, hnm, ih]

lemma buildGanttChart_eq_spec (tl : List (Option Marker)) :
    buildGanttChart tl = ganttSpec tl 0 := by
  simpa [buildGanttChart] using (ganttLoop_spec tl 0 []).1

lemma buildGanttChart2_eq_spec (tl : List (Option Marker)) :
    buildGanttChart2 tl = ganttSpec tl 0 := by
  rw [buildGanttChart2, ganttLoop2_eq]
  simpa [buildGanttChart] using (ganttLoop_spec tl 0 []).1

lemma iterWhile_of_measure (cond : α → Bool) (step : α → α) (I : α → Prop)
    (μ : α → Nat)
    (pres : ∀ s, I s → cond s = true → I (step s))
    (dec : ∀ s, I s → cond s = true → μ (step s) < μ s) :
    ∀ (fuel : Nat) (s : α), I s → μ s < fuel →
      ∃ t, iterWhile cond step fuel s = some t := by
  intro fuel
  induction fuel with
  | zero => intro s _ h; omega
  | succ k ih =>
    intro s hI hμ
    by_cases hc : cond s = true
    · obtain ⟨t, ht⟩ := ih (step s) (pres s hI hc)
        (by have := dec s hI hc; omega)
      exact ⟨t, by simpa [iterWhile, hc] using ht⟩
    · refine ⟨s, ?_⟩
      simp only [iterWhile]
      rw [if_neg hc]

lemma iterWhile_invariant (cond : α → Bool) (step : α → α) (I : α → Prop)
    (pres : ∀ s, I s → cond s = true → I (step s)) :
    ∀ (fuel : Nat) (s t : α), I s → iterWhile cond step fuel s = some t →
      I t ∧ cond t = false := by
  intro fuel
  induction fuel with
  | zero =>
    intro s t hI h
    by_cases hc : cond s = true
    · simp [iterWhile, hc] at h
    · simp only [iterWhile, if_neg hc] at h
      cases h
      exact ⟨hI, by simpa using hc⟩
  | succ k ih =>
    intro s t hI h
    by_cases hc : cond s = true
    · simp only [iterWhile, if_pos hc] at h
      exact ih (step s) t (pres s hI hc) h
    · simp only [iterWhile, if_neg hc] at h
      cases h
      exact ⟨hI, by simpa using hc⟩

/-- If the loop was entered (`cond s` holds initially) and returned, then the
returned state is `step` of some intermediate state that still satisfied the
loop condition (the final iteration). -/
lemma iterWhile_last_step (cond : α → Bool) (step : α → α) (I : α → Prop)
    (pres : ∀ s, I s → cond s = true → I (step s)) :
    ∀ (fuel : Nat) (s t : α), I s → cond s = true →
      iterWhile cond step fuel s = some t →
      ∃ s₀, I s₀ ∧ cond s₀ = true ∧ t = step s₀ := by
  intro fuel
  induction fuel with
  | zero => intro s t _ hc h; simp [iterWhile, hc] at h
  | succ k ih =>
    intro s t hI hc h
    simp only [iterWhile, if_pos hc] at h
    by_cases hc' : cond (step s) = true
    · exact ih (step s) t (pres s hI hc) hc' h
    · refine ⟨s, hI, hc, ?_⟩
      cases k with
      | zero => simpa [iterWhile, hc'] using h.symm
      | succ k' => simpa [iterWhile, hc'] using h.symm

/-! ## Claim theorems (concrete evaluations) -/

/-- Claim C1: the batch engine and the stepwise generator are claimed to
agree on final completion metrics for every valid input and policy.  The two
SRTF implementations break ties on `(remainingTime, arrivalTime)` in opposite
directions (the batch `forEach` keeps the first array position, the stepwise
`reduce` keeps the last), so on two processes tied on both keys the batch
engine completes P1 at 2 and P2 at 4 while exhausting the stepwise generator
yields P1 at 4 and P2 at 2. -/
theorem c1_srtf_batch_stepwise_diverge :
    ValidInput exTie ∧
    (runSRTF exTie).map
        (fun r => r.processes.map fun p => (p.name, p.completionTime)) =
      some [("P1", (2 : Int)), ("P2", (4 : Int))] ∧
    (simulateSRTF exTie).map
        (fun evs => evs.getLast?.map fun e =>
          e.processes.map fun p => (p.name, p.completionTime)) =
      some (some [("P1", (4 : Int)), ("P2", (2 : Int))]) := by
  refine ⟨by decide, by decide, by decide⟩

/-- Claim C2: with two distinct processes that share the display name "A"
(a valid input - only ids must be unique), `runFCFS` runs P1 on `[0,1)` and
P2 on `[1,2)` but produces the single merged Gantt entry `("A", 0, 2)`,
because `GanttEntry` is keyed by `processName`.  No assignment of chart
entries to the two processes can make each process's segment durations sum
to its one-tick burst. -/
theorem c2_duplicate_names_break_burst_sum :
    ValidInput exDup ∧
    (runFCFS exDup).ganttChart = [⟨"A", 0, 2, "c1"⟩] ∧
    (runFCFS exDup).processes.map (fun p => (p.id, p.burstTime, p.completionTime)) =
      [(1, 1, (1 : Int)), (2, 1, (2 : Int))] := by
  refine ⟨by decide, by decide, by decide⟩

/-- Claim C4 (counterexample): the second-variant Round Robin batch engine
enqueues new arrivals BEFORE retiring the expired process.  On
`P1(arrival 0, burst 2)`, `P2(arrival 1, burst 1)` with quantum 1, P1's
quantum expires at tick 1 exactly when P2 arrives; the newly arrived P2 is
queued first and receives tick 1, so the chart is P1:[0,1), P2:[1,2),
P1:[2,3) - under the claimed retire-before-enqueue order P1 would have
received tick 1. -/
theorem c4_counterexample :
    ValidInput exCoin ∧
    (runRoundRobin2 exCoin 1).map
        (fun r => (r.ganttChart.map fun e => (e.processName, e.start, e.stop),
          r.processes.map fun p => (p.name, p.completionTime))) =
      some ([("P1", 0, 1), ("P2", 1, 2), ("P1", 2, 3)],
        [("P1", (3 : Int)), ("P2", (2 : Int))]) := by
  refine ⟨by decide, by decide⟩

/-- Claim C4 (amended): the first-variant engines (batch and stepwise) apply
retire-before-enqueue-before-dispatch, so on the coincident input the
expired P1 precedes the arriving P2 and the result is P1:[0,2), P2:[2,3)
with completions P1 = 2, P2 = 3; the second-variant engines (batch and
stepwise) enqueue arrivals first, giving P1:[0,1), P2:[1,2), P1:[2,3) with
completions P2 = 2, P1 = 3. -/
theorem c4_amended :
    (runRoundRobin exCoin 1).map
        (fun r => (r.ganttChart.map fun e => (e.processName, e.start, e.stop),
          r.processes.map fun p => (p.name, p.completionTime))) =
      some ([("P1", 0, 2), ("P2", 2, 3)], [("P1", (2 : Int)), ("P2", (3 : Int))]) ∧
    (runRoundRobin2 exCoin 1).map
        (fun r => (r.ganttChart.map fun e => (e.processName, e.start, e.stop),
          r.processes.map fun p => (p.name, p.completionTime))) =
      some ([("P1", 0, 1), ("P2", 1, 2), ("P1", 2, 3)],
        [("P1", (3 : Int)), ("P2", (2 : Int))]) ∧
    (simulateRoundRobin exCoin 1).map
        (fun evs => evs.getLast?.map fun e =>
          e.processes.map fun p => (p.name, p.completionTime)) =
      some (some [("P1", (2 : Int)), ("P2", (3 : Int))]) ∧
    (simulateRoundRobin2 exCoin 1).map
        (fun evs => evs.getLast?.map fun e =>
          e.processes.map fun p => (p.name, p.completionTime)) =
      some (some [("P1", (3 : Int)), ("P2", (2 : Int))]) := by
  refine ⟨by decide, by decide, by decide, by decide⟩

/-- Claim C5 (counterexample): on the spec's own Round Robin example
(quantum 2, P1(0,5), P2(1,3)) the engine does NOT return the claimed
segments `..., P1:[7,9)` and completion `P1 = 9` (those would give P1 six
executed ticks against a burst of five); the final segment is `P1:[7,8)`
and P1 completes at 8. -/
theorem c5_counterexample :
    ¬ ((runRoundRobin exRR 2).map
        (fun r => (r.ganttChart.map fun e => (e.processName, e.start, e.stop),
          r.processes.map fun p => (p.name, p.completionTime))) =
      some ([("P1", 0, 2), ("P2", 2, 4), ("P1", 4, 6), ("P2", 6, 7), ("P1", 7, 9)],
        [("P1", (9 : Int)), ("P2", (7 : Int))])) := by
  decide

/-- Claim C5 (amended): Round Robin with quantum 2 on P1(arrival 0, burst 5),
P2(arrival 1, burst 3) returns the segments P1:[0,2), P2:[2,4), P1:[4,6),
P2:[6,7), P1:[7,8) and completions P2 = 7, P1 = 8, in both batch variants. -/
theorem c5_amended :
    ValidInput exRR ∧
    (runRoundRobin exRR 2).map
        (fun r => (r.ganttChart.map fun e => (e.processName, e.start, e.stop),
          r.processes.map fun p => (p.name, p.completionTime))) =
      some ([("P1", 0, 2), ("P2", 2, 4), ("P1", 4, 6), ("P2", 6, 7), ("P1", 7, 8)],
        [("P1", (8 : Int)), ("P2", (7 : Int))]) ∧
    (runRoundRobin2 exRR 2).map
        (fun r => (r.ganttChart.map fun e => (e.processName, e.start, e.stop),
          r.processes.map fun p => (p.name, p.completionTime))) =
      some ([("P1", 0, 2), ("P2", 2, 4), ("P1", 4, 6), ("P2", 6, 7), ("P1", 7, 8)],
        [("P1", (8 : Int)), ("P2", (7 : Int))]) := by
  refine ⟨by decide, by decide, by decide⟩

/-- Claim C6 (counterexample): the timeline builder merges by process NAME,
not by process id.  In the `runFCFS` run on two same-named processes, tick 0
belongs to process id 1 and tick 1 to process id 2 (their completions are 1
and 2), yet the chart contains a single merged segment spanning both. -/
theorem c6_counterexample :
    (runFCFS exDup).ganttChart.length = 1 ∧
    (runFCFS exDup).processes.map (fun p => (p.id, p.completionTime)) =
      [(1, (1 : Int)), (2, (2 : Int))] := by
  refine ⟨by decide, by decide⟩

/-- Claim C8 (counterexample): the first-variant Round Robin batch engine
returns `totalTime = currentTime` after a final retire-and-idle iteration,
which is one more than the last completion tick: on a single one-tick
process the completion time is 1 but `totalTime` is 2. -/
theorem c8_counterexample :
    ValidInput exOne ∧
    (runRoundRobin exOne 1).map
        (fun r => (r.totalTime, r.processes.map fun p => p.completionTime)) =
      some (2, [(1 : Int)]) ∧
    ¬ ((runRoundRobin exOne 1).map (fun r => (r.totalTime : Int)) =
        some (1 : Int)) := by
  refine ⟨by decide, by decide, by decide⟩

/-- Claim C10 (counterexample): on the empty process list (a valid input)
every stepwise generator returns immediately and yields NO events at all,
so the sequence is not terminated by an all-processes-complete event. -/
theorem c10_counterexample :
    simulateFCFS [] = [] ∧ (simulateFCFS []).getLast? = none ∧
    simulateSJF [] = some [] ∧ simulateSRTF [] = some [] ∧
    simulateRoundRobin [] 1 = some [] ∧
    simulatePriorityNonPreemptive [] = some [] ∧
    simulatePriorityPreemptive [] = some [] := by
  refine ⟨rfl, rfl, rfl, rfl, rfl, rfl, rfl⟩

/-! ## Selection characterizations (C7) -/

lemma keepMin_foldl_split (ltB : α → α → Bool)
    (asym : ∀ a b, ltB a b = true → ltB b a = false)
    (negtrans : ∀ a b c, ltB a b = false → ltB b c = false → ltB a c = false)
    (mixed : ∀ a b c, ltB b a = false → ltB b c = true → ltB a c = true) :
    ∀ (xs : List α) (a : α),
      ∃ l₁ l₂, a :: xs = l₁ ++ (xs.foldl (keepMin ltB) a) :: l₂ ∧
        (∀ q ∈ a :: xs, ltB q (xs.foldl (keepMin ltB) a) = false) ∧
        (∀ q ∈ l₂, ltB (xs.foldl (keepMin ltB) a) q = true) := by
  have irrefl : ∀ a, ltB a a = false := by
    intro a
    by_cases h : ltB a a = true
    · have := asym a a h
      rw [this] at h
      exact absurd h (by simp)
    · simpa using h
  intro xs
  induction xs with
  | nil =>
    intro a
    refine ⟨[], [], by simp [List.foldl], ?_, by simp⟩
    intro q hq
    simp only [List.foldl]
    simp at hq
    simpa [hq] using irrefl a
  | cons x xs ih =>
    intro a
    by_cases h : ltB a x = true
    · -- keepMin a x = a
      have hk : keepMin ltB a x = a := by simp [keepMin, h]
      obtain ⟨l₁, l₂, hsplit, hmin, hstrict⟩ := ih a
      have hfold : (x :: xs).foldl (keepMin ltB) a = xs.foldl (keepMin ltB) a := by
        simp [List.foldl, hk]
      cases l₁ with
      | nil =>
        simp only [List.nil_append] at hsplit
        have hr : xs.foldl (keepMin ltB) a = a := (List.cons.inj hsplit.symm).1
        have hl₂ : l₂ = xs := (List.cons.inj hsplit.symm).2
        refine ⟨[], x :: xs, by simp [hfold, hr], ?_, ?_⟩
        · intro q hq
          rw [hfold, hr]
          rcases List.mem_cons.1 hq with rfl | hq'
          · exact irrefl q
          · rcases List.mem_cons.1 hq' with rfl | hq''
            · exact asym a q h
            · have := hmin q (by simp [hq''])
              rwa [hr] at this
        · intro q hq
          rw [hfold, hr]
          rcases List.mem_cons.1 hq with rfl | hq'
          · exact h
          · have := hstrict q (by rw [hl₂]; exact hq')
            rwa [hr] at this
      | cons b l₁' =>
        have hsplit' : a :: xs = b :: (l₁' ++ xs.foldl (keepMin ltB) a :: l₂) := by
          simpa using hsplit
        have hb : a = b := (List.cons.inj hsplit').1
        have hxs : xs = l₁' ++ xs.foldl (keepMin ltB) a :: l₂ := (List.cons.inj hsplit').2
        refine ⟨a :: x :: l₁', l₂, by simp [hfold]; exact hxs, ?_, ?_⟩
        · intro q hq
          rw [hfold]
          rcases List.mem_cons.1 hq with rfl | hq'
          · exact hmin q (by simp)
          · rcases List.mem_cons.1 hq' with rfl | hq''
            · -- q = x: from ¬ lt a r and lt a x conclude lt r x, hence ¬ lt x r
              have h1 : ltB a (xs.foldl (keepMin ltB) a) = false := hmin a (by simp)
              have h2 : ltB (xs.foldl (keepMin ltB) a) q = true := mixed _ _ _ h1 h
              exact asym _ _ h2
            · exact hmin q (by simp [hq''])
        · intro q hq
          rw [hfold]
          exact hstrict q hq
    · -- keepMin a x = x
      have hb : ltB a x = false := by simpa using h
      have hk : keepMin ltB a x = x := by simp [keepMin, hb]
      obtain ⟨l₁, l₂, hsplit, hmin, hstrict⟩ := ih x
      have hfold : (x :: xs).foldl (keepMin ltB) a = xs.foldl (keepMin ltB) x := by
        simp [List.foldl, hk]
      refine ⟨a :: l₁, l₂, by simp [hfold]; exact hsplit, ?_, ?_⟩
      · intro q hq
        rw [hfold]
        rcases List.mem_cons.1 hq with rfl | hq'
        · -- q = a: ¬ lt a x and ¬ lt x r give ¬ lt a r
          have h1 : ltB x (xs.foldl (keepMin ltB) x) = false := hmin x (by simp)
          exact negtrans _ _ _ hb h1
        · exact hmin q hq'
      · intro q hq
        rw [hfold]
        exact hstrict q hq

lemma sjfCmp_eq_keepMin :
    sjfCmp = keepMin (fun x y : Nat × Process =>
      decide (lex2Lt (sjfKey x.2) (sjfKey y.2))) := by
  funext a b
  simp only [sjfCmp, keepMin, sjfKey, lex2Lt, decide_eq_true_eq]
  rcases Nat.lt_trichotomy a.2.burstTime b.2.burstTime with h | h | h
  · rw [if_pos h, if_pos (by omega)]
  · rw [if_neg (by omega), if_neg (by omega)]
    rcases Nat.lt_or_ge a.2.arrivalTime b.2.arrivalTime with h2 | h2
    · rw [if_pos h2, if_pos (by omega)]
    · rw [if_neg (by omega), if_neg (by omega)]
  · rw [if_neg (by omega), if_pos h, if_neg (by omega)]

/-- The `reduce`-based SJF selection (first-variant batch and both stepwise
variants) returns a `(burstTime, arrivalTime)`-minimal element, and among
equally-keyed candidates the LAST one in list order (everything after the
returned occurrence is strictly larger). -/
lemma reduce1_sjfCmp_spec (l : List (Nat × Process)) (r : Nat × Process)
    (h : reduce1 sjfCmp l = some r) :
    (∀ q ∈ l, ¬ lex2Lt (sjfKey q.2) (sjfKey r.2)) ∧
      ∃ l₁ l₂, l = l₁ ++ r :: l₂ ∧
        ∀ q ∈ l₂, lex2Lt (sjfKey r.2) (sjfKey q.2) := by
  cases l with
  | nil => simp [reduce1] at h
  | cons x xs =>
    simp only [reduce1, Option.some.injEq] at h
    rw [sjfCmp_eq_keepMin] at h
    obtain ⟨l₁, l₂, hsplit, hmin, hstrict⟩ :=
      keepMin_foldl_split (fun x y : Nat × Process =>
          decide (lex2Lt (sjfKey x.2) (sjfKey y.2)))
        (by intro a b hab; simp only [decide_eq_true_eq] at hab
            simp only [decide_eq_false_iff_not]; unfold lex2Lt at hab ⊢; omega)
        (by intro a b c hab hbc
            simp only [decide_eq_false_iff_not] at hab hbc ⊢
            unfold lex2Lt at hab hbc ⊢; omega)
        (by intro a b c hba hbc
            simp only [decide_eq_false_iff_not] at hba
            simp only [decide_eq_true_eq] at hbc ⊢
            unfold lex2Lt at hba hbc ⊢; omega)
        xs x
    rw [h] at hsplit hmin hstrict
    refine ⟨?_, l₁, l₂, hsplit, ?_⟩
    · intro q hq
      have := hmin q hq
      simpa using this
    · intro q hq
      have := hstrict q hq
      simpa using this

/-- The `forEach`-based SJF selection of the second-variant batch engine
returns the FIRST `(burstTime, arrivalTime)`-minimal eligible array position
(everything before the returned occurrence is strictly larger). -/
lemma sjfSel2_spec (procs : List Process) (t : Nat) (done : List Nat) (i : Nat)
    (h : sjfSel2 procs t done = some i) :
    ∃ p pre post, procs.enum = pre ++ (i, p) :: post ∧
      p.arrivalTime ≤ t ∧ done.contains p.id = false ∧
      (∀ jq ∈ pre, jq.2.arrivalTime ≤ t → done.contains jq.2.id = false →
        lex2Lt (sjfKey p) (sjfKey jq.2)) ∧
      (∀ jq ∈ post, jq.2.arrivalTime ≤ t → done.contains jq.2.id = false →
        ¬ lex2Lt (sjfKey jq.2) (sjfKey p)) := by
  have main :
      ∀ (l P : List (Nat × Process)) (st : Option Nat × Option Nat × Option Nat),
        ((st = (none, none, none) ∧
            ∀ jq ∈ P, ¬ (jq.2.arrivalTime ≤ t ∧ done.contains jq.2.id = false)) ∨
          (∃ j p pre post, st = (some p.burstTime, some p.arrivalTime, some j) ∧
            P = pre ++ (j, p) :: post ∧ p.arrivalTime ≤ t ∧
            done.contains p.id = false ∧
            (∀ jq ∈ pre, jq.2.arrivalTime ≤ t → done.contains jq.2.id = false →
              lex2Lt (sjfKey p) (sjfKey jq.2)) ∧
            (∀ jq ∈ post, jq.2.arrivalTime ≤ t → done.contains jq.2.id = false →
              ¬ lex2Lt (sjfKey jq.2) (sjfKey p)))) →
        ((l.foldl
            (fun st ip =>
              if decide (ip.2.arrivalTime ≤ t) && !(done.contains ip.2.id) then
                if ltInf ip.2.burstTime st.1 then
                  (some ip.2.burstTime, some ip.2.arrivalTime, some ip.1)
                else if st.1 == some ip.2.burstTime && ltInf ip.2.arrivalTime st.2.1 then
                  (st.1, some ip.2.arrivalTime, some ip.1)
                else st
              else st) st = (none, none, none) ∧
            ∀ jq ∈ P ++ l, ¬ (jq.2.arrivalTime ≤ t ∧ done.contains jq.2.id = false)) ∨
          (∃ j p pre post,
            (l.foldl
              (fun st ip =>
                if decide (ip.2.arrivalTime ≤ t) && !(done.contains ip.2.id) then
                  if ltInf ip.2.burstTime st.1 then
                    (some ip.2.burstTime, some ip.2.arrivalTime, some ip.1)
                  else if st.1 == some ip.2.burstTime && ltInf ip.2.arrivalTime st.2.1 then
                    (st.1, some ip.2.arrivalTime, some ip.1)
                  else st
                else st) st = (some p.burstTime, some p.arrivalTime, some j)) ∧
            P ++ l = pre ++ (j, p) :: post ∧ p.arrivalTime ≤ t ∧
            done.contains p.id = false ∧
            (∀ jq ∈ pre, jq.2.arrivalTime ≤ t → done.contains jq.2.id = false →
              lex2Lt (sjfKey p) (sjfKey jq.2)) ∧
            (∀ jq ∈ post, jq.2.arrivalTime ≤ t → done.contains jq.2.id = false →
              ¬ lex2Lt (sjfKey jq.2) (sjfKey p)))) := by
    intro l
    induction l with
    | nil => intro P st hI; simpa using hI
    | cons x l' ih =>
      intro P st hI
      simp only [List.foldl_cons]
      have hx :
          ((if decide (x.2.arrivalTime ≤ t) && !(done.contains x.2.id) then
              if ltInf x.2.burstTime st.1 then
                (some x.2.burstTime, some x.2.arrivalTime, some x.1)
              else if st.1 == some x.2.burstTime && ltInf x.2.arrivalTime st.2.1 then
                (st.1, some x.2.arrivalTime, some x.1)
              else st
            else st) = (none, none, none) ∧
            ∀ jq ∈ P ++ [x], ¬ (jq.2.arrivalTime ≤ t ∧ done.contains jq.2.id = false)) ∨
          (∃ j p pre post,
            (if decide (x.2.arrivalTime ≤ t) && !(done.contains x.2.id) then
              if ltInf x.2.burstTime st.1 then
                (some x.2.burstTime, some x.2.arrivalTime, some x.1)
              else if st.1 == some x.2.burstTime && ltInf x.2.arrivalTime st.2.1 then
                (st.1, some x.2.arrivalTime, some x.1)
              else st
            else st) = (some p.burstTime, some p.arrivalTime, some j) ∧
            P ++ [x] = pre ++ (j, p) :: post ∧ p.arrivalTime ≤ t ∧
            done.contains p.id = false ∧
            (∀ jq ∈ pre, jq.2.arrivalTime ≤ t → done.contains jq.2.id = false →
              lex2Lt (sjfKey p) (sjfKey jq.2)) ∧
            (∀ jq ∈ post, jq.2.arrivalTime ≤ t → done.contains jq.2.id = false →
              ¬ lex2Lt (sjfKey jq.2) (sjfKey p))) := by
        by_cases hg : x.2.arrivalTime ≤ t ∧ done.contains x.2.id = false
        · have hgb : (decide (x.2.arrivalTime ≤ t) && !(done.contains x.2.id)) = true := by
            rw [hg.2]
            simp [hg.1]
          rcases hI with ⟨hst, hnone⟩ | ⟨j, p, pre, post, hst, hP, hpt, hpd, hpre, hpost⟩
          · right
            refine ⟨x.1, x.2, P, [], ?_, by simp, hg.1, hg.2, ?_, by simp⟩
            · rw [hgb, hst]
              simp [ltInf]
            · intro jq hjq h1 h2
              exact absurd ⟨h1, h2⟩ (hnone jq hjq)
          · by_cases hlt : x.2.burstTime < p.burstTime
            · right
              refine ⟨x.1, x.2, P, [], ?_, by simp, hg.1, hg.2, ?_, by simp⟩
              · rw [hgb, hst]
                simp [ltInf, hlt]
              · intro jq hjq h1 h2
                rw [hP] at hjq
                have hxp : lex2Lt (sjfKey x.2) (sjfKey p) := Or.inl hlt
                rcases List.mem_append.1 hjq with hjq' | hjq'
                · have := hpre jq hjq' h1 h2
                  unfold lex2Lt sjfKey at hxp this ⊢
                  omega
                · rcases List.mem_cons.1 hjq' with rfl | hjq''
                  · exact hxp
                  · have := hpost jq hjq'' h1 h2
                    unfold lex2Lt sjfKey at hxp this ⊢
                    omega
            · by_cases heq : x.2.burstTime = p.burstTime ∧ x.2.arrivalTime < p.arrivalTime
              · right
                refine ⟨x.1, x.2, P, [], ?_, by simp, hg.1, hg.2, ?_, by simp⟩
                · rw [hgb, hst]
                  have h1 : ltInf x.2.burstTime (some p.burstTime) = false := by
                    simp [ltInf]; omega
                  have h2 : ((some p.burstTime : Option Nat) == some x.2.burstTime) = true := by
                    simp [heq.1]
                  have h3 : ltInf x.2.arrivalTime (some p.arrivalTime) = true := by
                    simp [ltInf, heq.2]
                  simp [h1, h2, h3, heq.1]
                · intro jq hjq hj1 hj2
                  rw [hP] at hjq
                  have hxp : lex2Lt (sjfKey x.2) (sjfKey p) := Or.inr ⟨heq.1, heq.2⟩
                  rcases List.mem_append.1 hjq with hjq' | hjq'
                  · have := hpre jq hjq' hj1 hj2
                    unfold lex2Lt sjfKey at hxp this ⊢
                    omega
                  · rcases List.mem_cons.1 hjq' with rfl | hjq''
                    · exact hxp
                    · have := hpost jq hjq'' hj1 hj2
                      unfold lex2Lt sjfKey at hxp this ⊢
                      omega
              · right
                refine ⟨j, p, pre, post ++ [x], ?_, by rw [hP]; simp, hpt, hpd, hpre, ?_⟩
                · rw [hgb, hst]
                  have h1 : ltInf x.2.burstTime (some p.burstTime) = false := by
                    simp [ltInf]; omega
                  rw [h1]
                  by_cases h2 : p.burstTime = x.2.burstTime
                  · have h3 : ltInf x.2.arrivalTime (some p.arrivalTime) = false := by
                      simp [ltInf]; omega
                    simp [h2, h3]
                  · have h4 : ((some p.burstTime : Option Nat) == some x.2.burstTime) = false := by
                      simp [h2]
                    simp [h4]
                · intro jq hjq hj1 hj2
                  rcases List.mem_append.1 hjq with hjq' | hjq'
                  · exact hpost jq hjq' hj1 hj2
                  · rcases List.mem_singleton.1 hjq' with rfl
                    unfold lex2Lt sjfKey
                    omega
        · have hgb : (decide (x.2.arrivalTime ≤ t) && !(done.contains x.2.id)) = false := by
            by_cases hd : done.contains x.2.id = false
            · have hna : ¬ x.2.arrivalTime ≤ t := fun hc => hg ⟨hc, hd⟩
              simp [hna]
            · rw [Bool.not_eq_false] at hd
              rw [hd]
              simp
          rw [hgb]
          simp only [Bool.false_eq_true, if_false]
          rcases hI with ⟨hst, hnone⟩ | ⟨j, p, pre, post, hst, hP, hpt, hpd, hpre, hpost⟩
          · left
            refine ⟨hst, ?_⟩
            intro jq hjq
            rcases List.mem_append.1 hjq with hjq' | hjq'
            · exact hnone jq hjq'
            · rcases List.mem_singleton.1 hjq' with rfl
              exact hg
          · right
            refine ⟨j, p, pre, post ++ [x], hst, by rw [hP]; simp, hpt, hpd, hpre, ?_⟩
            intro jq hjq hj1 hj2
            rcases List.mem_append.1 hjq with hjq' | hjq'
            · exact hpost jq hjq' hj1 hj2
            · rcases List.mem_singleton.1 hjq' with rfl
              exact absurd ⟨hj1, hj2⟩ hg
      have := ih (P ++ [x]) _ hx
      simpa using this
  have h0 := main procs.enum [] (none, none, none) (by simp)
  unfold sjfSel2 at h
  rcases h0 with ⟨hst, _⟩ | ⟨j, p, pre, post, hst, hP, hpt, hpd, hpre, hpost⟩
  · rw [hst] at h
    simp at h
  · rw [List.nil_append] at hP
    rw [hst] at h
    have hj : j = i := by simpa using h
    subst hj
    exact ⟨p, pre, post, hP, hpt, hpd, hpre, hpost⟩

/-- Claim C7 (counterexample): SJF tie-breaking is claimed to fall back on
the minimal id, independent of input order.  On two processes tied on
`(burstTime, arrivalTime)` listed in id order, `runSJF` (first variant) runs
the process with the LARGER id first (id 2 completes at 2, id 1 at 4);
permuting the input list produces the opposite outcome, so the selection is
also order-dependent. -/
theorem c7_counterexample :
    ValidInput exTie ∧ ValidInput exTieRev ∧
    (runSJF exTie).map
        (fun r => r.processes.map fun p => (p.id, p.completionTime)) =
      some [(1, (4 : Int)), (2, (2 : Int))] ∧
    (runSJF exTieRev).map
        (fun r => r.processes.map fun p => (p.id, p.completionTime)) =
      some [(2, (4 : Int)), (1, (2 : Int))] := by
  refine ⟨by decide, by decide, by decide, by decide⟩

/-- Claim C7 (amended): SJF selection minimises `(burstTime, arrivalTime)`
lexicographically, but remaining ties are broken by LIST POSITION, not id:
the `reduce`-based selection used by the first-variant batch engine and the
stepwise engines keeps the last tied candidate, the `forEach`-based selection
of the second-variant batch engine keeps the first, and consequently the
outcome depends on the order of the input list (shown concretely on a tied
pair listed in both orders). -/
theorem c7_amended :
    (∀ (l : List (Nat × Process)) (r : Nat × Process),
        reduce1 sjfCmp l = some r →
          (∀ q ∈ l, ¬ lex2Lt (sjfKey q.2) (sjfKey r.2)) ∧
            ∃ l₁ l₂, l = l₁ ++ r :: l₂ ∧
              ∀ q ∈ l₂, lex2Lt (sjfKey r.2) (sjfKey q.2)) ∧
    (∀ (procs : List Process) (t : Nat) (done : List Nat) (i : Nat),
        sjfSel2 procs t done = some i →
          ∃ p pre post, procs.enum = pre ++ (i, p) :: post ∧
            p.arrivalTime ≤ t ∧ done.contains p.id = false ∧
            (∀ jq ∈ pre, jq.2.arrivalTime ≤ t → done.contains jq.2.id = false →
              lex2Lt (sjfKey p) (sjfKey jq.2)) ∧
            (∀ jq ∈ post, jq.2.arrivalTime ≤ t → done.contains jq.2.id = false →
              ¬ lex2Lt (sjfKey jq.2) (sjfKey p))) ∧
    (runSJF exTie).map
        (fun r => r.processes.map fun p => (p.id, p.completionTime)) =
      some [(1, (4 : Int)), (2, (2 : Int))] ∧
    (runSJF exTieRev).map
        (fun r => r.processes.map fun p => (p.id, p.completionTime)) =
      some [(2, (4 : Int)), (1, (2 : Int))] := by
  exact ⟨reduce1_sjfCmp_spec, sjfSel2_spec, by decide, by decide⟩

/-- Witness for `c7_amended` at a concrete tied ready list: the reduce-based
selection returns the second (last) of the two tied candidates. -/
theorem c7_amended_witness :
    (∀ q ∈ [((0 : Nat), mkP 1 "P1" 0 2 "c1"), (1, mkP 2 "P2" 0 2 "c2")],
        ¬ lex2Lt (sjfKey q.2) (sjfKey (mkP 2 "P2" 0 2 "c2"))) ∧
      ∃ l₁ l₂,
        [((0 : Nat), mkP 1 "P1" 0 2 "c1"), (1, mkP 2 "P2" 0 2 "c2")] =
          l₁ ++ ((1 : Nat), mkP 2 "P2" 0 2 "c2") :: l₂ ∧
        ∀ q ∈ l₂, lex2Lt (sjfKey (mkP 2 "P2" 0 2 "c2")) (sjfKey q.2) :=
  c7_amended.1 [((0 : Nat), mkP 1 "P1" 0 2 "c1"), (1, mkP 2 "P2" 0 2 "c2")]
    ((1 : Nat), mkP 2 "P2" 0 2 "c2") (by decide)

/-! ## The Round Robin safety break (C9) -/

lemma rrStep_single (t qc rem : Nat) (tl : List (Option Marker))
    (ht : 1 ≤ t) (hrem : 1 ≤ rem) (hqc : qc ≠ 30001) :
    rrStep 30001 ⟨[pLong rem], [], some 0, qc, t, 0, tl⟩ =
      ⟨[pLong (rem - 1)], [], some 0, qc + 1, t + 1, 0,
        tl ++ [some ⟨"P1", "c1"⟩]⟩ := by
  have h0 : ¬ (pLong rem).remainingTime = 0 := by
    simp [pLong]; omega
  have htne : ((0 : Nat) == t) = false := by
    simp; omega
  unfold rrStep
  simp only [List.getD_cons_zero]
  rw [if_neg (by simpa [pLong] using h0)]
  rw [if_neg hqc]
  simp only [List.enum, List.enumFrom, List.filter]
  rw [show ((pLong rem).arrivalTime == t) = false by simpa [pLong] using htne]
  simp only [sortLt, List.map_nil, List.append_nil]
  simp only [List.getD_cons_zero]
  show (⟨[{ pLong rem with remainingTime := (pLong rem).remainingTime - 1 }], [],
      some 0, qc + 1, t + 1, 0,
      tl ++ [some ⟨(pLong rem).name, (pLong rem).color⟩]⟩ : RrState) = _
  simp [pLong]

lemma rrLoop_single (k : Nat) :
    ∀ (fuel t qc rem : Nat) (tl : List (Option Marker)),
      1 ≤ t → t + k = 20001 → 1 ≤ k → k ≤ fuel → k ≤ rem → qc + k ≤ 30001 →
      ∃ tl', rrLoop 30001 1 fuel ⟨[pLong rem], [], some 0, qc, t, 0, tl⟩ =
        some ⟨[pLong (rem - k)], [], some 0, qc + k, 20001, 0, tl'⟩ := by
  induction k with
  | zero => intro fuel t qc rem tl _ _ h1; omega
  | succ k ih =>
    intro fuel t qc rem tl ht0 hsum _ hfuel hrem hqc
    cases fuel with
    | zero => omega
    | succ f =>
      have hstep := rrStep_single t qc rem tl (by omega) (by omega) (by omega)
      by_cases hk : k = 0
      · subst hk
        have ht : t = 20000 := by omega
        subst ht
        refine ⟨tl ++ [some ⟨"P1", "c1"⟩], ?_⟩
        simp only [rrLoop, hstep]
        norm_num
      · have ht' : t + 1 + k = 20001 := by omega
        obtain ⟨tl', htl'⟩ := ih f (t + 1) (qc + 1) (rem - 1)
          (tl ++ [some ⟨"P1", "c1"⟩]) (by omega) ht' (by omega) (by omega) (by omega)
          (by omega)
        refine ⟨tl', ?_⟩
        simp only [rrLoop, hstep]
        have hbreak : ¬ 20000 < t + 1 := by omega
        rw [if_pos (by omega : (0 : Nat) < 1), if_neg hbreak]
        rw [htl']
        have h1 : rem - 1 - k = rem - (k + 1) := by omega
        have h2 : qc + 1 + k = qc + (k + 1) := by omega
        rw [h1, h2]

/-- Claim C9: when the 20000-tick safety ceiling of the first-variant Round
Robin batch engine is crossed with an unfinished process (a single process
with burst 30000 and a quantum that never expires), the engine does NOT
raise an error: it logs to the console, breaks out of the loop, and returns
a normally-shaped `AlgorithmResult` in which the process still has
`remainingTime = 9999 > 0` and its completion metrics were never committed
(they keep their initial value 0). -/
theorem c9_safety_break_returns_incomplete :
    ValidInput exLong ∧
    ∃ r, runRoundRobin exLong 30001 = some r ∧
      r.processes.map (fun p => (p.remainingTime, p.completionTime)) =
        [(9999, (0 : Int))] ∧
      r.totalTime = 20001 := by
  have hstep1 : rrStep 30001 (rrInit exLong) =
      ⟨[pLong 29999], [], some 0, 1, 1, 0, [some ⟨"P1", "c1"⟩]⟩ := by
    rfl
  obtain ⟨tl', htl⟩ := rrLoop_single 20000 20001 1 1 29999 [some ⟨"P1", "c1"⟩]
    (by omega) (by omega) (by omega) (by omega) (by omega) (by omega)
  have hrem : (29999 : Nat) - 20000 = 9999 := by norm_num
  have hqc : (1 : Nat) + 20000 = 20001 := by norm_num
  rw [hrem, hqc] at htl
  have hrun : rrRun exLong 30001 =
      some ⟨[pLong 9999], [], some 0, 20001, 20001, 0, tl'⟩ := by
    show rrLoop 30001 ([pLong 30000]).length 20002 (rrInit exLong) = _
    have hsucc : ∀ (q n fuel : Nat) (s : RrState),
        rrLoop q n (fuel + 1) s =
          if s.completed < n then
            (if 20000 < (rrStep q s).t then some (rrStep q s)
              else rrLoop q n fuel (rrStep q s))
          else some s := fun _ _ _ _ => rfl
    have : rrLoop 30001 1 20002 (rrInit exLong) =
        rrLoop 30001 1 20001 ⟨[pLong 29999], [], some 0, 1, 1, 0,
          [some ⟨"P1", "c1"⟩]⟩ := by
      rw [show (20002 : Nat) = 20001 + 1 from rfl, hsucc, hstep1]
      rw [if_pos (by decide : (rrInit exLong).completed < 1)]
      rw [if_neg (by decide : ¬ (20000 < (1 : Nat)))]
    simpa [this] using htl
  refine ⟨by decide, ⟨"Round Robin", buildGanttChart tl',
    [pLong 9999], 20001⟩, ?_, by simp [pLong], rfl⟩
  show (if exLong = [] then some (createEmptyResult "Round Robin")
    else (rrRun exLong 30001).map fun s =>
      { name := "Round Robin", ganttChart := buildGanttChart s.timeline,
        processes := s.procs, totalTime := s.t }) = _
  rw [if_neg (by decide), hrun]
  rfl

/-- Claim C6 (amended): both timeline-builder variants compute exactly the
specification-side run-length merge `ganttSpec` of the tick sequence, with
segment identity keyed by `processName`: consecutive executed ticks merge
into one segment exactly when their names agree, an idle tick or a name
change closes the open segment, and the final open segment is flushed. -/
theorem c6_amended (tl : List (Option Marker)) :
    buildGanttChart tl = ganttSpec tl 0 ∧ buildGanttChart2 tl = ganttSpec tl 0 :=
  ⟨buildGanttChart_eq_spec tl, buildGanttChart2_eq_spec tl⟩

/-! ## Metric equations (C3) -/

lemma fcfsFold_metrics :
    ∀ (l : List Process) (t : Nat) (tl : List (Option Marker)) (acc : List Process),
      (∀ p ∈ acc, MetricsOK p) →
      ∀ p ∈ (fcfsFold l t tl acc).2.2, MetricsOK p := by
  intro l
  induction l with
  | nil => intro t tl acc hacc; simpa [fcfsFold] using hacc
  | cons q rest ih =>
    intro t tl acc hacc
    simp only [fcfsFold]
    apply ih
    intro p hp
    rcases List.mem_append.1 hp with hp' | hp'
    · exact hacc p hp'
    · rcases List.mem_singleton.1 hp' with rfl
      intro _
      refine ⟨rfl, rfl, ?_⟩
      have harr : (q.arrivalTime : Int) ≤ ((if t < q.arrivalTime then q.arrivalTime else t : Nat) : Int) := by
        by_cases hlt : t < q.arrivalTime
        · simp [hlt]
        · simp only [if_neg hlt]
          exact_mod_cast Nat.le_of_not_lt hlt
      push_cast
      push_cast at harr
      omega

lemma sjfStep_metrics (s : NPState) (h : ∀ p ∈ s.procs, MetricsOK p) :
    ∀ p ∈ (sjfStep s).procs, MetricsOK p := by
  intro p hp
  unfold sjfStep at hp
  simp only [] at hp
  cases hmatch : reduce1 sjfCmp (s.procs.enum.filter fun ip =>
      decide (ip.2.arrivalTime ≤ s.t) && !(s.doneIds.contains ip.2.id)) with
  | none =>
    rw [hmatch] at hp
    exact h p hp
  | some ip =>
    rw [hmatch] at hp
    simp only at hp
    rcases List.mem_or_eq_of_mem_set hp with hp' | rfl
    · exact h p hp'
    · intro _
      refine ⟨rfl, rfl, ?_⟩
      have harr : (ip.2.arrivalTime : Int) ≤
          ((if s.t < ip.2.arrivalTime then ip.2.arrivalTime else s.t : Nat) : Int) := by
        by_cases hlt : s.t < ip.2.arrivalTime
        · simp [hlt]
        · simp only [if_neg hlt]
          exact_mod_cast Nat.le_of_not_lt hlt
      push_cast
      push_cast at harr
      omega

lemma pnpStep_metrics (s : NPState) (h : ∀ p ∈ s.procs, MetricsOK p) :
    ∀ p ∈ (pnpStep s).procs, MetricsOK p := by
  intro p hp
  unfold pnpStep at hp
  simp only [] at hp
  cases hmatch : reduce1 pnpCmp (s.procs.enum.filter fun ip =>
      decide (ip.2.arrivalTime ≤ s.t) && !(s.doneIds.contains ip.2.id)) with
  | none =>
    rw [hmatch] at hp
    exact h p hp
  | some ip =>
    rw [hmatch] at hp
    simp only at hp
    rcases List.mem_or_eq_of_mem_set hp with hp' | rfl
    · exact h p hp'
    · intro _
      refine ⟨rfl, rfl, ?_⟩
      have harr : (ip.2.arrivalTime : Int) ≤
          ((if s.t < ip.2.arrivalTime then ip.2.arrivalTime else s.t : Nat) : Int) := by
        by_cases hlt : s.t < ip.2.arrivalTime
        · simp [hlt]
        · simp only [if_neg hlt]
          exact_mod_cast Nat.le_of_not_lt hlt
      push_cast
      push_cast at harr
      omega

/-- Generic guard lemma for the `forEach` minimum searches: if every fold
step either keeps the tracked index or installs the current (guard-passing)
pair's index, then a returned index comes from a guard-passing pair of the
list. -/
lemma fold_idx_guard
    (f : (Option Nat × Option Nat × Option Nat) → (Nat × Process) →
      (Option Nat × Option Nat × Option Nat))
    (guardB : Nat × Process → Bool)
    (hf : ∀ st ip, (f st ip).2.2 = st.2.2 ∨
      ((f st ip).2.2 = some ip.1 ∧ guardB ip = true)) :
    ∀ (l : List (Nat × Process)) (st : Option Nat × Option Nat × Option Nat)
      (j : Nat),
      (l.foldl f st).2.2 = some j →
      st.2.2 = some j ∨ ∃ q, (j, q) ∈ l ∧ guardB (j, q) = true := by
  intro l
  induction l with
  | nil => intro st j h; exact Or.inl h
  | cons x xs ih =>
    intro st j h
    rw [List.foldl_cons] at h
    rcases ih (f st x) j h with h' | ⟨q, hq, hg⟩
    · rcases hf st x with h'' | ⟨h'', hg⟩
      · exact Or.inl (h'' ▸ h')
      · right
        rw [h'] at h''
        have : j = x.1 := Option.some.inj h''
        refine ⟨x.2, ?_, ?_⟩
        · rw [this]
          exact List.mem_cons_self _ _
        · rw [this]
          simpa using hg
    · exact Or.inr ⟨q, List.mem_cons_of_mem _ hq, hg⟩

lemma srtfSel_guard (procs : List Process) (t i : Nat)
    (h : srtfSel procs t = some i) :
    ∃ p, procs.get? i = some p ∧ p.arrivalTime ≤ t ∧ 0 < p.remainingTime := by
  unfold srtfSel at h
  have := fold_idx_guard _
    (fun ip => decide (ip.2.arrivalTime ≤ t) && decide (0 < ip.2.remainingTime))
    (by
      intro st ip
      by_cases hg : (decide (ip.2.arrivalTime ≤ t) && decide (0 < ip.2.remainingTime)) = true
      · by_cases h1 : ltInf ip.2.remainingTime st.1 = true
        · right
          simp [hg, h1]
        · by_cases h2 : (st.1 == some ip.2.remainingTime &&
              ltInf ip.2.arrivalTime st.2.1) = true
          · right
            rw [Bool.not_eq_true] at h1
            simp [hg, h1, h2]
          · left
            rw [Bool.not_eq_true] at h1 h2
            simp [hg, h1, h2]
      · left
        rw [Bool.not_eq_true] at hg
        simp [hg])
    procs.enum (none, none, none) i h
  rcases this with h' | ⟨q, hq, hg⟩
  · simp at h'
  · have hg' := hg
    simp only [Bool.and_eq_true, decide_eq_true_eq] at hg'
    exact ⟨q, List.mem_enum_iff_get?.1 hq, hg'.1, hg'.2⟩

lemma ppSel_guard (procs : List Process) (t i : Nat)
    (h : ppSel procs t = some i) :
    ∃ p, procs.get? i = some p ∧ p.arrivalTime ≤ t ∧ 0 < p.remainingTime := by
  unfold ppSel at h
  have := fold_idx_guard _
    (fun ip => decide (ip.2.arrivalTime ≤ t) && decide (0 < ip.2.remainingTime))
    (by
      intro st ip
      by_cases hg : (decide (ip.2.arrivalTime ≤ t) && decide (0 < ip.2.remainingTime)) = true
      · by_cases h1 : prioLt ip.2.priority st.1 = true
        · right
          simp [hg, h1]
        · by_cases h2 : (ip.2.priority == st.1 && ltInf ip.2.arrivalTime st.2.1) = true
          · right
            rw [Bool.not_eq_true] at h1
            simp [hg, h1, h2]
          · left
            rw [Bool.not_eq_true] at h1 h2
            simp [hg, h1, h2]
      · left
        rw [Bool.not_eq_true] at hg
        simp [hg])
    procs.enum (none, none, none) i h
  rcases this with h' | ⟨q, hq, hg⟩
  · simp at h'
  · have hg' := hg
    simp only [Bool.and_eq_true, decide_eq_true_eq] at hg'
    exact ⟨q, List.mem_enum_iff_get?.1 hq, hg'.1, hg'.2⟩

lemma srtfStep_inv (s : PreState)
    (h : (∀ p ∈ s.procs, MetricsOK p) ∧
      ∀ p ∈ s.procs, p.remainingTime ≤ p.burstTime ∧
        (p.remainingTime < p.burstTime →
          p.arrivalTime + (p.burstTime - p.remainingTime) ≤ s.t)) :
    (∀ p ∈ (srtfStep s).procs, MetricsOK p) ∧
      ∀ p ∈ (srtfStep s).procs, p.remainingTime ≤ p.burstTime ∧
        (p.remainingTime < p.burstTime →
          p.arrivalTime + (p.burstTime - p.remainingTime) ≤ (srtfStep s).t) := by
  obtain ⟨hm, hb⟩ := h
  unfold srtfStep
  cases hsel : srtfSel s.procs s.t with
  | none =>
    refine ⟨hm, ?_⟩
    intro p hp
    obtain ⟨h1, h2⟩ := hb p hp
    refine ⟨h1, fun hlt => ?_⟩
    have := h2 hlt
    show p.arrivalTime + (p.burstTime - p.remainingTime) ≤ s.t + 1
    omega
  | some i =>
    obtain ⟨p0, hget, harr, hrem⟩ := srtfSel_guard s.procs s.t i hsel
    have hgetD : s.procs.getD i default = p0 := by
      simp only [List.getD]
      rw [hget]
      rfl
    obtain ⟨hr1, hr2⟩ := hb p0 (List.get?_mem hget)
    simp only [hgetD]
    split
    next hz =>
      have hz' : p0.remainingTime - 1 = 0 := hz
      have hball : p0.arrivalTime + p0.burstTime ≤ s.t + 1 := by
        rcases Nat.lt_or_ge p0.remainingTime p0.burstTime with hc | hc
        · have := hr2 hc
          omega
        · omega
      constructor
      · intro p hp
        rcases List.mem_or_eq_of_mem_set hp with hp' | rfl
        · exact hm p hp'
        · intro _
          refine ⟨rfl, rfl, ?_⟩
          show (0 : Int) ≤ ((s.t + 1 : Nat) : Int) - (p0.arrivalTime : Int) - (p0.burstTime : Int)
          push_cast
          omega
      · intro p hp
        rcases List.mem_or_eq_of_mem_set hp with hp' | rfl
        · obtain ⟨h1, h2⟩ := hb p hp'
          refine ⟨h1, fun hlt => ?_⟩
          have := h2 hlt
          show p.arrivalTime + (p.burstTime - p.remainingTime) ≤ s.t + 1
          omega
        · refine ⟨by show p0.remainingTime - 1 ≤ p0.burstTime; omega, fun _ => ?_⟩
          show p0.arrivalTime + (p0.burstTime - (p0.remainingTime - 1)) ≤ s.t + 1
          rcases Nat.lt_or_ge p0.remainingTime p0.burstTime with hc | hc
          · have := hr2 hc
            omega
          · omega
    next hz =>
      have hz' : ¬ p0.remainingTime - 1 = 0 := hz
      constructor
      · intro p hp
        rcases List.mem_or_eq_of_mem_set hp with hp' | rfl
        · exact hm p hp'
        · have := hm p0 (List.get?_mem hget)
          simpa [MetricsOK] using this
      · intro p hp
        rcases List.mem_or_eq_of_mem_set hp with hp' | rfl
        · obtain ⟨h1, h2⟩ := hb p hp'
          refine ⟨h1, fun hlt => ?_⟩
          have := h2 hlt
          show p.arrivalTime + (p.burstTime - p.remainingTime) ≤ s.t + 1
          omega
        · refine ⟨by show p0.remainingTime - 1 ≤ p0.burstTime; omega, fun _ => ?_⟩
          show p0.arrivalTime + (p0.burstTime - (p0.remainingTime - 1)) ≤ s.t + 1
          rcases Nat.lt_or_ge p0.remainingTime p0.burstTime with hc | hc
          · have := hr2 hc
            omega
          · omega

lemma ppStep_inv (s : PreState)
    (h : (∀ p ∈ s.procs, MetricsOK p) ∧
      ∀ p ∈ s.procs, p.remainingTime ≤ p.burstTime ∧
        (p.remainingTime < p.burstTime →
          p.arrivalTime + (p.burstTime - p.remainingTime) ≤ s.t)) :
    (∀ p ∈ (ppStep s).procs, MetricsOK p) ∧
      ∀ p ∈ (ppStep s).procs, p.remainingTime ≤ p.burstTime ∧
        (p.remainingTime < p.burstTime →
          p.arrivalTime + (p.burstTime - p.remainingTime) ≤ (ppStep s).t) := by
  obtain ⟨hm, hb⟩ := h
  unfold ppStep
  cases hsel : ppSel s.procs s.t with
  | none =>
    refine ⟨hm, ?_⟩
    intro p hp
    obtain ⟨h1, h2⟩ := hb p hp
    refine ⟨h1, fun hlt => ?_⟩
    have := h2 hlt
    show p.arrivalTime + (p.burstTime - p.remainingTime) ≤ s.t + 1
    omega
  | some i =>
    obtain ⟨p0, hget, harr, hrem⟩ := ppSel_guard s.procs s.t i hsel
    have hgetD : s.procs.getD i default = p0 := by
      simp only [List.getD]
      rw [hget]
      rfl
    obtain ⟨hr1, hr2⟩ := hb p0 (List.get?_mem hget)
    simp only [hgetD]
    split
    next hz =>
      have hz' : p0.remainingTime - 1 = 0 := hz
      have hball : p0.arrivalTime + p0.burstTime ≤ s.t + 1 := by
        rcases Nat.lt_or_ge p0.remainingTime p0.burstTime with hc | hc
        · have := hr2 hc
          omega
        · omega
      constructor
      · intro p hp
        rcases List.mem_or_eq_of_mem_set hp with hp' | rfl
        · exact hm p hp'
        · intro _
          refine ⟨rfl, rfl, ?_⟩
          show (0 : Int) ≤ ((s.t + 1 : Nat) : Int) - (p0.arrivalTime : Int) - (p0.burstTime : Int)
          push_cast
          omega
      · intro p hp
        rcases List.mem_or_eq_of_mem_set hp with hp' | rfl
        · obtain ⟨h1, h2⟩ := hb p hp'
          refine ⟨h1, fun hlt => ?_⟩
          have := h2 hlt
          show p.arrivalTime + (p.burstTime - p.remainingTime) ≤ s.t + 1
          omega
        · refine ⟨by show p0.remainingTime - 1 ≤ p0.burstTime; omega, fun _ => ?_⟩
          show p0.arrivalTime + (p0.burstTime - (p0.remainingTime - 1)) ≤ s.t + 1
          rcases Nat.lt_or_ge p0.remainingTime p0.burstTime with hc | hc
          · have := hr2 hc
            omega
          · omega
    next hz =>
      have hz' : ¬ p0.remainingTime - 1 = 0 := hz
      constructor
      · intro p hp
        rcases List.mem_or_eq_of_mem_set hp with hp' | rfl
        · exact hm p hp'
        · have := hm p0 (List.get?_mem hget)
          simpa [MetricsOK] using this
      · intro p hp
        rcases List.mem_or_eq_of_mem_set hp with hp' | rfl
        · obtain ⟨h1, h2⟩ := hb p hp'
          refine ⟨h1, fun hlt => ?_⟩
          have := h2 hlt
          show p.arrivalTime + (p.burstTime - p.remainingTime) ≤ s.t + 1
          omega
        · refine ⟨by show p0.remainingTime - 1 ≤ p0.burstTime; omega, fun _ => ?_⟩
          show p0.arrivalTime + (p0.burstTime - (p0.remainingTime - 1)) ≤ s.t + 1
          rcases Nat.lt_or_ge p0.remainingTime p0.burstTime with hc | hc
          · have := hr2 hc
            omega
          · omega

lemma mem_insertLt {lt : α → α → Bool} {x y : α} :
    ∀ {l : List α}, y ∈ insertLt lt x l ↔ y = x ∨ y ∈ l := by
  intro l
  induction l with
  | nil => simp [insertLt]
  | cons z zs ih =>
    simp only [insertLt]
    by_cases hz : lt z x = true
    · rw [if_pos hz]
      simp [ih]
      tauto
    · rw [if_neg hz]
      simp

lemma mem_sortLt {lt : α → α → Bool} {y : α} :
    ∀ {l : List α}, y ∈ sortLt lt l ↔ y ∈ l := by
  intro l
  induction l with
  | nil => simp [sortLt]
  | cons z zs ih =>
    simp only [sortLt, mem_insertLt, ih]
    simp

lemma getD_mem (l : List Process) (i : Nat) (h : i < l.length) :
    l.getD i default ∈ l := by
  have : l.getD i default = l[i] := by
    simp [List.getD, List.getElem?_eq_getElem h]
  rw [this]
  exact List.getElem_mem h

lemma rr_arrivals_spec (procs : List Process) (t : Nat)
    (lt : Nat × Process → Nat × Process → Bool) :
    ∀ j ∈ (sortLt lt (procs.enum.filter fun ip =>
        ip.2.arrivalTime == t)).map (fun ip => ip.1),
      j < procs.length ∧ (procs.getD j default).arrivalTime = t := by
  intro j hj
  obtain ⟨⟨j', q⟩, hq, rfl⟩ := List.mem_map.1 hj
  have hq' := mem_sortLt.1 hq
  obtain ⟨hqe, hqt⟩ := List.mem_filter.1 hq'
  have hget : procs.get? j' = some q := List.mem_enum_iff_get?.1 hqe
  have hlen : j' < procs.length := by
    have := List.get?_eq_some.1 hget
    exact this.1
  have harr : q.arrivalTime = t := by simpa using hqt
  refine ⟨hlen, ?_⟩
  have : procs.getD j' default = q := by
    simp only [List.getD, ← List.get?_eq_getElem?, hget, Option.getD_some]
  rw [this, harr]

lemma rrStep_eq (quantum : Nat) (s : RrState) :
    rrStep quantum s = rrDispatchExec (rrArrive (rrRetire quantum s)) := rfl

lemma rrStep2_eq (quantum : Nat) (s : RrState) :
    rrStep2 quantum s = rrDispatchExec (rrRetire2 quantum (rrArrive2 s)) := rfl

lemma nodup_insertLt {lt : α → α → Bool} {x : α} :
    ∀ {l : List α}, x ∉ l → l.Nodup → (insertLt lt x l).Nodup := by
  intro l
  induction l with
  | nil => intro _ _; simp [insertLt]
  | cons z zs ih =>
    intro hx hnd
    simp only [insertLt]
    by_cases hz : lt z x = true
    · rw [if_pos hz]
      rcases List.nodup_cons.1 hnd with ⟨hz1, hz2⟩
      refine List.nodup_cons.2 ⟨?_, ih (fun hc => hx (List.mem_cons_of_mem _ hc)) hz2⟩
      intro hc
      rcases mem_insertLt.1 hc with h | h
      · exact hx (h ▸ List.mem_cons_self _ _)
      · exact hz1 h
    · rw [if_neg hz]
      exact List.nodup_cons.2 ⟨hx, hnd⟩

lemma nodup_sortLt {lt : α → α → Bool} :
    ∀ {l : List α}, l.Nodup → (sortLt lt l).Nodup := by
  intro l
  induction l with
  | nil => intro _; simp [sortLt]
  | cons z zs ih =>
    intro hnd
    rcases List.nodup_cons.1 hnd with ⟨hz1, hz2⟩
    simp only [sortLt]
    exact nodup_insertLt (fun hc => hz1 (mem_sortLt.1 hc)) (ih hz2)

lemma getD_set_ne (l : List Process) (i j : Nat) (a : Process) (h : i ≠ j) :
    (l.set i a).getD j default = l.getD j default := by
  simp [List.getD, List.getElem?_set_ne h]

lemma getD_set_self (l : List Process) (i : Nat) (a : Process) (h : i < l.length) :
    (l.set i a).getD i default = a := by
  simp [List.getD, List.getElem?_set_self, h]

lemma mem_enum_get {procs : List Process} {ip : Nat × Process}
    (h : ip ∈ procs.enum) : procs.get? ip.1 = some ip.2 := by
  cases ip with
  | mk j q => exact List.mem_enum_iff_get?.1 h

lemma rr_arr_mem (procs : List Process) (f : Nat × Process → Bool)
    (lt : Nat × Process → Nat × Process → Bool) :
    ∀ j ∈ (sortLt lt (procs.enum.filter f)).map (fun ip => ip.1),
      j < procs.length ∧ f (j, procs.getD j default) = true := by
  intro j hj
  obtain ⟨⟨j', q⟩, hq, rfl⟩ := List.mem_map.1 hj
  have hq' := mem_sortLt.1 hq
  obtain ⟨hqe, hqt⟩ := List.mem_filter.1 hq'
  have hget : procs.get? j' = some q := mem_enum_get hqe
  have hlen : j' < procs.length := (List.get?_eq_some.1 hget).1
  have hgd : procs.getD j' default = q := by
    simp only [List.getD, ← List.get?_eq_getElem?, hget, Option.getD_some]
  exact ⟨hlen, by rw [hgd]; exact hqt⟩

lemma rr_arr_nodup (procs : List Process) (f : Nat × Process → Bool)
    (lt : Nat × Process → Nat × Process → Bool) :
    ((sortLt lt (procs.enum.filter f)).map (fun ip => ip.1)).Nodup := by
  have henum : procs.enum.Nodup := by
    have : (procs.enum.map Prod.fst).Nodup := by
      rw [List.enum_map_fst]
      exact List.nodup_range _
    exact this.of_map
  have hsorted : (sortLt lt (procs.enum.filter f)).Nodup :=
    nodup_sortLt (henum.filter f)
  refine hsorted.map_on ?_
  intro a ha b hb hab
  have hga : procs.get? a.1 = some a.2 :=
    mem_enum_get (List.mem_filter.1 (mem_sortLt.1 ha)).1
  have hgb : procs.get? b.1 = some b.2 :=
    mem_enum_get (List.mem_filter.1 (mem_sortLt.1 hb)).1
  have : a.2 = b.2 := by
    rw [hab] at hga
    exact Option.some.inj (hga.symm.trans hgb)
  exact Prod.ext hab this

lemma rrRetire_none {quantum : Nat} {s : RrState} (h : s.running = none) :
    rrRetire quantum s = s := by
  unfold rrRetire
  rw [h]

lemma rrRetire_commit {quantum : Nat} {s : RrState} {i : Nat}
    (h : s.running = some i)
    (h0 : (s.procs.getD i default).remainingTime = 0) :
    rrRetire quantum s = { s with
      procs := s.procs.set i (rrCommitP (s.procs.getD i default) s.t)
      completed := s.completed + 1
      running := none } := by
  unfold rrRetire
  rw [h]
  simp only []
  rw [if_pos h0]
  rfl

lemma rrRetire_expire {quantum : Nat} {s : RrState} {i : Nat}
    (h : s.running = some i)
    (h0 : ¬ (s.procs.getD i default).remainingTime = 0)
    (hq : s.qc = quantum) :
    rrRetire quantum s = { s with queue := s.queue ++ [i], running := none } := by
  unfold rrRetire
  rw [h]
  simp only []
  rw [if_neg h0, if_pos hq]

lemma rrRetire_keep {quantum : Nat} {s : RrState} {i : Nat}
    (h : s.running = some i)
    (h0 : ¬ (s.procs.getD i default).remainingTime = 0)
    (hq : ¬ s.qc = quantum) :
    rrRetire quantum s = s := by
  unfold rrRetire
  rw [h]
  simp only []
  rw [if_neg h0, if_neg hq]

lemma rrRetire2_none {quantum : Nat} {s : RrState} (h : s.running = none) :
    rrRetire2 quantum s = s := by
  unfold rrRetire2
  rw [h]

lemma rrRetire2_commit {quantum : Nat} {s : RrState} {i : Nat}
    (h : s.running = some i)
    (h0 : (s.procs.getD i default).remainingTime = 0) :
    rrRetire2 quantum s = { s with
      procs := s.procs.set i (rrCommitP (s.procs.getD i default) s.t)
      completed := s.completed + 1
      running := none
      qc := 0 } := by
  unfold rrRetire2
  rw [h]
  simp only []
  rw [if_pos h0]
  rfl

lemma rrRetire2_expire {quantum : Nat} {s : RrState} {i : Nat}
    (h : s.running = some i)
    (h0 : ¬ (s.procs.getD i default).remainingTime = 0)
    (hq : s.qc = quantum) :
    rrRetire2 quantum s =
      { s with queue := s.queue ++ [i], running := none, qc := 0 } := by
  unfold rrRetire2
  rw [h]
  simp only []
  rw [if_neg h0, if_pos hq]

lemma rrRetire2_keep {quantum : Nat} {s : RrState} {i : Nat}
    (h : s.running = some i)
    (h0 : ¬ (s.procs.getD i default).remainingTime = 0)
    (hq : ¬ s.qc = quantum) :
    rrRetire2 quantum s = s := by
  unfold rrRetire2
  rw [h]
  simp only []
  rw [if_neg h0, if_neg hq]

lemma rrDE_idle {s : RrState} (hr : s.running = none) (hq : s.queue = []) :
    rrDispatchExec s =
      { s with timeline := s.timeline ++ [(none : Option Marker)], t := s.t + 1 } := by
  obtain ⟨pr, q, r, qc, t, c, tl⟩ := s
  replace hr : r = none := hr
  replace hq : q = [] := hq
  subst hr
  subst hq
  rfl

lemma rrDE_run {s : RrState} {i : Nat} (hr : s.running = some i) :
    rrDispatchExec s = { s with
      procs := s.procs.set i { s.procs.getD i default with
        remainingTime := (s.procs.getD i default).remainingTime - 1 }
      qc := s.qc + 1
      timeline := s.timeline ++
        [some (⟨(s.procs.getD i default).name, (s.procs.getD i default).color⟩ : Marker)]
      t := s.t + 1 } := by
  obtain ⟨pr, q, r, qc, t, c, tl⟩ := s
  replace hr : r = some i := hr
  subst hr
  rfl

lemma rrDE_dispatch {s : RrState} {i : Nat} {rest : List Nat}
    (hr : s.running = none) (hq : s.queue = i :: rest) :
    rrDispatchExec s = { s with
      running := some i
      queue := rest
      procs := s.procs.set i { s.procs.getD i default with
        remainingTime := (s.procs.getD i default).remainingTime - 1 }
      qc := 1
      timeline := s.timeline ++
        [some (⟨(s.procs.getD i default).name, (s.procs.getD i default).color⟩ : Marker)]
      t := s.t + 1 } := by
  obtain ⟨pr, q, r, qc, t, c, tl⟩ := s
  replace hr : r = none := hr
  replace hq : q = i :: rest := hq
  subst hr
  subst hq
  rfl

lemma rrArriveGen_inv (s : RrState) (f : Nat × Process → Bool)
    (hf : ∀ ip : Nat × Process, f ip = true → ip.2.arrivalTime = s.t)
    (h : RrInv s) :
    RrMid { s with queue := s.queue ++
      ((sortLt (fun a b : Nat × Process => decide (a.2.id < b.2.id))
        (s.procs.enum.filter f)).map (fun ip => ip.1)) } := by
  obtain ⟨hA, hB, hnd, hrun, hq⟩ := h
  have hmemArr : ∀ j ∈ (sortLt (fun a b : Nat × Process => decide (a.2.id < b.2.id))
      (s.procs.enum.filter f)).map (fun ip => ip.1),
      j < s.procs.length ∧ (s.procs.getD j default).arrivalTime = s.t := by
    intro j hj
    obtain ⟨hlen, hfj⟩ := rr_arr_mem s.procs f _ j hj
    exact ⟨hlen, hf _ hfj⟩
  have hremArr : ∀ j ∈ (sortLt (fun a b : Nat × Process => decide (a.2.id < b.2.id))
      (s.procs.enum.filter f)).map (fun ip => ip.1),
      0 < (s.procs.getD j default).remainingTime := by
    intro j hj
    obtain ⟨hlen, harr⟩ := hmemArr j hj
    obtain ⟨hb1, hb2, hb3⟩ := hB _ (getD_mem _ _ hlen)
    by_cases hlt : (s.procs.getD j default).remainingTime <
        (s.procs.getD j default).burstTime
    · have := hb3 hlt
      omega
    · omega
  refine ⟨hA, hB, ?_, ?_, ?_⟩
  · show (s.queue ++ _).Nodup
    refine hnd.append (rr_arr_nodup s.procs f _) ?_
    intro a ha hcontra
    have h1 := (hq a ha).2.1
    have h2 := (hmemArr a hcontra).2
    omega
  · intro i hri
    replace hri : s.running = some i := hri
    obtain ⟨h1, h2, h3⟩ := hrun i hri
    refine ⟨h1, h2, ?_⟩
    intro hc
    rcases List.mem_append.1 hc with hc | hc
    · exact h3 hc
    · have := (hmemArr i hc).2
      omega
  · intro j hj
    replace hj : j ∈ s.queue ++ _ := hj
    rcases List.mem_append.1 hj with hc | hc
    · obtain ⟨h1, h2, h3⟩ := hq j hc
      exact ⟨h1, Nat.le_of_lt h2, h3⟩
    · obtain ⟨h1, h2⟩ := hmemArr j hc
      exact ⟨h1, Nat.le_of_eq h2, hremArr j hc⟩

lemma rrArrive_inv (s : RrState) (h : RrInv s) : RrMid (rrArrive s) := by
  unfold rrArrive
  exact rrArriveGen_inv s (fun ip => ip.2.arrivalTime == s.t)
    (fun ip hip => by simpa using hip) h

lemma rrArrive2_inv (s : RrState) (h : RrInv s) : RrMid (rrArrive2 s) := by
  unfold rrArrive2
  refine rrArriveGen_inv s
    (fun ip => ip.2.arrivalTime == s.t && decide (0 < ip.2.remainingTime)) ?_ h
  intro ip hip
  simp only [Bool.and_eq_true, beq_iff_eq, decide_eq_true_eq] at hip
  exact hip.1

lemma rrArrive_run (s : RrState) (h : RrRun s) : RrRun (rrArrive s) := by
  intro i hi
  exact h i hi

lemma rrRetire_inv (quantum : Nat) (s : RrState) (h : RrInv s) :
    RrInv (rrRetire quantum s) ∧ RrRun (rrRetire quantum s) := by
  obtain ⟨hA, hB, hnd, hrun, hq⟩ := h
  cases hr : s.running with
  | none =>
    rw [rrRetire_none hr]
    refine ⟨⟨hA, hB, hnd, hrun, hq⟩, ?_⟩
    intro i hi
    rw [hr] at hi
    cases hi
  | some i =>
    by_cases h0 : (s.procs.getD i default).remainingTime = 0
    · rw [rrRetire_commit hr h0]
      obtain ⟨hlen, harri, hnotq⟩ := hrun i hr
      have hp0 := hB _ (getD_mem _ _ hlen)
      refine ⟨⟨?_, ?_, hnd, ?_, ?_⟩, ?_⟩
      · intro p hp
        replace hp : p ∈ s.procs.set i (rrCommitP (s.procs.getD i default) s.t) := hp
        rcases List.mem_or_eq_of_mem_set hp with hp' | rfl
        · exact hA p hp'
        · intro hc
          refine ⟨rfl, rfl, ?_⟩
          have hball : (s.procs.getD i default).arrivalTime +
              (s.procs.getD i default).burstTime ≤ s.t := by
            obtain ⟨hb1, hb2, hb3⟩ := hp0
            have := hb3 (by omega)
            omega
          show (0 : Int) ≤ ((s.t : Int) -
            ((s.procs.getD i default).arrivalTime : Int)) -
            ((s.procs.getD i default).burstTime : Int)
          push_cast
          omega
      · intro p hp
        replace hp : p ∈ s.procs.set i (rrCommitP (s.procs.getD i default) s.t) := hp
        rcases List.mem_or_eq_of_mem_set hp with hp' | rfl
        · exact hB p hp'
        · exact hp0
      · intro i' hi'
        exact Option.noConfusion hi'
      · intro j hj
        replace hj : j ∈ s.queue := hj
        have hne : i ≠ j := fun he => hnotq (he ▸ hj)
        obtain ⟨h1, h2, h3⟩ := hq j hj
        refine ⟨?_, ?_, ?_⟩
        · show j < (s.procs.set i _).length
          simpa [List.length_set] using h1
        · show ((s.procs.set i _).getD j default).arrivalTime < s.t
          rw [getD_set_ne _ _ _ _ hne]
          exact h2
        · show 0 < ((s.procs.set i _).getD j default).remainingTime
          rw [getD_set_ne _ _ _ _ hne]
          exact h3
      · intro i' hi'
        exact Option.noConfusion hi'
    · by_cases hqc : s.qc = quantum
      · rw [rrRetire_expire hr h0 hqc]
        obtain ⟨hlen, harri, hnotq⟩ := hrun i hr
        refine ⟨⟨hA, hB, ?_, ?_, ?_⟩, ?_⟩
        · show (s.queue ++ [i]).Nodup
          refine hnd.append (List.nodup_singleton i) ?_
          intro a ha hc
          rcases List.mem_singleton.1 hc with rfl
          exact hnotq ha
        · intro i' hi'
          exact Option.noConfusion hi'
        · intro j hj
          replace hj : j ∈ s.queue ++ [i] := hj
          rcases List.mem_append.1 hj with hc | hc
          · exact hq j hc
          · rcases List.mem_singleton.1 hc with rfl
            exact ⟨hlen, harri, Nat.pos_of_ne_zero h0⟩
        · intro i' hi'
          exact Option.noConfusion hi'
      · rw [rrRetire_keep hr h0 hqc]
        refine ⟨⟨hA, hB, hnd, hrun, hq⟩, ?_⟩
        intro i' hi'
        have : i = i' := Option.some.inj (hr.symm.trans hi')
        subst this
        exact Nat.pos_of_ne_zero h0

lemma rrRetire2_inv (quantum : Nat) (s : RrState) (h : RrMid s) :
    RrMid (rrRetire2 quantum s) ∧ RrRun (rrRetire2 quantum s) := by
  obtain ⟨hA, hB, hnd, hrun, hq⟩ := h
  cases hr : s.running with
  | none =>
    rw [rrRetire2_none hr]
    refine ⟨⟨hA, hB, hnd, hrun, hq⟩, ?_⟩
    intro i hi
    rw [hr] at hi
    cases hi
  | some i =>
    by_cases h0 : (s.procs.getD i default).remainingTime = 0
    · rw [rrRetire2_commit hr h0]
      obtain ⟨hlen, harri, hnotq⟩ := hrun i hr
      have hp0 := hB _ (getD_mem _ _ hlen)
      refine ⟨⟨?_, ?_, hnd, ?_, ?_⟩, ?_⟩
      · intro p hp
        replace hp : p ∈ s.procs.set i (rrCommitP (s.procs.getD i default) s.t) := hp
        rcases List.mem_or_eq_of_mem_set hp with hp' | rfl
        · exact hA p hp'
        · intro hc
          refine ⟨rfl, rfl, ?_⟩
          have hball : (s.procs.getD i default).arrivalTime +
              (s.procs.getD i default).burstTime ≤ s.t := by
            obtain ⟨hb1, hb2, hb3⟩ := hp0
            have := hb3 (by omega)
            omega
          show (0 : Int) ≤ ((s.t : Int) -
            ((s.procs.getD i default).arrivalTime : Int)) -
            ((s.procs.getD i default).burstTime : Int)
          push_cast
          omega
      · intro p hp
        replace hp : p ∈ s.procs.set i (rrCommitP (s.procs.getD i default) s.t) := hp
        rcases List.mem_or_eq_of_mem_set hp with hp' | rfl
        · exact hB p hp'
        · exact hp0
      · intro i' hi'
        exact Option.noConfusion hi'
      · intro j hj
        replace hj : j ∈ s.queue := hj
        have hne : i ≠ j := fun he => hnotq (he ▸ hj)
        obtain ⟨h1, h2, h3⟩ := hq j hj
        refine ⟨?_, ?_, ?_⟩
        · show j < (s.procs.set i _).length
          simpa [List.length_set] using h1
        · show ((s.procs.set i _).getD j default).arrivalTime ≤ s.t
          rw [getD_set_ne _ _ _ _ hne]
          exact h2
        · show 0 < ((s.procs.set i _).getD j default).remainingTime
          rw [getD_set_ne _ _ _ _ hne]
          exact h3
      · intro i' hi'
        exact Option.noConfusion hi'
    · by_cases hqc : s.qc = quantum
      · rw [rrRetire2_expire hr h0 hqc]
        obtain ⟨hlen, harri, hnotq⟩ := hrun i hr
        refine ⟨⟨hA, hB, ?_, ?_, ?_⟩, ?_⟩
        · show (s.queue ++ [i]).Nodup
          refine hnd.append (List.nodup_singleton i) ?_
          intro a ha hc
          rcases List.mem_singleton.1 hc with rfl
          exact hnotq ha
        · intro i' hi'
          exact Option.noConfusion hi'
        · intro j hj
          replace hj : j ∈ s.queue ++ [i] := hj
          rcases List.mem_append.1 hj with hc | hc
          · exact hq j hc
          · rcases List.mem_singleton.1 hc with rfl
            exact ⟨hlen, Nat.le_of_lt harri, Nat.pos_of_ne_zero h0⟩
        · intro i' hi'
          exact Option.noConfusion hi'
      · rw [rrRetire2_keep hr h0 hqc]
        refine ⟨⟨hA, hB, hnd, hrun, hq⟩, ?_⟩
        intro i' hi'
        have : i = i' := Option.some.inj (hr.symm.trans hi')
        subst this
        exact Nat.pos_of_ne_zero h0

lemma rrDE_inv (s : RrState) (hmid : RrMid s) (hrun : RrRun s) :
    RrInv (rrDispatchExec s) := by
  obtain ⟨hA, hB, hnd, hrunC, hqC⟩ := hmid
  cases hr : s.running with
  | some i =>
    rw [rrDE_run hr]
    obtain ⟨hlen, harri, hnotq⟩ := hrunC i hr
    have hremi := hrun i hr
    have hp0 := hB _ (getD_mem _ _ hlen)
    refine ⟨?_, ?_, hnd, ?_, ?_⟩
    · intro p hp
      replace hp : p ∈ s.procs.set i _ := hp
      rcases List.mem_or_eq_of_mem_set hp with hp' | rfl
      · exact hA p hp'
      · exact fun hc => hA _ (getD_mem _ _ hlen) hc
    · intro p hp
      replace hp : p ∈ s.procs.set i _ := hp
      rcases List.mem_or_eq_of_mem_set hp with hp' | rfl
      · obtain ⟨h1, h2, h3⟩ := hB p hp'
        refine ⟨h1, h2, fun hlt => ?_⟩
        have := h3 hlt
        show p.arrivalTime + (p.burstTime - p.remainingTime) ≤ s.t + 1
        omega
      · obtain ⟨h1, h2, h3⟩ := hp0
        refine ⟨h1, ?_, fun hlt => ?_⟩
        · show (s.procs.getD i default).remainingTime - 1 ≤
            (s.procs.getD i default).burstTime
          omega
        · show (s.procs.getD i default).arrivalTime +
            ((s.procs.getD i default).burstTime -
              ((s.procs.getD i default).remainingTime - 1)) ≤ s.t + 1
          rcases Nat.lt_or_ge (s.procs.getD i default).remainingTime
            (s.procs.getD i default).burstTime with hc | hc
          · have := h3 hc
            omega
          · omega
    · intro i' hi'
      replace hi' : s.running = some i' := hi'
      have : i = i' := Option.some.inj (hr.symm.trans hi')
      subst this
      refine ⟨?_, ?_, hnotq⟩
      · show i < (s.procs.set i _).length
        simpa [List.length_set] using hlen
      · show ((s.procs.set i _).getD i default).arrivalTime < s.t + 1
        rw [getD_set_self _ _ _ hlen]
        show (s.procs.getD i default).arrivalTime < s.t + 1
        omega
    · intro j hj
      replace hj : j ∈ s.queue := hj
      have hne : i ≠ j := fun he => hnotq (he ▸ hj)
      obtain ⟨h1, h2, h3⟩ := hqC j hj
      refine ⟨?_, ?_, ?_⟩
      · show j < (s.procs.set i _).length
        simpa [List.length_set] using h1
      · show ((s.procs.set i _).getD j default).arrivalTime < s.t + 1
        rw [getD_set_ne _ _ _ _ hne]
        omega
      · show 0 < ((s.procs.set i _).getD j default).remainingTime
        rw [getD_set_ne _ _ _ _ hne]
        exact h3
  | none =>
    cases hqe : s.queue with
    | nil =>
      rw [rrDE_idle hr hqe]
      refine ⟨hA, ?_, hnd, ?_, ?_⟩
      · intro p hp
        obtain ⟨h1, h2, h3⟩ := hB p hp
        refine ⟨h1, h2, fun hlt => ?_⟩
        have := h3 hlt
        show p.arrivalTime + (p.burstTime - p.remainingTime) ≤ s.t + 1
        omega
      · intro i' hi'
        replace hi' : s.running = some i' := hi'
        rw [hr] at hi'
        cases hi'
      · intro j hj
        replace hj : j ∈ s.queue := hj
        rw [hqe] at hj
        cases hj
    | cons i rest =>
      rw [rrDE_dispatch hr hqe]
      have hmemi : i ∈ s.queue := by
        rw [hqe]
        exact List.mem_cons_self _ _
      obtain ⟨hleni, harrile, hremi⟩ := hqC i hmemi
      have hndc : i ∉ rest ∧ rest.Nodup := by
        rw [hqe] at hnd
        exact List.nodup_cons.1 hnd
      have hp0 := hB _ (getD_mem _ _ hleni)
      refine ⟨?_, ?_, hndc.2, ?_, ?_⟩
      · intro p hp
        replace hp : p ∈ s.procs.set i _ := hp
        rcases List.mem_or_eq_of_mem_set hp with hp' | rfl
        · exact hA p hp'
        · exact fun hc => hA _ (getD_mem _ _ hleni) hc
      · intro p hp
        replace hp : p ∈ s.procs.set i _ := hp
        rcases List.mem_or_eq_of_mem_set hp with hp' | rfl
        · obtain ⟨h1, h2, h3⟩ := hB p hp'
          refine ⟨h1, h2, fun hlt => ?_⟩
          have := h3 hlt
          show p.arrivalTime + (p.burstTime - p.remainingTime) ≤ s.t + 1
          omega
        · obtain ⟨h1, h2, h3⟩ := hp0
          refine ⟨h1, ?_, fun hlt => ?_⟩
          · show (s.procs.getD i default).remainingTime - 1 ≤
              (s.procs.getD i default).burstTime
            omega
          · show (s.procs.getD i default).arrivalTime +
              ((s.procs.getD i default).burstTime -
                ((s.procs.getD i default).remainingTime - 1)) ≤ s.t + 1
            rcases Nat.lt_or_ge (s.procs.getD i default).remainingTime
              (s.procs.getD i default).burstTime with hc | hc
            · have := h3 hc
              omega
            · omega
      · intro i' hi'
        replace hi' : some i = some i' := hi'
        have : i = i' := Option.some.inj hi'
        subst this
        refine ⟨?_, ?_, hndc.1⟩
        · show i < (s.procs.set i _).length
          simpa [List.length_set] using hleni
        · show ((s.procs.set i _).getD i default).arrivalTime < s.t + 1
          rw [getD_set_self _ _ _ hleni]
          show (s.procs.getD i default).arrivalTime < s.t + 1
          omega
      · intro j hj
        replace hj : j ∈ rest := hj
        have hjq : j ∈ s.queue := by
          rw [hqe]
          exact List.mem_cons_of_mem _ hj
        have hne : i ≠ j := fun he => hndc.1 (he ▸ hj)
        obtain ⟨h1, h2, h3⟩ := hqC j hjq
        refine ⟨?_, ?_, ?_⟩
        · show j < (s.procs.set i _).length
          simpa [List.length_set] using h1
        · show ((s.procs.set i _).getD j default).arrivalTime < s.t + 1
          rw [getD_set_ne _ _ _ _ hne]
          omega
        · show 0 < ((s.procs.set i _).getD j default).remainingTime
          rw [getD_set_ne _ _ _ _ hne]
          exact h3

lemma rrStep_inv (quantum : Nat) (s : RrState) (h : RrInv s) :
    RrInv (rrStep quantum s) := by
  rw [rrStep_eq]
  obtain ⟨h1, h2⟩ := rrRetire_inv quantum s h
  exact rrDE_inv _ (rrArrive_inv _ h1) (rrArrive_run _ h2)

lemma rrStep2_inv (quantum : Nat) (s : RrState) (h : RrInv s) :
    RrInv (rrStep2 quantum s) := by
  rw [rrStep2_eq]
  obtain ⟨h1, h2⟩ := rrRetire2_inv quantum (rrArrive2 s) (rrArrive2_inv s h)
  exact rrDE_inv _ h1 h2

lemma rrLoop_inv (quantum n : Nat) :
    ∀ (fuel : Nat) (s res : RrState), RrInv s →
      rrLoop quantum n fuel s = some res → RrInv res := by
  intro fuel
  induction fuel with
  | zero =>
    intro s res _ hc
    exact Option.noConfusion hc
  | succ f ih =>
    intro s res hinv hc
    rw [rrLoop] at hc
    by_cases h1 : s.completed < n
    · rw [if_pos h1] at hc
      simp only [] at hc
      by_cases h2 : 20000 < (rrStep quantum s).t
      · rw [if_pos h2] at hc
        cases hc
        exact rrStep_inv quantum s hinv
      · rw [if_neg h2] at hc
        exact ih _ _ (rrStep_inv quantum s hinv) hc
    · rw [if_neg h1] at hc
      cases hc
      exact hinv

lemma rrLoop2_inv (quantum n : Nat) :
    ∀ (fuel : Nat) (s res : RrState), RrInv s →
      rrLoop2 quantum n fuel s = some res → RrInv res := by
  intro fuel
  induction fuel with
  | zero =>
    intro s res _ hc
    exact Option.noConfusion hc
  | succ f ih =>
    intro s res hinv hc
    rw [rrLoop2] at hc
    by_cases h1 : s.completed < n
    · rw [if_pos h1] at hc
      simp only [] at hc
      by_cases h2 : 10000 < (rrStep2 quantum s).t
      · rw [if_pos h2] at hc
        cases hc
        exact rrStep2_inv quantum s hinv
      · rw [if_neg h2] at hc
        exact ih _ _ (rrStep2_inv quantum s hinv) hc
    · rw [if_neg h1] at hc
      cases hc
      exact hinv

lemma rrInit_inv (processes : List Process) (h : ValidInput processes) :
    RrInv (rrInit processes) := by
  obtain ⟨-, hall⟩ := h
  refine ⟨?_, ?_, List.nodup_nil, ?_, ?_⟩
  · intro p hp
    obtain ⟨h1, h2, h3, h4, h5, h6⟩ := hall p hp
    intro hc
    rw [h4] at hc
    exact absurd hc (by omega)
  · intro p hp
    obtain ⟨h1, h2, h3, h4, h5, h6⟩ := hall p hp
    exact ⟨h1, Nat.le_of_eq h2, fun hlt => absurd hlt (by omega)⟩
  · intro i hi
    exact Option.noConfusion hi
  · intro j hj
    exact absurd hj (List.not_mem_nil j)

lemma valid_metrics (procs : List Process) (h : ValidInput procs) :
    ∀ p ∈ procs, MetricsOK p := by
  intro p hp hc
  have h4 := (h.2 p hp).2.2.2.1
  rw [h4] at hc
  exact absurd hc (lt_irrefl 0)

lemma runFCFS_metrics (procs : List Process) :
    ∀ p ∈ (runFCFS procs).processes, MetricsOK p := by
  unfold runFCFS
  by_cases hl : procs = []
  · rw [if_pos hl]
    intro p hp
    exact absurd hp (List.not_mem_nil p)
  · rw [if_neg hl]
    exact fcfsFold_metrics (sortLt fcfsLt procs) 0 [] []
      (fun p hp => absurd hp (List.not_mem_nil p))

lemma runSJF_metrics (procs : List Process) (h : ValidInput procs) :
    ∀ res, runSJF procs = some res → ∀ p ∈ res.processes, MetricsOK p := by
  intro res hres
  unfold runSJF at hres
  by_cases hl : procs = []
  · rw [if_pos hl] at hres
    cases hres
    intro p hp
    exact absurd hp (List.not_mem_nil p)
  · rw [if_neg hl] at hres
    simp only [] at hres
    rcases Option.map_eq_some'.1 hres with ⟨s, hs, rfl⟩
    have hinv := iterWhile_invariant _ sjfStep
      (fun st => ∀ p ∈ st.procs, MetricsOK p)
      (fun st hI _ => sjfStep_metrics st hI) _ _ _ (valid_metrics procs h) hs
    exact hinv.1

lemma runPNP_metrics (procs : List Process) (h : ValidInput procs) :
    ∀ res, runPriorityNonPreemptive procs = some res →
      ∀ p ∈ res.processes, MetricsOK p := by
  intro res hres
  unfold runPriorityNonPreemptive at hres
  by_cases hl : procs = []
  · rw [if_pos hl] at hres
    cases hres
    intro p hp
    exact absurd hp (List.not_mem_nil p)
  · rw [if_neg hl] at hres
    simp only [] at hres
    rcases Option.map_eq_some'.1 hres with ⟨s, hs, rfl⟩
    have hinv := iterWhile_invariant _ pnpStep
      (fun st => ∀ p ∈ st.procs, MetricsOK p)
      (fun st hI _ => pnpStep_metrics st hI) _ _ _ (valid_metrics procs h) hs
    exact hinv.1

lemma runSRTF_metrics (procs : List Process) (h : ValidInput procs) :
    ∀ res, runSRTF procs = some res → ∀ p ∈ res.processes, MetricsOK p := by
  intro res hres
  unfold runSRTF at hres
  by_cases hl : procs = []
  · rw [if_pos hl] at hres
    cases hres
    intro p hp
    exact absurd hp (List.not_mem_nil p)
  · rw [if_neg hl] at hres
    simp only [] at hres
    rcases Option.map_eq_some'.1 hres with ⟨s, hs, rfl⟩
    have hinv := iterWhile_invariant _ srtfStep
      (fun st => (∀ p ∈ st.procs, MetricsOK p) ∧
        ∀ p ∈ st.procs, p.remainingTime ≤ p.burstTime ∧
          (p.remainingTime < p.burstTime →
            p.arrivalTime + (p.burstTime - p.remainingTime) ≤ st.t))
      (fun st hI _ => srtfStep_inv st hI) _ _ _ ?_ hs
    · exact hinv.1.1
    · refine ⟨valid_metrics procs h, ?_⟩
      intro p hp
      have h2 := (h.2 p hp).2.1
      exact ⟨Nat.le_of_eq h2, fun hlt => absurd hlt (by omega)⟩

lemma runPP_metrics (procs : List Process) (h : ValidInput procs) :
    ∀ res, runPriorityPreemptive procs = some res →
      ∀ p ∈ res.processes, MetricsOK p := by
  intro res hres
  unfold runPriorityPreemptive at hres
  by_cases hl : procs = []
  · rw [if_pos hl] at hres
    cases hres
    intro p hp
    exact absurd hp (List.not_mem_nil p)
  · rw [if_neg hl] at hres
    simp only [] at hres
    rcases Option.map_eq_some'.1 hres with ⟨s, hs, rfl⟩
    have hinv := iterWhile_invariant _ ppStep
      (fun st => (∀ p ∈ st.procs, MetricsOK p) ∧
        ∀ p ∈ st.procs, p.remainingTime ≤ p.burstTime ∧
          (p.remainingTime < p.burstTime →
            p.arrivalTime + (p.burstTime - p.remainingTime) ≤ st.t))
      (fun st hI _ => ppStep_inv st hI) _ _ _ ?_ hs
    · exact hinv.1.1
    · refine ⟨valid_metrics procs h, ?_⟩
      intro p hp
      have h2 := (h.2 p hp).2.1
      exact ⟨Nat.le_of_eq h2, fun hlt => absurd hlt (by omega)⟩

lemma runRR_metrics (procs : List Process) (h : ValidInput procs) :
    ∀ quantum res, runRoundRobin procs quantum = some res →
      ∀ p ∈ res.processes, MetricsOK p := by
  intro quantum res hres
  unfold runRoundRobin at hres
  by_cases hl : procs = []
  · rw [if_pos hl] at hres
    cases hres
    intro p hp
    exact absurd hp (List.not_mem_nil p)
  · rw [if_neg hl] at hres
    rcases Option.map_eq_some'.1 hres with ⟨s, hs, rfl⟩
    have hinv := rrLoop_inv quantum procs.length 20002 _ s (rrInit_inv procs h) hs
    exact hinv.1

lemma runRR2_metrics (procs : List Process) (h : ValidInput procs) :
    ∀ quantum res, runRoundRobin2 procs quantum = some res →
      ∀ p ∈ res.processes, MetricsOK p := by
  intro quantum res hres
  unfold runRoundRobin2 at hres
  by_cases hl : procs = []
  · rw [if_pos hl] at hres
    cases hres
    intro p hp
    exact absurd hp (List.not_mem_nil p)
  · rw [if_neg hl] at hres
    rcases Option.map_eq_some'.1 hres with ⟨s, hs, rfl⟩
    have hinv := rrLoop2_inv quantum procs.length 10002 _ s (rrInit_inv procs h) hs
    exact hinv.1

/-- C3: for every valid input and every policy (both source variants of the
batch engines), every completed process in the returned result satisfies
`turnaroundTime = completionTime - arrivalTime`,
`waitingTime = turnaroundTime - burstTime`, and `waitingTime ≥ 0`.
"Completed" is expressed as `0 < completionTime`, which on valid inputs
(where all metrics start at 0) characterises exactly the processes whose
completion was committed by the engine. -/
theorem c3_completed_metrics_all_policies (procs : List Process)
    (h : ValidInput procs) :
    (∀ p ∈ (runFCFS procs).processes, MetricsOK p) ∧
    (∀ res, runSJF procs = some res → ∀ p ∈ res.processes, MetricsOK p) ∧
    (∀ res, runPriorityNonPreemptive procs = some res →
      ∀ p ∈ res.processes, MetricsOK p) ∧
    (∀ res, runSRTF procs = some res → ∀ p ∈ res.processes, MetricsOK p) ∧
    (∀ res, runPriorityPreemptive procs = some res →
      ∀ p ∈ res.processes, MetricsOK p) ∧
    (∀ quantum res, runRoundRobin procs quantum = some res →
      ∀ p ∈ res.processes, MetricsOK p) ∧
    (∀ quantum res, runRoundRobin2 procs quantum = some res →
      ∀ p ∈ res.processes, MetricsOK p) :=
  ⟨runFCFS_metrics procs, runSJF_metrics procs h, runPNP_metrics procs h,
    runSRTF_metrics procs h, runPP_metrics procs h, runRR_metrics procs h,
    runRR2_metrics procs h⟩

theorem c3_completed_metrics_all_policies_witness :
    ValidInput exRR ∧ ∀ p ∈ (runFCFS exRR).processes, MetricsOK p :=
  ⟨by decide, (c3_completed_metrics_all_policies exRR (by decide)).1⟩

lemma fcfsFold_total :
    ∀ (l : List Process) (t : Nat) (tl : List (Option Marker)) (acc : List Process),
      (∀ p ∈ acc, p.completionTime ≤ (t : Int)) →
      (∀ p ∈ (fcfsFold l t tl acc).2.2,
        p.completionTime ≤ ((fcfsFold l t tl acc).1 : Int)) ∧
      ((l ≠ [] ∨ ∃ p ∈ acc, p.completionTime = (t : Int)) →
        ∃ p ∈ (fcfsFold l t tl acc).2.2,
          p.completionTime = ((fcfsFold l t tl acc).1 : Int)) := by
  intro l
  induction l with
  | nil =>
    intro t tl acc hacc
    refine ⟨hacc, ?_⟩
    rintro (hne | hex)
    · exact absurd rfl hne
    · exact hex
  | cons q rest ih =>
    intro t tl acc hacc
    simp only [fcfsFold]
    set t1 := if t < q.arrivalTime then q.arrivalTime else t with ht1
    have ht1ge : t ≤ t1 := by
      rw [ht1]
      split <;> omega
    set p' : Process := { q with
      completionTime := (t1 : Int) + (q.burstTime : Int)
      turnaroundTime := (t1 : Int) + (q.burstTime : Int) - (q.arrivalTime : Int)
      waitingTime := (t1 : Int) + (q.burstTime : Int) - (q.arrivalTime : Int) -
        (q.burstTime : Int) } with hp'
    have hcast : ((t1 + q.burstTime : Nat) : Int) = (t1 : Int) + (q.burstTime : Int) := by
      push_cast
      ring
    have hacc' : ∀ p ∈ acc ++ [p'], p.completionTime ≤ ((t1 + q.burstTime : Nat) : Int) := by
      intro p hp
      rcases List.mem_append.1 hp with hp1 | hp1
      · refine (hacc p hp1).trans ?_
        rw [hcast]
        have : (t : Int) ≤ (t1 : Int) := by exact_mod_cast ht1ge
        omega
      · rcases List.mem_singleton.1 hp1 with rfl
        rw [hcast]
    have H := ih (t1 + q.burstTime)
      (tl ++ List.replicate (q.arrivalTime - t) none ++
        List.replicate q.burstTime (some ⟨q.name, q.color⟩)) (acc ++ [p']) hacc'
    refine ⟨H.1, fun _ => H.2 (Or.inr ⟨p', ?_, ?_⟩)⟩
    · simp
    · show (t1 : Int) + (q.burstTime : Int) = _
      rw [hcast]

lemma foldl_mem_of_or {f : α → α → α} (hf : ∀ a b, f a b = a ∨ f a b = b) :
    ∀ (ys : List α) (a : α), ys.foldl f a = a ∨ ys.foldl f a ∈ ys := by
  intro ys
  induction ys with
  | nil => intro a; exact Or.inl rfl
  | cons y ys ih =>
    intro a
    simp only [List.foldl_cons]
    rcases ih (f a y) with h | h
    · rw [h]
      rcases hf a y with h' | h'
      · exact Or.inl h'
      · refine Or.inr ?_
        rw [h']
        exact List.mem_cons_self _ _
    · exact Or.inr (List.mem_cons_of_mem _ h)

lemma reduce1_mem {f : α → α → α} (hf : ∀ a b, f a b = a ∨ f a b = b)
    {l : List α} {r : α} (h : reduce1 f l = some r) : r ∈ l := by
  cases l with
  | nil => cases h
  | cons x xs =>
    simp only [reduce1, Option.some.injEq] at h
    subst h
    rcases foldl_mem_of_or hf xs x with h | h
    · rw [h]
      exact List.mem_cons_self _ _
    · exact List.mem_cons_of_mem _ h

lemma sjfCmp_or (a b : Nat × Process) : sjfCmp a b = a ∨ sjfCmp a b = b := by
  unfold sjfCmp
  split
  · exact Or.inl rfl
  · split
    · exact Or.inr rfl
    · split
      · exact Or.inl rfl
      · exact Or.inr rfl

lemma pnpCmp_or (a b : Nat × Process) : pnpCmp a b = a ∨ pnpCmp a b = b := by
  unfold pnpCmp
  split
  · exact Or.inl rfl
  · split
    · exact Or.inr rfl
    · split
      · exact Or.inl rfl
      · exact Or.inr rfl

lemma mem_set_self (l : List Process) (i : Nat) (a : Process) (h : i < l.length) :
    a ∈ l.set i a := by
  have h' : i < (l.set i a).length := by simpa [List.length_set] using h
  have := getD_mem (l.set i a) i h'
  rwa [getD_set_self _ _ _ h] at this

lemma sjfStep_total (n : Nat) (s : NPState) (hc : s.completed < n)
    (h : s.completed ≤ n ∧ (∀ p ∈ s.procs, p.completionTime ≤ (s.t : Int)) ∧
      (s.completed = n → ∃ p ∈ s.procs, p.completionTime = (s.t : Int))) :
    (sjfStep s).completed ≤ n ∧
      (∀ p ∈ (sjfStep s).procs, p.completionTime ≤ ((sjfStep s).t : Int)) ∧
      ((sjfStep s).completed = n →
        ∃ p ∈ (sjfStep s).procs, p.completionTime = ((sjfStep s).t : Int)) := by
  obtain ⟨h1, h2, h3⟩ := h
  unfold sjfStep
  simp only []
  cases hm : reduce1 sjfCmp (s.procs.enum.filter fun ip =>
      decide (ip.2.arrivalTime ≤ s.t) && !(s.doneIds.contains ip.2.id)) with
  | none =>
    refine ⟨h1, ?_, ?_⟩
    · intro p hp
      have hb := h2 p hp
      show p.completionTime ≤ ((s.t + 1 : Nat) : Int)
      push_cast
      push_cast at hb
      omega
    · intro hn
      replace hn : s.completed = n := hn
      omega
  | some ip =>
    obtain ⟨i, q⟩ := ip
    have hmem := reduce1_mem sjfCmp_or hm
    have hienum : (i, q) ∈ s.procs.enum := (List.mem_filter.1 hmem).1
    have hget : s.procs.get? i = some q := mem_enum_get hienum
    have hlen : i < s.procs.length := (List.get?_eq_some.1 hget).1
    simp only []
    refine ⟨by show s.completed + 1 ≤ n; omega, ?_, ?_⟩
    · intro p hp
      replace hp : p ∈ s.procs.set i _ := hp
      rcases List.mem_or_eq_of_mem_set hp with hp' | rfl
      · have hb := h2 p hp'
        show p.completionTime ≤
          (((if s.t < q.arrivalTime then q.arrivalTime else s.t) + q.burstTime : Nat) : Int)
        have hge : s.t ≤ (if s.t < q.arrivalTime then q.arrivalTime else s.t) + q.burstTime := by
          split <;> omega
        exact hb.trans (by exact_mod_cast hge)
      · exact le_of_eq rfl
    · intro _
      exact ⟨_, mem_set_self _ _ _ hlen, rfl⟩

lemma pnpStep_total (n : Nat) (s : NPState) (hc : s.completed < n)
    (h : s.completed ≤ n ∧ (∀ p ∈ s.procs, p.completionTime ≤ (s.t : Int)) ∧
      (s.completed = n → ∃ p ∈ s.procs, p.completionTime = (s.t : Int))) :
    (pnpStep s).completed ≤ n ∧
      (∀ p ∈ (pnpStep s).procs, p.completionTime ≤ ((pnpStep s).t : Int)) ∧
      ((pnpStep s).completed = n →
        ∃ p ∈ (pnpStep s).procs, p.completionTime = ((pnpStep s).t : Int)) := by
  obtain ⟨h1, h2, h3⟩ := h
  unfold pnpStep
  simp only []
  cases hm : reduce1 pnpCmp (s.procs.enum.filter fun ip =>
      decide (ip.2.arrivalTime ≤ s.t) && !(s.doneIds.contains ip.2.id)) with
  | none =>
    refine ⟨h1, ?_, ?_⟩
    · intro p hp
      have hb := h2 p hp
      show p.completionTime ≤ ((s.t + 1 : Nat) : Int)
      push_cast
      push_cast at hb
      omega
    · intro hn
      replace hn : s.completed = n := hn
      omega
  | some ip =>
    obtain ⟨i, q⟩ := ip
    have hmem := reduce1_mem pnpCmp_or hm
    have hienum : (i, q) ∈ s.procs.enum := (List.mem_filter.1 hmem).1
    have hget : s.procs.get? i = some q := mem_enum_get hienum
    have hlen : i < s.procs.length := (List.get?_eq_some.1 hget).1
    simp only []
    refine ⟨by show s.completed + 1 ≤ n; omega, ?_, ?_⟩
    · intro p hp
      replace hp : p ∈ s.procs.set i _ := hp
      rcases List.mem_or_eq_of_mem_set hp with hp' | rfl
      · have hb := h2 p hp'
        show p.completionTime ≤
          (((if s.t < q.arrivalTime then q.arrivalTime else s.t) + q.burstTime : Nat) : Int)
        have hge : s.t ≤ (if s.t < q.arrivalTime then q.arrivalTime else s.t) + q.burstTime := by
          split <;> omega
        exact hb.trans (by exact_mod_cast hge)
      · exact le_of_eq rfl
    · intro _
      exact ⟨_, mem_set_self _ _ _ hlen, rfl⟩

lemma srtfStep_total (n : Nat) (s : PreState) (hc : ¬ s.completed = n)
    (h : (∀ p ∈ s.procs, p.completionTime ≤ (s.t : Int)) ∧
      (s.completed = n → ∃ p ∈ s.procs, p.completionTime = (s.t : Int))) :
    (∀ p ∈ (srtfStep s).procs, p.completionTime ≤ ((srtfStep s).t : Int)) ∧
      ((srtfStep s).completed = n →
        ∃ p ∈ (srtfStep s).procs, p.completionTime = ((srtfStep s).t : Int)) := by
  obtain ⟨h2, h3⟩ := h
  unfold srtfStep
  cases hsel : srtfSel s.procs s.t with
  | none =>
    refine ⟨?_, ?_⟩
    · intro p hp
      have hb := h2 p hp
      show p.completionTime ≤ ((s.t + 1 : Nat) : Int)
      push_cast
      push_cast at hb
      omega
    · intro hn
      replace hn : s.completed = n := hn
      exact absurd hn hc
  | some i =>
    obtain ⟨p0, hget, harr, hrem⟩ := srtfSel_guard s.procs s.t i hsel
    have hgetD : s.procs.getD i default = p0 := by
      simp only [List.getD]
      rw [hget]
      rfl
    have hlen : i < s.procs.length := (List.get?_eq_some.1 hget).1
    simp only [hgetD]
    split
    next hz =>
      refine ⟨?_, ?_⟩
      · intro p hp
        replace hp : p ∈ s.procs.set i _ := hp
        rcases List.mem_or_eq_of_mem_set hp with hp' | rfl
        · have hb := h2 p hp'
          show p.completionTime ≤ ((s.t + 1 : Nat) : Int)
          push_cast
          push_cast at hb
          omega
        · exact le_of_eq rfl
      · intro _
        exact ⟨_, mem_set_self _ _ _ hlen, rfl⟩
    next hz =>
      refine ⟨?_, ?_⟩
      · intro p hp
        replace hp : p ∈ s.procs.set i _ := hp
        rcases List.mem_or_eq_of_mem_set hp with hp' | rfl
        · have hb := h2 p hp'
          show p.completionTime ≤ ((s.t + 1 : Nat) : Int)
          push_cast
          push_cast at hb
          omega
        · have hb := h2 p0 (List.get?_mem hget)
          show p0.completionTime ≤ ((s.t + 1 : Nat) : Int)
          push_cast
          push_cast at hb
          omega
      · intro hn
        replace hn : s.completed = n := hn
        exact absurd hn hc

lemma ppStep_total (n : Nat) (s : PreState) (hc : ¬ s.completed = n)
    (h : (∀ p ∈ s.procs, p.completionTime ≤ (s.t : Int)) ∧
      (s.completed = n → ∃ p ∈ s.procs, p.completionTime = (s.t : Int))) :
    (∀ p ∈ (ppStep s).procs, p.completionTime ≤ ((ppStep s).t : Int)) ∧
      ((ppStep s).completed = n →
        ∃ p ∈ (ppStep s).procs, p.completionTime = ((ppStep s).t : Int)) := by
  obtain ⟨h2, h3⟩ := h
  unfold ppStep
  cases hsel : ppSel s.procs s.t with
  | none =>
    refine ⟨?_, ?_⟩
    · intro p hp
      have hb := h2 p hp
      show p.completionTime ≤ ((s.t + 1 : Nat) : Int)
      push_cast
      push_cast at hb
      omega
    · intro hn
      replace hn : s.completed = n := hn
      exact absurd hn hc
  | some i =>
    obtain ⟨p0, hget, harr, hrem⟩ := ppSel_guard s.procs s.t i hsel
    have hgetD : s.procs.getD i default = p0 := by
      simp only [List.getD]
      rw [hget]
      rfl
    have hlen : i < s.procs.length := (List.get?_eq_some.1 hget).1
    simp only [hgetD]
    split
    next hz =>
      refine ⟨?_, ?_⟩
      · intro p hp
        replace hp : p ∈ s.procs.set i _ := hp
        rcases List.mem_or_eq_of_mem_set hp with hp' | rfl
        · have hb := h2 p hp'
          show p.completionTime ≤ ((s.t + 1 : Nat) : Int)
          push_cast
          push_cast at hb
          omega
        · exact le_of_eq rfl
      · intro _
        exact ⟨_, mem_set_self _ _ _ hlen, rfl⟩
    next hz =>
      refine ⟨?_, ?_⟩
      · intro p hp
        replace hp : p ∈ s.procs.set i _ := hp
        rcases List.mem_or_eq_of_mem_set hp with hp' | rfl
        · have hb := h2 p hp'
          show p.completionTime ≤ ((s.t + 1 : Nat) : Int)
          push_cast
          push_cast at hb
          omega
        · have hb := h2 p0 (List.get?_mem hget)
          show p0.completionTime ≤ ((s.t + 1 : Nat) : Int)
          push_cast
          push_cast at hb
          omega
      · intro hn
        replace hn : s.completed = n := hn
        exact absurd hn hc

lemma countP_set (P : Process → Bool) :
    ∀ (l : List Process) (i : Nat) (a : Process), i < l.length →
      (l.set i a).countP P + (if P (l.getD i default) then 1 else 0) =
        l.countP P + (if P a then 1 else 0) := by
  intro l
  induction l with
  | nil =>
    intro i a h
    exact absurd h (by simp)
  | cons x xs ih =>
    intro i a h
    cases i with
    | zero =>
      simp only [List.set, List.countP_cons, List.getD_cons_zero]
      omega
    | succ i =>
      have hlt : i < xs.length := by simpa using h
      have := ih i a hlt
      simp only [List.set, List.countP_cons, List.getD_cons_succ]
      omega

lemma mem_set_or (l : List Process) (i : Nat) (a : Process) {p : Process}
    (hp : p ∈ l) : p ∈ l.set i a ∨ p = l.getD i default := by
  rcases List.mem_iff_get.1 hp with ⟨⟨j, hj⟩, rfl⟩
  by_cases hij : i = j
  · subst hij
    right
    simp [List.getD, List.getElem?_eq_getElem hj, List.get_eq_getElem]
  · left
    have hj' : j < (l.set i a).length := by simpa [List.length_set] using hj
    have : (l.set i a).get ⟨j, hj'⟩ = l.get ⟨j, hj⟩ := by
      simp [List.get_eq_getElem, List.getElem_set_ne (by omega : i ≠ j)]
    rw [← this]
    exact List.get_mem _ _ _

lemma rrC8_weaken (n : Nat) (s : RrState) (h : RrC8 n s)
    (hc : s.completed < n) : RrC8Mid n s := by
  obtain ⟨h1, h2, h3, h4, h5⟩ := h
  refine ⟨?_, h2, h3, h4, ?_⟩
  · intro p hp
    rcases h1 p hp with h | ⟨ha, hb⟩
    · exact Or.inl h
    · exact Or.inr ⟨ha, le_of_lt hb⟩
  · intro hn
    exact absurd hn (by omega)

lemma countP_set_eq (P : Process → Bool) (l : List Process) (i : Nat)
    (a : Process) (h : i < l.length) (heq : P a = P (l.getD i default)) :
    (l.set i a).countP P = l.countP P := by
  have hc := countP_set P l i a h
  rw [heq] at hc
  omega

lemma rrArriveGen_c8 (n : Nat) (s : RrState) (f : Nat × Process → Bool)
    (hf : ∀ ip : Nat × Process, f ip = true → ip.2.arrivalTime = s.t)
    (hbpos : ∀ p ∈ s.procs, 0 < p.burstTime)
    (h : RrC8Mid n s) :
    RrC8Mid n { s with queue := s.queue ++
      ((sortLt (fun a b : Nat × Process => decide (a.2.id < b.2.id))
        (s.procs.enum.filter f)).map (fun ip => ip.1)) } := by
  obtain ⟨h1, h2, h3, h4, h5⟩ := h
  refine ⟨h1, h2, h3, ?_, h5⟩
  intro j hj
  replace hj : j ∈ s.queue ++ _ := hj
  rcases List.mem_append.1 hj with hc | hc
  · exact h4 j hc
  · obtain ⟨hlen, hfj⟩ := rr_arr_mem s.procs f _ j hc
    have harr := hf _ hfj
    rcases h1 _ (getD_mem _ _ hlen) with h0 | ⟨ha, hb⟩
    · exact h0
    · have hbp := hbpos _ (getD_mem _ _ hlen)
      exfalso
      rw [harr] at ha
      have hbi : (1 : Int) ≤ ((s.procs.getD j default).burstTime : Int) := by
        exact_mod_cast hbp
      omega

lemma rrRetire_c8 (quantum n : Nat) (s : RrState) (hinv : RrInv s)
    (h : RrC8Mid n s) : RrC8Mid n (rrRetire quantum s) := by
  obtain ⟨h1, h2, h3, h4, h5⟩ := h
  obtain ⟨hA, hB, hnd, hrun, hq⟩ := hinv
  cases hr : s.running with
  | none =>
    rw [rrRetire_none hr]
    exact ⟨h1, h2, h3, h4, h5⟩
  | some i =>
    by_cases h0 : (s.procs.getD i default).remainingTime = 0
    · rw [rrRetire_commit hr h0]
      obtain ⟨hlen, harri, hnotq⟩ := hrun i hr
      have hcomp0 : (s.procs.getD i default).completionTime = 0 := h3 i hr
      obtain ⟨hb1, hb2, hb3⟩ := hB _ (getD_mem _ _ hlen)
      have hab : (s.procs.getD i default).arrivalTime +
          (s.procs.getD i default).burstTime ≤ s.t := by
        have := hb3 (by omega)
        omega
      have htpos : 1 ≤ s.t := by omega
      refine ⟨?_, ?_, ?_, ?_, ?_⟩
      · intro p hp
        replace hp : p ∈ s.procs.set i _ := hp
        rcases List.mem_or_eq_of_mem_set hp with hp' | rfl
        · exact h1 p hp'
        · right
          constructor
          · show ((s.procs.getD i default).arrivalTime : Int) +
              ((s.procs.getD i default).burstTime : Int) ≤ (s.t : Int)
            exact_mod_cast hab
          · exact le_refl _
      · show s.completed + 1 = (s.procs.set i
            (rrCommitP (s.procs.getD i default) s.t)).countP
            (fun p => decide (0 < p.completionTime))
        have hc := countP_set (fun p => decide (0 < p.completionTime)) s.procs i
          (rrCommitP (s.procs.getD i default) s.t) hlen
        have hfa : (decide (0 < (s.procs.getD i default).completionTime)) = false := by
          rw [hcomp0]
          simp
        have htr : (decide (0 < (rrCommitP (s.procs.getD i default) s.t).completionTime))
            = true := by
          simp only [rrCommitP, decide_eq_true_eq]
          show (0 : Int) < (s.t : Int)
          exact_mod_cast htpos
        replace hc : (s.procs.set i (rrCommitP (s.procs.getD i default) s.t)).countP
            (fun p => decide (0 < p.completionTime)) +
            (if decide (0 < (s.procs.getD i default).completionTime) = true
              then 1 else 0) =
          s.procs.countP (fun p => decide (0 < p.completionTime)) +
            (if decide (0 < (rrCommitP (s.procs.getD i default) s.t).completionTime) = true
              then 1 else 0) := hc
        simp only [hfa, htr] at hc
        rw [if_neg (by simp : ¬ (false = true)), if_pos trivial] at hc
        omega
      · intro i' hi'
        exact Option.noConfusion hi'
      · intro j hj
        replace hj : j ∈ s.queue := hj
        have hne : i ≠ j := fun he => hnotq (he ▸ hj)
        show ((s.procs.set i _).getD j default).completionTime = 0
        rw [getD_set_ne _ _ _ _ hne]
        exact h4 j hj
      · intro hn
        exact ⟨rrCommitP (s.procs.getD i default) s.t, mem_set_self _ _ _ hlen, rfl⟩
    · by_cases hqc : s.qc = quantum
      · rw [rrRetire_expire hr h0 hqc]
        refine ⟨h1, h2, ?_, ?_, h5⟩
        · intro i' hi'
          exact Option.noConfusion hi'
        · intro j hj
          replace hj : j ∈ s.queue ++ [i] := hj
          rcases List.mem_append.1 hj with hc | hc
          · exact h4 j hc
          · rcases List.mem_singleton.1 hc with rfl
            exact h3 j hr
      · rw [rrRetire_keep hr h0 hqc]
        exact ⟨h1, h2, h3, h4, h5⟩

lemma rrRetire2_c8 (quantum n : Nat) (s : RrState) (hinv : RrMid s)
    (h : RrC8Mid n s) : RrC8Mid n (rrRetire2 quantum s) := by
  obtain ⟨h1, h2, h3, h4, h5⟩ := h
  obtain ⟨hA, hB, hnd, hrun, hq⟩ := hinv
  cases hr : s.running with
  | none =>
    rw [rrRetire2_none hr]
    exact ⟨h1, h2, h3, h4, h5⟩
  | some i =>
    by_cases h0 : (s.procs.getD i default).remainingTime = 0
    · rw [rrRetire2_commit hr h0]
      obtain ⟨hlen, harri, hnotq⟩ := hrun i hr
      have hcomp0 : (s.procs.getD i default).completionTime = 0 := h3 i hr
      obtain ⟨hb1, hb2, hb3⟩ := hB _ (getD_mem _ _ hlen)
      have hab : (s.procs.getD i default).arrivalTime +
          (s.procs.getD i default).burstTime ≤ s.t := by
        have := hb3 (by omega)
        omega
      have htpos : 1 ≤ s.t := by omega
      refine ⟨?_, ?_, ?_, ?_, ?_⟩
      · intro p hp
        replace hp : p ∈ s.procs.set i _ := hp
        rcases List.mem_or_eq_of_mem_set hp with hp' | rfl
        · exact h1 p hp'
        · right
          constructor
          · show ((s.procs.getD i default).arrivalTime : Int) +
              ((s.procs.getD i default).burstTime : Int) ≤ (s.t : Int)
            exact_mod_cast hab
          · exact le_refl _
      · show s.completed + 1 = (s.procs.set i
            (rrCommitP (s.procs.getD i default) s.t)).countP
            (fun p => decide (0 < p.completionTime))
        have hc := countP_set (fun p => decide (0 < p.completionTime)) s.procs i
          (rrCommitP (s.procs.getD i default) s.t) hlen
        have hfa : (decide (0 < (s.procs.getD i default).completionTime)) = false := by
          rw [hcomp0]
          simp
        have htr : (decide (0 < (rrCommitP (s.procs.getD i default) s.t).completionTime))
            = true := by
          simp only [rrCommitP, decide_eq_true_eq]
          show (0 : Int) < (s.t : Int)
          exact_mod_cast htpos
        replace hc : (s.procs.set i (rrCommitP (s.procs.getD i default) s.t)).countP
            (fun p => decide (0 < p.completionTime)) +
            (if decide (0 < (s.procs.getD i default).completionTime) = true
              then 1 else 0) =
          s.procs.countP (fun p => decide (0 < p.completionTime)) +
            (if decide (0 < (rrCommitP (s.procs.getD i default) s.t).completionTime) = true
              then 1 else 0) := hc
        simp only [hfa, htr] at hc
        rw [if_neg (by simp : ¬ (false = true)), if_pos trivial] at hc
        omega
      · intro i' hi'
        exact Option.noConfusion hi'
      · intro j hj
        replace hj : j ∈ s.queue := hj
        have hne : i ≠ j := fun he => hnotq (he ▸ hj)
        show ((s.procs.set i _).getD j default).completionTime = 0
        rw [getD_set_ne _ _ _ _ hne]
        exact h4 j hj
      · intro hn
        exact ⟨rrCommitP (s.procs.getD i default) s.t, mem_set_self _ _ _ hlen, rfl⟩
    · by_cases hqc : s.qc = quantum
      · rw [rrRetire2_expire hr h0 hqc]
        refine ⟨h1, h2, ?_, ?_, h5⟩
        · intro i' hi'
          exact Option.noConfusion hi'
        · intro j hj
          replace hj : j ∈ s.queue ++ [i] := hj
          rcases List.mem_append.1 hj with hc | hc
          · exact h4 j hc
          · rcases List.mem_singleton.1 hc with rfl
            exact h3 j hr
      · rw [rrRetire2_keep hr h0 hqc]
        exact ⟨h1, h2, h3, h4, h5⟩

lemma rrDE_c8 (n : Nat) (s : RrState) (hmid : RrMid s) (h : RrC8Mid n s) :
    RrC8 n (rrDispatchExec s) := by
  obtain ⟨h1, h2, h3, h4, h5⟩ := h
  obtain ⟨hA, hB, hnd, hrunC, hqC⟩ := hmid
  have hcast : ((s.t + 1 : Nat) : Int) - 1 = (s.t : Int) := by
    push_cast
    ring
  cases hr : s.running with
  | some i =>
    rw [rrDE_run hr]
    obtain ⟨hlen, harri, hnotq⟩ := hrunC i hr
    refine ⟨?_, ?_, ?_, ?_, ?_⟩
    · intro p hp
      replace hp : p ∈ s.procs.set i _ := hp
      rcases List.mem_or_eq_of_mem_set hp with hp' | rfl
      · rcases h1 p hp' with h0 | ⟨ha, hb⟩
        · exact Or.inl h0
        · refine Or.inr ⟨ha, ?_⟩
          show p.completionTime < ((s.t + 1 : Nat) : Int)
          push_cast
          omega
      · rcases h1 _ (getD_mem _ _ hlen) with h0 | ⟨ha, hb⟩
        · exact Or.inl h0
        · refine Or.inr ⟨ha, ?_⟩
          show (s.procs.getD i default).completionTime < ((s.t + 1 : Nat) : Int)
          push_cast
          omega
    · show s.completed = (s.procs.set i { s.procs.getD i default with
          remainingTime := (s.procs.getD i default).remainingTime - 1 }).countP
          (fun p => decide (0 < p.completionTime))
      rw [countP_set_eq (fun p => decide (0 < p.completionTime)) s.procs i
        { s.procs.getD i default with
          remainingTime := (s.procs.getD i default).remainingTime - 1 } hlen rfl]
      exact h2
    · intro i' hi'
      replace hi' : s.running = some i' := hi'
      have hii : i = i' := Option.some.inj (hr.symm.trans hi')
      subst hii
      show ((s.procs.set i _).getD i default).completionTime = 0
      rw [getD_set_self _ _ _ hlen]
      exact h3 i hr
    · intro j hj
      replace hj : j ∈ s.queue := hj
      have hne : i ≠ j := fun he => hnotq (he ▸ hj)
      show ((s.procs.set i _).getD j default).completionTime = 0
      rw [getD_set_ne _ _ _ _ hne]
      exact h4 j hj
    · intro hn
      replace hn : s.completed = n := hn
      obtain ⟨p, hp, hpc⟩ := h5 hn
      rcases mem_set_or s.procs i { s.procs.getD i default with
          remainingTime := (s.procs.getD i default).remainingTime - 1 } hp with hin | heq
      · refine ⟨p, hin, ?_⟩
        show p.completionTime = ((s.t + 1 : Nat) : Int) - 1
        rw [hcast]
        exact hpc
      · refine ⟨_, mem_set_self _ _ _ hlen, ?_⟩
        show (s.procs.getD i default).completionTime = ((s.t + 1 : Nat) : Int) - 1
        rw [hcast, ← heq]
        exact hpc
  | none =>
    cases hqe : s.queue with
    | nil =>
      rw [rrDE_idle hr hqe]
      refine ⟨?_, h2, ?_, ?_, ?_⟩
      · intro p hp
        replace hp : p ∈ s.procs := hp
        rcases h1 p hp with h0 | ⟨ha, hb⟩
        · exact Or.inl h0
        · refine Or.inr ⟨ha, ?_⟩
          show p.completionTime < ((s.t + 1 : Nat) : Int)
          push_cast
          omega
      · intro i' hi'
        replace hi' : s.running = some i' := hi'
        rw [hr] at hi'
        cases hi'
      · intro j hj
        replace hj : j ∈ s.queue := hj
        exact h4 j hj
      · intro hn
        replace hn : s.completed = n := hn
        obtain ⟨p, hp, hpc⟩ := h5 hn
        refine ⟨p, hp, ?_⟩
        show p.completionTime = ((s.t + 1 : Nat) : Int) - 1
        rw [hcast]
        exact hpc
    | cons i rest =>
      rw [rrDE_dispatch hr hqe]
      have hmemi : i ∈ s.queue := by
        rw [hqe]
        exact List.mem_cons_self _ _
      obtain ⟨hleni, harrile, hremi⟩ := hqC i hmemi
      have hndc : i ∉ rest ∧ rest.Nodup := by
        rw [hqe] at hnd
        exact List.nodup_cons.1 hnd
      refine ⟨?_, ?_, ?_, ?_, ?_⟩
      · intro p hp
        replace hp : p ∈ s.procs.set i _ := hp
        rcases List.mem_or_eq_of_mem_set hp with hp' | rfl
        · rcases h1 p hp' with h0 | ⟨ha, hb⟩
          · exact Or.inl h0
          · refine Or.inr ⟨ha, ?_⟩
            show p.completionTime < ((s.t + 1 : Nat) : Int)
            push_cast
            omega
        · rcases h1 _ (getD_mem _ _ hleni) with h0 | ⟨ha, hb⟩
          · exact Or.inl h0
          · refine Or.inr ⟨ha, ?_⟩
            show (s.procs.getD i default).completionTime < ((s.t + 1 : Nat) : Int)
            push_cast
            omega
      · show s.completed = (s.procs.set i { s.procs.getD i default with
            remainingTime := (s.procs.getD i default).remainingTime - 1 }).countP
            (fun p => decide (0 < p.completionTime))
        rw [countP_set_eq (fun p => decide (0 < p.completionTime)) s.procs i
          { s.procs.getD i default with
            remainingTime := (s.procs.getD i default).remainingTime - 1 } hleni rfl]
        exact h2
      · intro i' hi'
        replace hi' : some i = some i' := hi'
        have hii : i = i' := Option.some.inj hi'
        subst hii
        show ((s.procs.set i _).getD i default).completionTime = 0
        rw [getD_set_self _ _ _ hleni]
        exact h4 i hmemi
      · intro j hj
        replace hj : j ∈ rest := hj
        have hjq : j ∈ s.queue := by
          rw [hqe]
          exact List.mem_cons_of_mem _ hj
        have hne : i ≠ j := fun he => hndc.1 (he ▸ hj)
        show ((s.procs.set i _).getD j default).completionTime = 0
        rw [getD_set_ne _ _ _ _ hne]
        exact h4 j hjq
      · intro hn
        replace hn : s.completed = n := hn
        obtain ⟨p, hp, hpc⟩ := h5 hn
        rcases mem_set_or s.procs i { s.procs.getD i default with
            remainingTime := (s.procs.getD i default).remainingTime - 1 } hp with hin | heq
        · refine ⟨p, hin, ?_⟩
          show p.completionTime = ((s.t + 1 : Nat) : Int) - 1
          rw [hcast]
          exact hpc
        · refine ⟨_, mem_set_self _ _ _ hleni, ?_⟩
          show (s.procs.getD i default).completionTime = ((s.t + 1 : Nat) : Int) - 1
          rw [hcast, ← heq]
          exact hpc

lemma rrArrive_c8 (n : Nat) (s : RrState)
    (hbpos : ∀ p ∈ s.procs, 0 < p.burstTime) (h : RrC8Mid n s) :
    RrC8Mid n (rrArrive s) := by
  unfold rrArrive
  exact rrArriveGen_c8 n s (fun ip => ip.2.arrivalTime == s.t)
    (fun ip hip => by simpa using hip) hbpos h

lemma rrArrive2_c8 (n : Nat) (s : RrState)
    (hbpos : ∀ p ∈ s.procs, 0 < p.burstTime) (h : RrC8Mid n s) :
    RrC8Mid n (rrArrive2 s) := by
  unfold rrArrive2
  refine rrArriveGen_c8 n s
    (fun ip => ip.2.arrivalTime == s.t && decide (0 < ip.2.remainingTime)) ?_ hbpos h
  intro ip hip
  simp only [Bool.and_eq_true, beq_iff_eq, decide_eq_true_eq] at hip
  exact hip.1

lemma rrStep_c8 (quantum n : Nat) (s : RrState) (hinv : RrInv s)
    (hC : RrC8 n s) (hc : s.completed < n) : RrC8 n (rrStep quantum s) := by
  rw [rrStep_eq]
  obtain ⟨hinvR, hrunR⟩ := rrRetire_inv quantum s hinv
  have hmidA := rrArrive_inv _ hinvR
  have hc8 := rrArrive_c8 n (rrRetire quantum s) (fun p hp => (hinvR.2.1 p hp).1)
    (rrRetire_c8 quantum n s hinv (rrC8_weaken n s hC hc))
  exact rrDE_c8 n _ hmidA hc8

lemma rrStep2_c8 (quantum n : Nat) (s : RrState) (hinv : RrInv s)
    (hC : RrC8 n s) (hc : s.completed < n) : RrC8 n (rrStep2 quantum s) := by
  rw [rrStep2_eq]
  have hmidA := rrArrive2_inv s hinv
  have hc8a := rrArrive2_c8 n s (fun p hp => (hinv.2.1 p hp).1)
    (rrC8_weaken n s hC hc)
  obtain ⟨hmidR, hrunR⟩ := rrRetire2_inv quantum (rrArrive2 s) hmidA
  have hc8r := rrRetire2_c8 quantum n (rrArrive2 s) hmidA hc8a
  exact rrDE_c8 n _ hmidR hc8r

lemma rrLoop_c8 (quantum n : Nat) :
    ∀ (fuel : Nat) (s res : RrState), RrInv s → RrC8 n s →
      rrLoop quantum n fuel s = some res → RrC8 n res := by
  intro fuel
  induction fuel with
  | zero =>
    intro s res _ _ hc
    exact Option.noConfusion hc
  | succ f ih =>
    intro s res hinv hC hc
    rw [rrLoop] at hc
    by_cases h1 : s.completed < n
    · rw [if_pos h1] at hc
      simp only [] at hc
      by_cases h2 : 20000 < (rrStep quantum s).t
      · rw [if_pos h2] at hc
        cases hc
        exact rrStep_c8 quantum n s hinv hC h1
      · rw [if_neg h2] at hc
        exact ih _ _ (rrStep_inv quantum s hinv) (rrStep_c8 quantum n s hinv hC h1) hc
    · rw [if_neg h1] at hc
      cases hc
      exact hC

lemma rrLoop2_c8 (quantum n : Nat) :
    ∀ (fuel : Nat) (s res : RrState), RrInv s → RrC8 n s →
      rrLoop2 quantum n fuel s = some res → RrC8 n res := by
  intro fuel
  induction fuel with
  | zero =>
    intro s res _ _ hc
    exact Option.noConfusion hc
  | succ f ih =>
    intro s res hinv hC hc
    rw [rrLoop2] at hc
    by_cases h1 : s.completed < n
    · rw [if_pos h1] at hc
      simp only [] at hc
      by_cases h2 : 10000 < (rrStep2 quantum s).t
      · rw [if_pos h2] at hc
        cases hc
        exact rrStep2_c8 quantum n s hinv hC h1
      · rw [if_neg h2] at hc
        exact ih _ _ (rrStep2_inv quantum s hinv) (rrStep2_c8 quantum n s hinv hC h1) hc
    · rw [if_neg h1] at hc
      cases hc
      exact hC

lemma rrRetire_length (quantum : Nat) (s : RrState) :
    (rrRetire quantum s).procs.length = s.procs.length := by
  cases hr : s.running with
  | none => rw [rrRetire_none hr]
  | some i =>
    by_cases h0 : (s.procs.getD i default).remainingTime = 0
    · rw [rrRetire_commit hr h0]
      simp [List.length_set]
    · by_cases hqc : s.qc = quantum
      · rw [rrRetire_expire hr h0 hqc]
      · rw [rrRetire_keep hr h0 hqc]

lemma rrRetire2_length (quantum : Nat) (s : RrState) :
    (rrRetire2 quantum s).procs.length = s.procs.length := by
  cases hr : s.running with
  | none => rw [rrRetire2_none hr]
  | some i =>
    by_cases h0 : (s.procs.getD i default).remainingTime = 0
    · rw [rrRetire2_commit hr h0]
      simp [List.length_set]
    · by_cases hqc : s.qc = quantum
      · rw [rrRetire2_expire hr h0 hqc]
      · rw [rrRetire2_keep hr h0 hqc]

lemma rrDE_length (s : RrState) :
    (rrDispatchExec s).procs.length = s.procs.length := by
  cases hr : s.running with
  | some i =>
    rw [rrDE_run hr]
    simp [List.length_set]
  | none =>
    cases hqe : s.queue with
    | nil => rw [rrDE_idle hr hqe]
    | cons i rest =>
      rw [rrDE_dispatch hr hqe]
      simp [List.length_set]

lemma rrStep_length (quantum : Nat) (s : RrState) :
    (rrStep quantum s).procs.length = s.procs.length := by
  rw [rrStep_eq, rrDE_length]
  exact rrRetire_length quantum s

lemma rrStep2_length (quantum : Nat) (s : RrState) :
    (rrStep2 quantum s).procs.length = s.procs.length := by
  rw [rrStep2_eq, rrDE_length]
  exact rrRetire2_length quantum (rrArrive2 s)

lemma rrLoop_length (quantum n : Nat) :
    ∀ (fuel : Nat) (s res : RrState),
      rrLoop quantum n fuel s = some res → res.procs.length = s.procs.length := by
  intro fuel
  induction fuel with
  | zero =>
    intro s res hc
    exact Option.noConfusion hc
  | succ f ih =>
    intro s res hc
    rw [rrLoop] at hc
    by_cases h1 : s.completed < n
    · rw [if_pos h1] at hc
      simp only [] at hc
      by_cases h2 : 20000 < (rrStep quantum s).t
      · rw [if_pos h2] at hc
        cases hc
        exact rrStep_length quantum s
      · rw [if_neg h2] at hc
        rw [ih _ _ hc]
        exact rrStep_length quantum s
    · rw [if_neg h1] at hc
      cases hc
      rfl

lemma rrLoop2_length (quantum n : Nat) :
    ∀ (fuel : Nat) (s res : RrState),
      rrLoop2 quantum n fuel s = some res → res.procs.length = s.procs.length := by
  intro fuel
  induction fuel with
  | zero =>
    intro s res hc
    exact Option.noConfusion hc
  | succ f ih =>
    intro s res hc
    rw [rrLoop2] at hc
    by_cases h1 : s.completed < n
    · rw [if_pos h1] at hc
      simp only [] at hc
      by_cases h2 : 10000 < (rrStep2 quantum s).t
      · rw [if_pos h2] at hc
        cases hc
        exact rrStep2_length quantum s
      · rw [if_neg h2] at hc
        rw [ih _ _ hc]
        exact rrStep2_length quantum s
    · rw [if_neg h1] at hc
      cases hc
      rfl

lemma rrInit_c8 (procs : List Process) (h : ValidInput procs) (hne : procs ≠ []) :
    RrC8 procs.length (rrInit procs) := by
  refine ⟨?_, ?_, ?_, ?_, ?_⟩
  · intro p hp
    exact Or.inl (h.2 p hp).2.2.2.1
  · show 0 = _
    symm
    rw [List.countP_eq_zero]
    intro p hp
    simp [(h.2 p hp).2.2.2.1]
  · intro i hi
    exact Option.noConfusion hi
  · intro j hj
    exact absurd hj (List.not_mem_nil j)
  · intro hn
    exfalso
    replace hn : 0 = procs.length := hn
    have : procs.length ≠ 0 := fun h0 => hne (List.eq_nil_of_length_eq_zero h0)
    omega

lemma runRR_total (procs : List Process) (h : ValidInput procs)
    (hne : procs ≠ []) :
    ∀ quantum res, runRoundRobin procs quantum = some res →
      (∀ p ∈ res.processes, 0 < p.completionTime) →
      (∃ p ∈ res.processes, p.completionTime = (res.totalTime : Int) - 1) ∧
      (∀ p ∈ res.processes, p.completionTime ≤ (res.totalTime : Int) - 1) := by
  intro quantum res hres hall
  unfold runRoundRobin at hres
  rw [if_neg hne] at hres
  rcases Option.map_eq_some'.1 hres with ⟨s, hs, rfl⟩
  have hC := rrLoop_c8 quantum procs.length 20002 _ s (rrInit_inv procs h)
    (rrInit_c8 procs h hne) hs
  have hlen : s.procs.length = procs.length := rrLoop_length quantum procs.length 20002 _ s hs
  obtain ⟨c1, c2, c3, c4, c5⟩ := hC
  have hcount : s.procs.countP (fun p => decide (0 < p.completionTime)) = s.procs.length := by
    rw [List.countP_eq_length]
    intro p hp
    simpa using hall p hp
  have hn : s.completed = procs.length := by
    rw [c2, hcount, hlen]
  obtain ⟨p, hp, hpc⟩ := c5 hn
  constructor
  · exact ⟨p, hp, hpc⟩
  · intro p' hp'
    rcases c1 p' hp' with h0 | ⟨_, hb⟩
    · exact absurd (h0 ▸ hall p' hp') (lt_irrefl 0)
    · show p'.completionTime ≤ (s.t : Int) - 1
      omega

lemma runRR2_total (procs : List Process) (h : ValidInput procs)
    (hne : procs ≠ []) :
    ∀ quantum res, runRoundRobin2 procs quantum = some res →
      (∀ p ∈ res.processes, 0 < p.completionTime) →
      (∃ p ∈ res.processes, p.completionTime = (res.totalTime : Int)) ∧
      (∀ p ∈ res.processes, p.completionTime ≤ (res.totalTime : Int)) := by
  intro quantum res hres hall
  unfold runRoundRobin2 at hres
  rw [if_neg hne] at hres
  rcases Option.map_eq_some'.1 hres with ⟨s, hs, rfl⟩
  have hC := rrLoop2_c8 quantum procs.length 10002 _ s (rrInit_inv procs h)
    (rrInit_c8 procs h hne) hs
  have hlen : s.procs.length = procs.length := rrLoop2_length quantum procs.length 10002 _ s hs
  obtain ⟨c1, c2, c3, c4, c5⟩ := hC
  have hcount : s.procs.countP (fun p => decide (0 < p.completionTime)) = s.procs.length := by
    rw [List.countP_eq_length]
    intro p hp
    simpa using hall p hp
  have hn : s.completed = procs.length := by
    rw [c2, hcount, hlen]
  obtain ⟨p, hp, hpc⟩ := c5 hn
  have hppos := hall p hp
  have ht1 : 1 ≤ s.t := by omega
  have hcast : ((s.t - 1 : Nat) : Int) = (s.t : Int) - 1 := by
    omega
  constructor
  · refine ⟨p, hp, ?_⟩
    show p.completionTime = ((s.t - 1 : Nat) : Int)
    rw [hcast]
    exact hpc
  · intro p' hp'
    rcases c1 p' hp' with h0 | ⟨_, hb⟩
    · exact absurd (h0 ▸ hall p' hp') (lt_irrefl 0)
    · show p'.completionTime ≤ ((s.t - 1 : Nat) : Int)
      rw [hcast]
      omega

lemma runFCFS_total (procs : List Process) (hne : procs ≠ []) :
    (∃ p ∈ (runFCFS procs).processes,
      p.completionTime = ((runFCFS procs).totalTime : Int)) ∧
    (∀ p ∈ (runFCFS procs).processes,
      p.completionTime ≤ ((runFCFS procs).totalTime : Int)) := by
  unfold runFCFS
  rw [if_neg hne]
  have hsne : sortLt fcfsLt procs ≠ [] := by
    cases procs with
    | nil => exact absurd rfl hne
    | cons q rest =>
      intro hcon
      have hm : q ∈ sortLt fcfsLt (q :: rest) := mem_sortLt.2 (List.mem_cons_self _ _)
      rw [hcon] at hm
      exact List.not_mem_nil q hm
  have H := fcfsFold_total (sortLt fcfsLt procs) 0 [] []
    (fun p hp => absurd hp (List.not_mem_nil p))
  exact ⟨H.2 (Or.inl hsne), H.1⟩

lemma runSJF_total (procs : List Process) (h : ValidInput procs) (hne : procs ≠ []) :
    ∀ res, runSJF procs = some res →
      (∃ p ∈ res.processes, p.completionTime = (res.totalTime : Int)) ∧
      (∀ p ∈ res.processes, p.completionTime ≤ (res.totalTime : Int)) := by
  intro res hres
  unfold runSJF at hres
  rw [if_neg hne] at hres
  simp only [] at hres
  rcases Option.map_eq_some'.1 hres with ⟨s, hs, rfl⟩
  have hinv := iterWhile_invariant _ sjfStep
    (fun st => st.completed ≤ procs.length ∧
      (∀ p ∈ st.procs, p.completionTime ≤ (st.t : Int)) ∧
      (st.completed = procs.length → ∃ p ∈ st.procs, p.completionTime = (st.t : Int)))
    (fun st hI hcond => sjfStep_total procs.length st (by simpa using hcond) hI)
    _ _ _ ?_ hs
  · obtain ⟨⟨h1, h2, h3⟩, hcond⟩ := hinv
    have hge : ¬ s.completed < procs.length := by simpa using hcond
    have heq : s.completed = procs.length := by omega
    exact ⟨h3 heq, h2⟩
  · refine ⟨Nat.zero_le _, ?_, ?_⟩
    · intro p hp
      rw [(h.2 p hp).2.2.2.1]
      simp
    · intro h0
      exact absurd h0.symm
        (fun hh => absurd (List.eq_nil_of_length_eq_zero hh) hne)

lemma runSRTF_total (procs : List Process) (h : ValidInput procs) (hne : procs ≠ []) :
    ∀ res, runSRTF procs = some res →
      (∃ p ∈ res.processes, p.completionTime = (res.totalTime : Int)) ∧
      (∀ p ∈ res.processes, p.completionTime ≤ (res.totalTime : Int)) := by
  intro res hres
  unfold runSRTF at hres
  rw [if_neg hne] at hres
  simp only [] at hres
  rcases Option.map_eq_some'.1 hres with ⟨s, hs, rfl⟩
  have hinv := iterWhile_invariant _ srtfStep
    (fun st => (∀ p ∈ st.procs, p.completionTime ≤ (st.t : Int)) ∧
      (st.completed = procs.length → ∃ p ∈ st.procs, p.completionTime = (st.t : Int)))
    (fun st hI hcond => srtfStep_total procs.length st (by simpa using hcond) hI)
    _ _ _ ?_ hs
  · obtain ⟨⟨h2, h3⟩, hcond⟩ := hinv
    have heq : s.completed = procs.length := by simpa using hcond
    exact ⟨h3 heq, h2⟩
  · refine ⟨?_, ?_⟩
    · intro p hp
      rw [(h.2 p hp).2.2.2.1]
      simp
    · intro h0
      exact absurd h0.symm
        (fun hh => absurd (List.eq_nil_of_length_eq_zero hh) hne)

lemma runPNP_total (procs : List Process) (h : ValidInput procs) (hne : procs ≠ []) :
    ∀ res, runPriorityNonPreemptive procs = some res →
      (∃ p ∈ res.processes, p.completionTime = (res.totalTime : Int)) ∧
      (∀ p ∈ res.processes, p.completionTime ≤ (res.totalTime : Int)) := by
  intro res hres
  unfold runPriorityNonPreemptive at hres
  rw [if_neg hne] at hres
  simp only [] at hres
  rcases Option.map_eq_some'.1 hres with ⟨s, hs, rfl⟩
  have hinv := iterWhile_invariant _ pnpStep
    (fun st => st.completed ≤ procs.length ∧
      (∀ p ∈ st.procs, p.completionTime ≤ (st.t : Int)) ∧
      (st.completed = procs.length → ∃ p ∈ st.procs, p.completionTime = (st.t : Int)))
    (fun st hI hcond => pnpStep_total procs.length st (by simpa using hcond) hI)
    _ _ _ ?_ hs
  · obtain ⟨⟨h1, h2, h3⟩, hcond⟩ := hinv
    have hge : ¬ s.completed < procs.length := by simpa using hcond
    have heq : s.completed = procs.length := by omega
    exact ⟨h3 heq, h2⟩
  · refine ⟨Nat.zero_le _, ?_, ?_⟩
    · intro p hp
      rw [(h.2 p hp).2.2.2.1]
      simp
    · intro h0
      exact absurd h0.symm
        (fun hh => absurd (List.eq_nil_of_length_eq_zero hh) hne)


lemma runPP_total (procs : List Process) (h : ValidInput procs) (hne : procs ≠ []) :
    ∀ res, runPriorityPreemptive procs = some res →
      (∃ p ∈ res.processes, p.completionTime = (res.totalTime : Int)) ∧
      (∀ p ∈ res.processes, p.completionTime ≤ (res.totalTime : Int)) := by
  intro res hres
  unfold runPriorityPreemptive at hres
  rw [if_neg hne] at hres
  simp only [] at hres
  rcases Option.map_eq_some'.1 hres with ⟨s, hs, rfl⟩
  have hinv := iterWhile_invariant _ ppStep
    (fun st => (∀ p ∈ st.procs, p.completionTime ≤ (st.t : Int)) ∧
      (st.completed = procs.length → ∃ p ∈ st.procs, p.completionTime = (st.t : Int)))
    (fun st hI hcond => ppStep_total procs.length st (by simpa using hcond) hI)
    _ _ _ ?_ hs
  · obtain ⟨⟨h2, h3⟩, hcond⟩ := hinv
    have heq : s.completed = procs.length := by simpa using hcond
    exact ⟨h3 heq, h2⟩
  · refine ⟨?_, ?_⟩
    · intro p hp
      rw [(h.2 p hp).2.2.2.1]
      simp
    · intro h0
      exact absurd h0.symm
        (fun hh => absurd (List.eq_nil_of_length_eq_zero hh) hne)

/-- C8 (amended): for every non-empty valid input, `totalTime` is the maximum
completion time over all processes for the FCFS, SJF, SRTF and both Priority
batch engines and for the second-variant Round Robin engine (whenever every
process was completed), while the FIRST-variant Round Robin engine returns
`totalTime` = maximum completion time PLUS ONE (the loop performs a final
retire-and-advance iteration after the last completion); for an empty input
list every engine returns `totalTime = 0`. -/
theorem c8_amended (procs : List Process) (h : ValidInput procs)
    (hne : procs ≠ []) :
    ((∃ p ∈ (runFCFS procs).processes,
        p.completionTime = ((runFCFS procs).totalTime : Int)) ∧
      (∀ p ∈ (runFCFS procs).processes,
        p.completionTime ≤ ((runFCFS procs).totalTime : Int))) ∧
    (∀ res, runSJF procs = some res →
      (∃ p ∈ res.processes, p.completionTime = (res.totalTime : Int)) ∧
      (∀ p ∈ res.processes, p.completionTime ≤ (res.totalTime : Int))) ∧
    (∀ res, runPriorityNonPreemptive procs = some res →
      (∃ p ∈ res.processes, p.completionTime = (res.totalTime : Int)) ∧
      (∀ p ∈ res.processes, p.completionTime ≤ (res.totalTime : Int))) ∧
    (∀ res, runSRTF procs = some res →
      (∃ p ∈ res.processes, p.completionTime = (res.totalTime : Int)) ∧
      (∀ p ∈ res.processes, p.completionTime ≤ (res.totalTime : Int))) ∧
    (∀ res, runPriorityPreemptive procs = some res →
      (∃ p ∈ res.processes, p.completionTime = (res.totalTime : Int)) ∧
      (∀ p ∈ res.processes, p.completionTime ≤ (res.totalTime : Int))) ∧
    (∀ quantum res, runRoundRobin procs quantum = some res →
      (∀ p ∈ res.processes, 0 < p.completionTime) →
      (∃ p ∈ res.processes, p.completionTime = (res.totalTime : Int) - 1) ∧
      (∀ p ∈ res.processes, p.completionTime ≤ (res.totalTime : Int) - 1)) ∧
    (∀ quantum res, runRoundRobin2 procs quantum = some res →
      (∀ p ∈ res.processes, 0 < p.completionTime) →
      (∃ p ∈ res.processes, p.completionTime = (res.totalTime : Int)) ∧
      (∀ p ∈ res.processes, p.completionTime ≤ (res.totalTime : Int))) ∧
    (runFCFS ([] : List Process)).totalTime = 0 ∧
    (∀ res, runSJF [] = some res → res.totalTime = 0) ∧
    (∀ res, runPriorityNonPreemptive [] = some res → res.totalTime = 0) ∧
    (∀ res, runSRTF [] = some res → res.totalTime = 0) ∧
    (∀ res, runPriorityPreemptive [] = some res → res.totalTime = 0) ∧
    (∀ quantum res, runRoundRobin [] quantum = some res → res.totalTime = 0) ∧
    (∀ quantum res, runRoundRobin2 [] quantum = some res → res.totalTime = 0) := by
  refine ⟨runFCFS_total procs hne, runSJF_total procs h hne,
    runPNP_total procs h hne, runSRTF_total procs h hne,
    runPP_total procs h hne, runRR_total procs h hne, runRR2_total procs h hne,
    rfl, ?_, ?_, ?_, ?_, ?_, ?_⟩
  · intro res hres
    cases hres
    rfl
  · intro res hres
    cases hres
    rfl
  · intro res hres
    cases hres
    rfl
  · intro res hres
    cases hres
    rfl
  · intro quantum res hres
    cases hres
    rfl
  · intro quantum res hres
    cases hres
    rfl

theorem c8_amended_witness :
    ValidInput exRR ∧ exRR ≠ [] ∧
    ((∃ p ∈ (runFCFS exRR).processes,
        p.completionTime = ((runFCFS exRR).totalTime : Int)) ∧
      (∀ p ∈ (runFCFS exRR).processes,
        p.completionTime ≤ ((runFCFS exRR).totalTime : Int))) :=
  ⟨by decide, by decide, (c8_amended exRR (by decide) (by decide)).1⟩

lemma set_getD_self : ∀ (l : List Process) (i : Nat),
    l.set i (l.getD i default) = l := by
  intro l
  induction l with
  | nil => intro i; cases i <;> rfl
  | cons x xs ih =>
    intro i
    cases i with
    | zero => rfl
    | succ i =>
      show x :: xs.set i (xs.getD i default) = x :: xs
      rw [ih]

lemma reduce1_eq_none {f : α → α → α} {l : List α} :
    reduce1 f l = none ↔ l = [] := by
  cases l with
  | nil => simp [reduce1]
  | cons x xs => simp [reduce1]

lemma arrival_le_maxArrival (procs : List Process) :
    ∀ p ∈ procs, p.arrivalTime ≤ maxArrival procs := by
  unfold maxArrival
  induction procs with
  | nil => intro p hp; cases hp
  | cons q rest ih =>
    intro p hp
    rcases List.mem_cons.1 hp with rfl | hp'
    · simp only [List.map_cons, List.foldr_cons]
      exact Nat.le_max_left _ _
    · simp only [List.map_cons, List.foldr_cons]
      exact (ih p hp').trans (Nat.le_max_right _ _)

lemma countP_lt_exists (P : Process → Bool) (l : List Process)
    (h : l.countP P < l.length) : ∃ p ∈ l, ¬ P p = true := by
  by_contra hc
  push_neg at hc
  have : l.countP P = l.length := List.countP_eq_length.2 (fun a ha => hc a ha)
  omega

lemma sum_map_set (f : Process → Nat) :
    ∀ (l : List Process) (i : Nat) (a : Process), i < l.length →
      ((l.set i a).map f).sum + f (l.getD i default) = (l.map f).sum + f a := by
  intro l
  induction l with
  | nil =>
    intro i a h
    exact absurd h (by simp)
  | cons x xs ih =>
    intro i a h
    cases i with
    | zero =>
      simp only [List.set, List.map_cons, List.sum_cons, List.getD_cons_zero]
      omega
    | succ i =>
      have hlt : i < xs.length := by simpa using h
      have := ih i a hlt
      simp only [List.set, List.map_cons, List.sum_cons, List.getD_cons_succ]
      omega

lemma simNpBurst_spec :
    ∀ (k : Nat) (procs : List Process) (i t : Nat) (msg : String)
      (evs : List TickEvent), i < procs.length →
      (simNpBurst k procs i t msg evs).1 =
        procs.set i { procs.getD i default with
          remainingTime := (procs.getD i default).remainingTime - k } ∧
      (simNpBurst k procs i t msg evs).2.1 = t + k := by
  intro k
  induction k with
  | zero =>
    intro procs i t msg evs h
    exact ⟨(set_getD_self procs i).symm, rfl⟩
  | succ k ih =>
    intro procs i t msg evs h
    simp only [simNpBurst]
    have hlen1 : i < (procs.set i { procs.getD i default with
        remainingTime := (procs.getD i default).remainingTime - 1 }).length := by
      simpa [List.length_set] using h
    obtain ⟨h1, h2⟩ := ih (procs.set i { procs.getD i default with
        remainingTime := (procs.getD i default).remainingTime - 1 }) i (t + 1) "" _ hlen1
    refine ⟨?_, by rw [h2]; omega⟩
    rw [h1, getD_set_self _ _ _ h, List.set_set]
    have : (procs.getD i default).remainingTime - 1 - k =
        (procs.getD i default).remainingTime - (k + 1) := by omega
    rw [this]

lemma simNpStep_term (cmp : Nat × Process → Nat × Process → Nat × Process)
    (hcmp : ∀ a b, cmp a b = a ∨ cmp a b = b) (selMsg : String)
    (n A : Nat) (st : SimNPState) (hc : st.completed < n)
    (h : st.procs.length = n ∧ (∀ p ∈ st.procs, p.arrivalTime ≤ A) ∧
      st.completed = st.procs.countP (fun p => p.state == ProcState.completed)) :
    ((simNpStep cmp selMsg st).procs.length = n ∧
      (∀ p ∈ (simNpStep cmp selMsg st).procs, p.arrivalTime ≤ A) ∧
      (simNpStep cmp selMsg st).completed =
        (simNpStep cmp selMsg st).procs.countP
          (fun p => p.state == ProcState.completed)) ∧
    (n - (simNpStep cmp selMsg st).completed) * (A + 1) +
        (A - (simNpStep cmp selMsg st).t) <
      (n - st.completed) * (A + 1) + (A - st.t) := by
  obtain ⟨hlen, hA, hcnt⟩ := h
  unfold simNpStep
  simp only []
  cases hm : reduce1 cmp (st.procs.enum.filter fun ip =>
      decide (ip.2.arrivalTime ≤ st.t) && !(ip.2.state == ProcState.completed)) with
  | none =>
    have hready : (st.procs.enum.filter fun ip =>
        decide (ip.2.arrivalTime ≤ st.t) && !(ip.2.state == ProcState.completed)) = [] :=
      reduce1_eq_none.1 hm
    have htA : st.t < A := by
      by_contra hge
      push_neg at hge
      obtain ⟨p, hp, hP⟩ := countP_lt_exists _ st.procs
        (by rw [← hcnt, hlen]; exact hc)
      rcases List.mem_iff_get.1 hp with ⟨⟨j, hj⟩, hpj⟩
      have hpair : (j, p) ∈ st.procs.enum := by
        rw [List.mem_enum_iff_get?]
        rw [List.get?_eq_get hj, hpj]
      have hfil : (j, p) ∈ st.procs.enum.filter fun ip =>
          decide (ip.2.arrivalTime ≤ st.t) && !(ip.2.state == ProcState.completed) := by
        rw [List.mem_filter]
        refine ⟨hpair, ?_⟩
        simp only [Bool.and_eq_true, decide_eq_true_eq, Bool.not_eq_true']
        exact ⟨(hA p hp).trans hge, by simpa using hP⟩
      rw [hready] at hfil
      exact List.not_mem_nil _ hfil
    refine ⟨⟨hlen, hA, hcnt⟩, ?_⟩
    show (n - st.completed) * (A + 1) + (A - (st.t + 1)) <
      (n - st.completed) * (A + 1) + (A - st.t)
    omega
  | some ip =>
    obtain ⟨i, q⟩ := ip
    have hmem := reduce1_mem hcmp hm
    obtain ⟨hqe, hqf⟩ := List.mem_filter.1 hmem
    have hget : st.procs.get? i = some q := mem_enum_get hqe
    have hilen : i < st.procs.length := (List.get?_eq_some.1 hget).1
    have hgd : st.procs.getD i default = q := by
      simp only [List.getD, ← List.get?_eq_getElem?, hget, Option.getD_some]
    have hqmem : q ∈ st.procs := List.get?_mem hget
    obtain ⟨hb1, hb2⟩ := simNpBurst_spec q.burstTime st.procs i st.t
      ((if (st.procs.filter fun p => p.arrivalTime == st.t).isEmpty then ""
        else arrivesMsg (st.procs.filter fun p => p.arrivalTime == st.t)) ++
        "CPU selects " ++ q.name ++ selMsg) st.events hilen
    rw [hgd] at hb1
    simp only []
    rw [hb1, hb2]
    rw [getD_set_self _ _ _ hilen, List.set_set]
    have hstate : (q.state == ProcState.completed) = false := by
      simp only [Bool.and_eq_true, Bool.not_eq_true'] at hqf
      exact hqf.2
    refine ⟨⟨?_, ?_, ?_⟩, ?_⟩
    · show (st.procs.set i _).length = n
      simpa [List.length_set] using hlen
    · intro p hp
      replace hp : p ∈ st.procs.set i _ := hp
      rcases List.mem_or_eq_of_mem_set hp with hp' | rfl
      · exact hA p hp'
      · show q.arrivalTime ≤ A
        exact hA q hqmem
    · show st.completed + 1 = (st.procs.set i
          { id := q.id, name := q.name, arrivalTime := q.arrivalTime,
            burstTime := q.burstTime, priority := q.priority,
            remainingTime := q.remainingTime - q.burstTime, color := q.color,
            completionTime := ((st.t + q.burstTime : Nat) : Int),
            turnaroundTime := ((st.t + q.burstTime : Nat) : Int) - (q.arrivalTime : Int),
            waitingTime := ((st.t + q.burstTime : Nat) : Int) - (q.arrivalTime : Int) -
              (q.burstTime : Int),
            state := ProcState.completed }).countP
          (fun p => p.state == ProcState.completed)
      have hcs := countP_set (fun p => p.state == ProcState.completed) st.procs i
        { id := q.id, name := q.name, arrivalTime := q.arrivalTime,
          burstTime := q.burstTime, priority := q.priority,
          remainingTime := q.remainingTime - q.burstTime, color := q.color,
          completionTime := ((st.t + q.burstTime : Nat) : Int),
          turnaroundTime := ((st.t + q.burstTime : Nat) : Int) - (q.arrivalTime : Int),
          waitingTime := ((st.t + q.burstTime : Nat) : Int) - (q.arrivalTime : Int) -
            (q.burstTime : Int),
          state := ProcState.completed } hilen
      rw [hgd] at hcs
      replace hcs : (st.procs.set i _).countP
            (fun p => p.state == ProcState.completed) +
            (if (q.state == ProcState.completed) = true then 1 else 0) =
          st.procs.countP (fun p => p.state == ProcState.completed) +
            (if (ProcState.completed == ProcState.completed) = true then 1 else 0) := hcs
      rw [hstate] at hcs
      simp only [if_neg (by simp : ¬ (false = true)),
        if_pos (by decide : (ProcState.completed == ProcState.completed) = true)] at hcs
      omega
    · show (n - (st.completed + 1)) * (A + 1) + (A - (st.t + q.burstTime)) <
        (n - st.completed) * (A + 1) + (A - st.t)
      have h3 : n - (st.completed + 1) + 1 = n - st.completed := by omega
      have hmul : (n - st.completed) * (A + 1) =
          (n - (st.completed + 1)) * (A + 1) + (A + 1) := by
        conv_lhs => rw [← h3]
        rw [Nat.succ_mul]
      omega

lemma simulateSJF_terminates (procs : List Process) (h : ValidInput procs)
    (hne : procs ≠ []) :
    ∃ evs, simulateSJF procs = some evs ∧
      ∃ e, evs.getLast? = some e ∧ e.eventMessage = "All processes complete." := by
  unfold simulateSJF
  rw [if_neg hne]
  simp only []
  have hterm := iterWhile_of_measure
    (fun st : SimNPState => decide (st.completed < procs.length))
    (simNpStep sjfCmp " (shortest job).")
    (fun st => st.procs.length = procs.length ∧
      (∀ p ∈ st.procs, p.arrivalTime ≤ maxArrival procs) ∧
      st.completed = st.procs.countP (fun p => p.state == ProcState.completed))
    (fun st => (procs.length - st.completed) * (maxArrival procs + 1) +
      (maxArrival procs - st.t))
    (fun st hI hcond => (simNpStep_term sjfCmp sjfCmp_or _ procs.length
      (maxArrival procs) st (by simpa using hcond) hI).1)
    (fun st hI hcond => (simNpStep_term sjfCmp sjfCmp_or _ procs.length
      (maxArrival procs) st (by simpa using hcond) hI).2)
    (npFuel procs) ⟨procs, 0, 0, []⟩ ?_ ?_
  · obtain ⟨s, hs⟩ := hterm
    refine ⟨s.events ++ [allCompleteEvent s.procs s.t], ?_, ?_⟩
    · rw [hs]
      rfl
    · exact ⟨allCompleteEvent s.procs s.t, List.getLast?_concat _, rfl⟩
  · refine ⟨rfl, arrival_le_maxArrival procs, ?_⟩
    show (0 : Nat) = _
    symm
    rw [List.countP_eq_zero]
    intro p hp
    simp [(h.2 p hp).2.2.1]
  · show procs.length * (maxArrival procs + 1) + (maxArrival procs - 0) <
      npFuel procs
    unfold npFuel
    omega

lemma simulatePNP_terminates (procs : List Process) (h : ValidInput procs)
    (hne : procs ≠ []) :
    ∃ evs, simulatePriorityNonPreemptive procs = some evs ∧
      ∃ e, evs.getLast? = some e ∧ e.eventMessage = "All processes complete." := by
  unfold simulatePriorityNonPreemptive
  rw [if_neg hne]
  simp only []
  have hterm := iterWhile_of_measure
    (fun st : SimNPState => decide (st.completed < procs.length))
    (simNpStep pnpCmp " (highest priority).")
    (fun st => st.procs.length = procs.length ∧
      (∀ p ∈ st.procs, p.arrivalTime ≤ maxArrival procs) ∧
      st.completed = st.procs.countP (fun p => p.state == ProcState.completed))
    (fun st => (procs.length - st.completed) * (maxArrival procs + 1) +
      (maxArrival procs - st.t))
    (fun st hI hcond => (simNpStep_term pnpCmp pnpCmp_or _ procs.length
      (maxArrival procs) st (by simpa using hcond) hI).1)
    (fun st hI hcond => (simNpStep_term pnpCmp pnpCmp_or _ procs.length
      (maxArrival procs) st (by simpa using hcond) hI).2)
    (npFuel procs) ⟨procs, 0, 0, []⟩ ?_ ?_
  · obtain ⟨s, hs⟩ := hterm
    refine ⟨s.events ++ [allCompleteEvent s.procs s.t], ?_, ?_⟩
    · rw [hs]
      rfl
    · exact ⟨allCompleteEvent s.procs s.t, List.getLast?_concat _, rfl⟩
  · refine ⟨rfl, arrival_le_maxArrival procs, ?_⟩
    show (0 : Nat) = _
    symm
    rw [List.countP_eq_zero]
    intro p hp
    simp [(h.2 p hp).2.2.1]
  · show procs.length * (maxArrival procs + 1) + (maxArrival procs - 0) <
      npFuel procs
    unfold npFuel
    omega

lemma srtfCmp_or (a b : Nat × Process) : srtfCmp a b = a ∨ srtfCmp a b = b := by
  unfold srtfCmp
  split
  · exact Or.inl rfl
  · split
    · exact Or.inr rfl
    · split
      · exact Or.inl rfl
      · exact Or.inr rfl

lemma simPreStep_term (cmp : Nat × Process → Nat × Process → Nat × Process)
    (hcmp : ∀ a b, cmp a b = a ∨ cmp a b = b) (phrase : String)
    (n A : Nat) (st : SimPreState) (hc : st.completed < n)
    (h : st.procs.length = n ∧ (∀ p ∈ st.procs, p.arrivalTime ≤ A) ∧
      st.completed = st.procs.countP (fun p => p.state == ProcState.completed) ∧
      (∀ p ∈ st.procs, p.state = ProcState.completed ↔ p.remainingTime = 0)) :
    ((simPreStep cmp phrase st).procs.length = n ∧
      (∀ p ∈ (simPreStep cmp phrase st).procs, p.arrivalTime ≤ A) ∧
      (simPreStep cmp phrase st).completed =
        (simPreStep cmp phrase st).procs.countP
          (fun p => p.state == ProcState.completed) ∧
      (∀ p ∈ (simPreStep cmp phrase st).procs,
        p.state = ProcState.completed ↔ p.remainingTime = 0)) ∧
    (((simPreStep cmp phrase st).procs.map (·.remainingTime)).sum * (A + 1) +
        (A - (simPreStep cmp phrase st).t) <
      ((st.procs.map (·.remainingTime)).sum * (A + 1) + (A - st.t))) := by
  obtain ⟨hlen, hA, hcnt, hiff⟩ := h
  unfold simPreStep
  simp only []
  cases hm : reduce1 cmp (st.procs.enum.filter fun ip =>
      decide (ip.2.arrivalTime ≤ st.t) && decide (0 < ip.2.remainingTime)) with
  | none =>
    have hready : (st.procs.enum.filter fun ip =>
        decide (ip.2.arrivalTime ≤ st.t) && decide (0 < ip.2.remainingTime)) = [] :=
      reduce1_eq_none.1 hm
    have htA : st.t < A := by
      by_contra hge
      push_neg at hge
      obtain ⟨p, hp, hP⟩ := countP_lt_exists _ st.procs
        (by rw [← hcnt, hlen]; exact hc)
      have hrem : 0 < p.remainingTime := by
        rcases Nat.eq_zero_or_pos p.remainingTime with h0 | h0
        · exact absurd (by simpa using (hiff p hp).2 h0) hP
        · exact h0
      rcases List.mem_iff_get.1 hp with ⟨⟨j, hj⟩, hpj⟩
      have hpair : (j, p) ∈ st.procs.enum := by
        rw [List.mem_enum_iff_get?]
        rw [List.get?_eq_get hj, hpj]
      have hfil : (j, p) ∈ st.procs.enum.filter fun ip =>
          decide (ip.2.arrivalTime ≤ st.t) && decide (0 < ip.2.remainingTime) := by
        rw [List.mem_filter]
        refine ⟨hpair, ?_⟩
        simp only [Bool.and_eq_true, decide_eq_true_eq]
        exact ⟨(hA p hp).trans hge, hrem⟩
      rw [hready] at hfil
      exact List.not_mem_nil _ hfil
    refine ⟨⟨hlen, hA, hcnt, hiff⟩, ?_⟩
    show (st.procs.map (fun p => p.remainingTime)).sum * (A + 1) + (A - (st.t + 1)) <
      (st.procs.map (fun p => p.remainingTime)).sum * (A + 1) + (A - st.t)
    omega
  | some ip =>
    obtain ⟨i, q⟩ := ip
    have hmem := reduce1_mem hcmp hm
    obtain ⟨hqe, hqf⟩ := List.mem_filter.1 hmem
    have hget : st.procs.get? i = some q := mem_enum_get hqe
    have hilen : i < st.procs.length := (List.get?_eq_some.1 hget).1
    have hqmem : q ∈ st.procs := List.get?_mem hget
    have hqrem : 0 < q.remainingTime := by
      simp only [Bool.and_eq_true, decide_eq_true_eq] at hqf
      exact hqf.2
    have hqstate : (q.state == ProcState.completed) = false := by
      have := (hiff q hqmem).1
      rcases hst : q.state == ProcState.completed with h0 | h0
      · rfl
      · exfalso
        have hq0 := this (by simpa using hst)
        omega
    have hgd : st.procs.getD i default = q := by
      simp only [List.getD, ← List.get?_eq_getElem?, hget, Option.getD_some]
    simp only []
    by_cases hdone : q.remainingTime - 1 = 0
    all_goals first
    | simp only [if_pos hdone]
    | simp only [if_neg hdone]
    all_goals refine ⟨⟨?_, ?_, ?_, ?_⟩, ?_⟩
    · show (st.procs.set i _).length = n
      simpa [List.length_set] using hlen
    · intro p hp
      replace hp : p ∈ st.procs.set i _ := hp
      rcases List.mem_or_eq_of_mem_set hp with hp' | rfl
      · exact hA p hp'
      · show q.arrivalTime ≤ A
        exact hA q hqmem
    · show st.completed + 1 = _
      have hcs := countP_set (fun p => p.state == ProcState.completed) st.procs i
        { id := q.id, name := q.name, arrivalTime := q.arrivalTime,
          burstTime := q.burstTime, priority := q.priority,
          remainingTime := q.remainingTime - 1, color := q.color,
          completionTime := (st.t : Int) + 1,
          turnaroundTime := (st.t : Int) + 1 - (q.arrivalTime : Int),
          waitingTime := (st.t : Int) + 1 - (q.arrivalTime : Int) - (q.burstTime : Int),
          state := ProcState.completed } hilen
      rw [hgd] at hcs
      replace hcs : (st.procs.set i _).countP
            (fun p => p.state == ProcState.completed) +
            (if (q.state == ProcState.completed) = true then 1 else 0) =
          st.procs.countP (fun p => p.state == ProcState.completed) +
            (if (ProcState.completed == ProcState.completed) = true then 1 else 0) := hcs
      rw [hqstate] at hcs
      simp only [if_neg (by simp : ¬ (false = true)),
        if_pos (by decide : (ProcState.completed == ProcState.completed) = true)] at hcs
      omega
    · intro p hp
      replace hp : p ∈ st.procs.set i _ := hp
      rcases List.mem_or_eq_of_mem_set hp with hp' | rfl
      · exact hiff p hp'
      · show ProcState.completed = ProcState.completed ↔ q.remainingTime - 1 = 0
        exact ⟨fun _ => hdone, fun _ => rfl⟩
    · have hsum := sum_map_set (fun p => p.remainingTime) st.procs i
        { id := q.id, name := q.name, arrivalTime := q.arrivalTime,
          burstTime := q.burstTime, priority := q.priority,
          remainingTime := q.remainingTime - 1, color := q.color,
          completionTime := (st.t : Int) + 1,
          turnaroundTime := (st.t : Int) + 1 - (q.arrivalTime : Int),
          waitingTime := (st.t : Int) + 1 - (q.arrivalTime : Int) - (q.burstTime : Int),
          state := ProcState.completed } hilen
      rw [hgd] at hsum
      have hkey : ((st.procs.set i
            { id := q.id, name := q.name, arrivalTime := q.arrivalTime,
              burstTime := q.burstTime, priority := q.priority,
              remainingTime := q.remainingTime - 1, color := q.color,
              completionTime := (st.t : Int) + 1,
              turnaroundTime := (st.t : Int) + 1 - (q.arrivalTime : Int),
              waitingTime := (st.t : Int) + 1 - (q.arrivalTime : Int) - (q.burstTime : Int),
              state := ProcState.completed }).map (fun p => p.remainingTime)).sum + q.remainingTime =
          (st.procs.map (fun p => p.remainingTime)).sum + (q.remainingTime - 1) := hsum
      show ((st.procs.set i
          { id := q.id, name := q.name, arrivalTime := q.arrivalTime,
            burstTime := q.burstTime, priority := q.priority,
            remainingTime := q.remainingTime - 1, color := q.color,
            completionTime := (st.t : Int) + 1,
            turnaroundTime := (st.t : Int) + 1 - (q.arrivalTime : Int),
            waitingTime := (st.t : Int) + 1 - (q.arrivalTime : Int) - (q.burstTime : Int),
            state := ProcState.completed }).map (fun p => p.remainingTime)).sum * (A + 1) +
          (A - (st.t + 1)) <
        (st.procs.map (fun p => p.remainingTime)).sum * (A + 1) + (A - st.t)
      have hS : (st.procs.map (fun p => p.remainingTime)).sum =
          ((st.procs.set i
            { id := q.id, name := q.name, arrivalTime := q.arrivalTime,
              burstTime := q.burstTime, priority := q.priority,
              remainingTime := q.remainingTime - 1, color := q.color,
              completionTime := (st.t : Int) + 1,
              turnaroundTime := (st.t : Int) + 1 - (q.arrivalTime : Int),
              waitingTime := (st.t : Int) + 1 - (q.arrivalTime : Int) - (q.burstTime : Int),
              state := ProcState.completed }).map (fun p => p.remainingTime)).sum + 1 := by omega
      rw [hS, Nat.add_mul, Nat.one_mul]
      omega
    · show (st.procs.set i _).length = n
      simpa [List.length_set] using hlen
    · intro p hp
      replace hp : p ∈ st.procs.set i _ := hp
      rcases List.mem_or_eq_of_mem_set hp with hp' | rfl
      · exact hA p hp'
      · show q.arrivalTime ≤ A
        exact hA q hqmem
    · show st.completed = _
      rw [countP_set_eq (fun p => p.state == ProcState.completed) st.procs i
        { id := q.id, name := q.name, arrivalTime := q.arrivalTime,
          burstTime := q.burstTime, priority := q.priority,
          remainingTime := q.remainingTime - 1, color := q.color,
          completionTime := q.completionTime, turnaroundTime := q.turnaroundTime,
          waitingTime := q.waitingTime, state := q.state } hilen (by rw [hgd])]
      exact hcnt
    · intro p hp
      replace hp : p ∈ st.procs.set i _ := hp
      rcases List.mem_or_eq_of_mem_set hp with hp' | rfl
      · exact hiff p hp'
      · show q.state = ProcState.completed ↔ q.remainingTime - 1 = 0
        constructor
        · intro hcontra
          exact absurd hcontra (by simpa using hqstate)
        · intro hcontra
          exact absurd hcontra hdone
    · have hsum := sum_map_set (fun p => p.remainingTime) st.procs i
        { id := q.id, name := q.name, arrivalTime := q.arrivalTime,
          burstTime := q.burstTime, priority := q.priority,
          remainingTime := q.remainingTime - 1, color := q.color,
          completionTime := q.completionTime, turnaroundTime := q.turnaroundTime,
          waitingTime := q.waitingTime, state := q.state } hilen
      rw [hgd] at hsum
      have hkey : ((st.procs.set i
            { id := q.id, name := q.name, arrivalTime := q.arrivalTime,
              burstTime := q.burstTime, priority := q.priority,
              remainingTime := q.remainingTime - 1, color := q.color,
              completionTime := q.completionTime, turnaroundTime := q.turnaroundTime,
              waitingTime := q.waitingTime, state := q.state }).map (fun p => p.remainingTime)).sum + q.remainingTime =
          (st.procs.map (fun p => p.remainingTime)).sum + (q.remainingTime - 1) := hsum
      show ((st.procs.set i
          { id := q.id, name := q.name, arrivalTime := q.arrivalTime,
            burstTime := q.burstTime, priority := q.priority,
            remainingTime := q.remainingTime - 1, color := q.color,
            completionTime := q.completionTime, turnaroundTime := q.turnaroundTime,
            waitingTime := q.waitingTime, state := q.state }).map (fun p => p.remainingTime)).sum * (A + 1) +
          (A - (st.t + 1)) <
        (st.procs.map (fun p => p.remainingTime)).sum * (A + 1) + (A - st.t)
      have hS : (st.procs.map (fun p => p.remainingTime)).sum =
          ((st.procs.set i
            { id := q.id, name := q.name, arrivalTime := q.arrivalTime,
              burstTime := q.burstTime, priority := q.priority,
              remainingTime := q.remainingTime - 1, color := q.color,
              completionTime := q.completionTime, turnaroundTime := q.turnaroundTime,
              waitingTime := q.waitingTime, state := q.state }).map (fun p => p.remainingTime)).sum + 1 := by omega
      rw [hS, Nat.add_mul, Nat.one_mul]
      omega

lemma simulateSRTF_terminates (procs : List Process) (h : ValidInput procs)
    (hne : procs ≠ []) :
    ∃ evs, simulateSRTF procs = some evs ∧
      ∃ e, evs.getLast? = some e ∧ e.eventMessage = "All processes complete." := by
  unfold simulateSRTF
  rw [if_neg hne]
  simp only []
  have hterm := iterWhile_of_measure
    (fun st : SimPreState => decide (st.completed < procs.length))
    (simPreStep srtfCmp " (shorter remaining time).")
    (fun st => st.procs.length = procs.length ∧
      (∀ p ∈ st.procs, p.arrivalTime ≤ maxArrival procs) ∧
      st.completed = st.procs.countP (fun p => p.state == ProcState.completed) ∧
      (∀ p ∈ st.procs, p.state = ProcState.completed ↔ p.remainingTime = 0))
    (fun st => ((st.procs.map (fun p => p.remainingTime)).sum) * (maxArrival procs + 1) +
      (maxArrival procs - st.t))
    (fun st hI hcond => (simPreStep_term srtfCmp srtfCmp_or _ procs.length
      (maxArrival procs) st (by simpa using hcond) hI).1)
    (fun st hI hcond => (simPreStep_term srtfCmp srtfCmp_or _ procs.length
      (maxArrival procs) st (by simpa using hcond) hI).2)
    (preFuel procs) ⟨procs, 0, 0, none, []⟩ ?_ ?_
  · obtain ⟨s, hs⟩ := hterm
    refine ⟨s.events ++ [allCompleteEvent s.procs s.t], ?_, ?_⟩
    · rw [hs]
      rfl
    · exact ⟨allCompleteEvent s.procs s.t, List.getLast?_concat _, rfl⟩
  · refine ⟨rfl, arrival_le_maxArrival procs, ?_, ?_⟩
    · show (0 : Nat) = _
      symm
      rw [List.countP_eq_zero]
      intro p hp
      simp [(h.2 p hp).2.2.1]
    · intro p hp
      obtain ⟨hb, hr, hs, _⟩ := h.2 p hp
      rw [hs, hr]
      constructor
      · intro hcontra
        exact absurd hcontra (by decide)
      · intro hcontra
        omega
  · show ((procs.map (fun p => p.remainingTime)).sum) * (maxArrival procs + 1) +
      (maxArrival procs - 0) < preFuel procs
    unfold preFuel
    omega

lemma simulatePP_terminates (procs : List Process) (h : ValidInput procs)
    (hne : procs ≠ []) :
    ∃ evs, simulatePriorityPreemptive procs = some evs ∧
      ∃ e, evs.getLast? = some e ∧ e.eventMessage = "All processes complete." := by
  unfold simulatePriorityPreemptive
  rw [if_neg hne]
  simp only []
  have hterm := iterWhile_of_measure
    (fun st : SimPreState => decide (st.completed < procs.length))
    (simPreStep pnpCmp " (higher priority).")
    (fun st => st.procs.length = procs.length ∧
      (∀ p ∈ st.procs, p.arrivalTime ≤ maxArrival procs) ∧
      st.completed = st.procs.countP (fun p => p.state == ProcState.completed) ∧
      (∀ p ∈ st.procs, p.state = ProcState.completed ↔ p.remainingTime = 0))
    (fun st => ((st.procs.map (fun p => p.remainingTime)).sum) * (maxArrival procs + 1) +
      (maxArrival procs - st.t))
    (fun st hI hcond => (simPreStep_term pnpCmp pnpCmp_or _ procs.length
      (maxArrival procs) st (by simpa using hcond) hI).1)
    (fun st hI hcond => (simPreStep_term pnpCmp pnpCmp_or _ procs.length
      (maxArrival procs) st (by simpa using hcond) hI).2)
    (preFuel procs) ⟨procs, 0, 0, none, []⟩ ?_ ?_
  · obtain ⟨s, hs⟩ := hterm
    refine ⟨s.events ++ [allCompleteEvent s.procs s.t], ?_, ?_⟩
    · rw [hs]
      rfl
    · exact ⟨allCompleteEvent s.procs s.t, List.getLast?_concat _, rfl⟩
  · refine ⟨rfl, arrival_le_maxArrival procs, ?_, ?_⟩
    · show (0 : Nat) = _
      symm
      rw [List.countP_eq_zero]
      intro p hp
      simp [(h.2 p hp).2.2.1]
    · intro p hp
      obtain ⟨hb, hr, hs, _⟩ := h.2 p hp
      rw [hs, hr]
      constructor
      · intro hcontra
        exact absurd hcontra (by decide)
      · intro hcontra
        omega
  · show ((procs.map (fun p => p.remainingTime)).sum) * (maxArrival procs + 1) +
      (maxArrival procs - 0) < preFuel procs
    unfold preFuel
    omega

lemma simRrStep_eq (quantum : Nat) (s : SimRrState) :
    simRrStep quantum s =
      simRrExec (simRrDispatch (simRrArrive (simRrRetire quantum s))) := rfl

lemma simRrStep2_eq (quantum : Nat) (s : SimRrState) :
    simRrStep2 quantum s =
      simRrExec2 (simRrDispatch (simRrRetire2 quantum (simRrArrive2 s))) := rfl

lemma simRrRetire_none {quantum : Nat} {s : SimRrState} (h : s.running = none) :
    (simRrRetire quantum s).1 = s := by
  unfold simRrRetire
  rw [h]

lemma simRrRetire_commit {quantum : Nat} {s : SimRrState} {i : Nat}
    (h : s.running = some i)
    (h0 : (s.procs.getD i default).remainingTime = 0) :
    (simRrRetire quantum s).1 = { s with
      procs := s.procs.set i (simCommitP (s.procs.getD i default) s.t)
      completed := s.completed + 1
      running := none } := by
  unfold simRrRetire
  rw [h]
  simp only []
  rw [if_pos h0]
  rfl

lemma simRrRetire_expire {quantum : Nat} {s : SimRrState} {i : Nat}
    (h : s.running = some i)
    (h0 : ¬ (s.procs.getD i default).remainingTime = 0)
    (hq : s.qc = quantum) :
    (simRrRetire quantum s).1 =
      { s with queue := s.queue ++ [i], running := none } := by
  unfold simRrRetire
  rw [h]
  simp only []
  rw [if_neg h0, if_pos hq]

lemma simRrRetire_keep {quantum : Nat} {s : SimRrState} {i : Nat}
    (h : s.running = some i)
    (h0 : ¬ (s.procs.getD i default).remainingTime = 0)
    (hq : ¬ s.qc = quantum) :
    (simRrRetire quantum s).1 = s := by
  unfold simRrRetire
  rw [h]
  simp only []
  rw [if_neg h0, if_neg hq]

lemma simRrArrive_fst (sp : SimRrState × String) :
    (simRrArrive sp).1 = { sp.1 with queue := sp.1.queue ++
      ((sortLt (fun a b : Nat × Process => decide (a.2.id < b.2.id))
        (sp.1.procs.enum.filter fun ip => ip.2.arrivalTime == sp.1.t)).map (·.1)) } := rfl

lemma simRrDispatch_cons {sp : SimRrState × String} {i : Nat} {rest : List Nat}
    (h : sp.1.running = none) (hq : sp.1.queue = i :: rest) :
    (simRrDispatch sp).1 = { sp.1 with running := some i, queue := rest, qc := 0 } := by
  obtain ⟨s2, m⟩ := sp
  obtain ⟨pr, q, r, qc, t, c, ev⟩ := s2
  replace h : r = none := h
  replace hq : q = i :: rest := hq
  subst h
  subst hq
  rfl

lemma simRrDispatch_idle {sp : SimRrState × String}
    (h : sp.1.running = none) (hq : sp.1.queue = []) :
    (simRrDispatch sp).1 = sp.1 := by
  obtain ⟨s2, m⟩ := sp
  obtain ⟨pr, q, r, qc, t, c, ev⟩ := s2
  replace h : r = none := h
  replace hq : q = [] := hq
  subst h
  subst hq
  rfl

lemma simRrDispatch_run {sp : SimRrState × String} {i : Nat}
    (h : sp.1.running = some i) :
    (simRrDispatch sp).1 = sp.1 := by
  obtain ⟨s2, m⟩ := sp
  obtain ⟨pr, q, r, qc, t, c, ev⟩ := s2
  replace h : r = some i := h
  subst h
  rfl

lemma simRrExec_run {sp : SimRrState × String} {i : Nat}
    (h : sp.1.running = some i) :
    (simRrExec sp).procs =
        sp.1.procs.set i (rrStepP (sp.1.procs.getD i default)) ∧
      (simRrExec sp).t = sp.1.t + 1 ∧
      (simRrExec sp).completed = sp.1.completed ∧
      (simRrExec sp).queue = sp.1.queue ∧
      (simRrExec sp).running = sp.1.running := by
  obtain ⟨s3, m⟩ := sp
  obtain ⟨pr, q, r, qc, t, c, ev⟩ := s3
  replace h : r = some i := h
  subst h
  exact ⟨rfl, rfl, rfl, rfl, rfl⟩

lemma simRrExec_idle {sp : SimRrState × String} (h : sp.1.running = none) :
    (simRrExec sp).procs = sp.1.procs ∧
      (simRrExec sp).t = sp.1.t + 1 ∧
      (simRrExec sp).completed = sp.1.completed ∧
      (simRrExec sp).queue = sp.1.queue ∧
      (simRrExec sp).running = none := by
  obtain ⟨s3, m⟩ := sp
  obtain ⟨pr, q, r, qc, t, c, ev⟩ := s3
  replace h : r = none := h
  subst h
  exact ⟨rfl, rfl, rfl, rfl, rfl⟩

lemma simRrExec2_run {sp : SimRrState × String} {i : Nat}
    (h : sp.1.running = some i) :
    (simRrExec2 sp).procs = sp.1.procs.set i
        (if (sp.1.procs.getD i default).remainingTime - 1 = 0 then
          rrDoneP (sp.1.procs.getD i default) sp.1.t
        else rrStepP (sp.1.procs.getD i default)) ∧
      (simRrExec2 sp).t = sp.1.t + 1 ∧
      (simRrExec2 sp).completed =
        (if (sp.1.procs.getD i default).remainingTime - 1 = 0 then
          sp.1.completed + 1 else sp.1.completed) ∧
      (simRrExec2 sp).queue = sp.1.queue ∧
      (simRrExec2 sp).running = sp.1.running := by
  obtain ⟨s3, m⟩ := sp
  obtain ⟨pr, q, r, qc, t, c, ev⟩ := s3
  replace h : r = some i := h
  subst h
  exact ⟨rfl, rfl, rfl, rfl, rfl⟩

lemma simRrExec2_idle {sp : SimRrState × String} (h : sp.1.running = none) :
    (simRrExec2 sp).procs = sp.1.procs ∧
      (simRrExec2 sp).t = sp.1.t + 1 ∧
      (simRrExec2 sp).completed = sp.1.completed ∧
      (simRrExec2 sp).queue = sp.1.queue ∧
      (simRrExec2 sp).running = none := by
  obtain ⟨s3, m⟩ := sp
  obtain ⟨pr, q, r, qc, t, c, ev⟩ := s3
  replace h : r = none := h
  subst h
  exact ⟨rfl, rfl, rfl, rfl, rfl⟩

lemma simRrArrive2_fst (s : SimRrState) :
    (simRrArrive2 s).1 = { s with queue := s.queue ++
      ((s.procs.enum.filter fun ip => ip.2.arrivalTime == s.t).map Prod.fst) } := rfl

lemma simRrRetire2_none {quantum : Nat} {sp : SimRrState × String}
    (h : sp.1.running = none) :
    (simRrRetire2 quantum sp).1 = sp.1 := by
  obtain ⟨s1, m⟩ := sp
  obtain ⟨pr, q, r, qc, t, c, ev⟩ := s1
  replace h : r = none := h
  subst h
  rfl

lemma simRrRetire2_drop {quantum : Nat} {sp : SimRrState × String} {i : Nat}
    (h : sp.1.running = some i)
    (h0 : (sp.1.procs.getD i default).remainingTime = 0) :
    (simRrRetire2 quantum sp).1 = { sp.1 with running := none } := by
  obtain ⟨s1, m⟩ := sp
  obtain ⟨pr, q, r, qc, t, c, ev⟩ := s1
  replace h : r = some i := h
  replace h0 : (pr.getD i default).remainingTime = 0 := h0
  subst h
  show (if (pr.getD i default).remainingTime = 0 ||
      (pr.getD i default).remainingTime ≠ 0 && qc = quantum then _ else _ :
      SimRrState × String).1 = _
  rw [if_pos (by
    simp only [Bool.or_eq_true, Bool.and_eq_true, decide_eq_true_eq]
    exact Or.inl h0)]
  simp only []
  rw [if_neg (by omega : ¬ 0 < (pr.getD i default).remainingTime)]

lemma simRrRetire2_rotate {quantum : Nat} {sp : SimRrState × String} {i : Nat}
    (h : sp.1.running = some i)
    (h0 : ¬ (sp.1.procs.getD i default).remainingTime = 0)
    (hq : sp.1.qc = quantum) :
    (simRrRetire2 quantum sp).1 =
      { sp.1 with queue := sp.1.queue ++ [i], running := none } := by
  obtain ⟨s1, m⟩ := sp
  obtain ⟨pr, q, r, qc, t, c, ev⟩ := s1
  replace h : r = some i := h
  replace h0 : ¬ (pr.getD i default).remainingTime = 0 := h0
  replace hq : qc = quantum := hq
  subst h
  subst hq
  show (if (pr.getD i default).remainingTime = 0 ||
      (pr.getD i default).remainingTime ≠ 0 && qc = qc then _ else _ :
      SimRrState × String).1 = _
  rw [if_pos (by
    simp only [Bool.or_eq_true, Bool.and_eq_true, decide_eq_true_eq]
    exact Or.inr ⟨h0, trivial⟩)]
  simp only []
  rw [if_pos (by omega : 0 < (pr.getD i default).remainingTime)]

lemma simRrRetire2_keep {quantum : Nat} {sp : SimRrState × String} {i : Nat}
    (h : sp.1.running = some i)
    (h0 : ¬ (sp.1.procs.getD i default).remainingTime = 0)
    (hq : ¬ sp.1.qc = quantum) :
    (simRrRetire2 quantum sp).1 = sp.1 := by
  obtain ⟨s1, m⟩ := sp
  obtain ⟨pr, q, r, qc, t, c, ev⟩ := s1
  replace h : r = some i := h
  replace h0 : ¬ (pr.getD i default).remainingTime = 0 := h0
  replace hq : ¬ qc = quantum := hq
  subst h
  show (if (pr.getD i default).remainingTime = 0 ||
      (pr.getD i default).remainingTime ≠ 0 && qc = quantum then _ else _ :
      SimRrState × String).1 = _
  rw [if_neg (by
    simp only [Bool.or_eq_true, Bool.and_eq_true, decide_eq_true_eq]
    rintro (hcontra | ⟨h1, h2⟩)
    · exact h0 hcontra
    · exact hq h2)]

lemma simMid_idle (n A : Nat) (mid : SimRrState)
    (hlen : mid.procs.length = n)
    (harr : ∀ p ∈ mid.procs, p.arrivalTime ≤ A ∧ 0 < p.burstTime)
    (hcnt : mid.completed = mid.procs.countP (fun p => p.state == ProcState.completed))
    (hreach : ∀ j, j < mid.procs.length →
      (mid.procs.getD j default).state ≠ ProcState.completed →
      (mid.procs.getD j default).arrivalTime ≤ mid.t →
      j ∈ mid.queue ∨ mid.running = some j)
    (hc : mid.completed < n) (hq : mid.queue = []) (hr : mid.running = none) :
    mid.t < A := by
  obtain ⟨p, hp, hP⟩ := countP_lt_exists _ mid.procs (by rw [← hcnt, hlen]; exact hc)
  rcases List.mem_iff_get.1 hp with ⟨⟨j, hj⟩, hpj⟩
  have hgd : mid.procs.getD j default = p := by
    have : mid.procs.get? j = some p := by
      rw [List.get?_eq_get hj, hpj]
    simp only [List.getD, ← List.get?_eq_getElem?, this, Option.getD_some]
  have hstate : (mid.procs.getD j default).state ≠ ProcState.completed := by
    rw [hgd]
    simpa using hP
  by_contra hge
  push_neg at hge
  have harrle : (mid.procs.getD j default).arrivalTime ≤ mid.t := by
    rw [hgd]
    exact (harr p hp).1.trans hge
  rcases hreach j hj hstate harrle with hjq | hjr
  · rw [hq] at hjq
    exact List.not_mem_nil j hjq
  · rw [hr] at hjr
    exact Option.noConfusion hjr

lemma simArriveMid_v1 (n A : Nat) (r : SimRrState)
    (h1 : r.procs.length = n)
    (h2 : ∀ p ∈ r.procs, p.arrivalTime ≤ A ∧ 0 < p.burstTime)
    (h3 : r.completed = r.procs.countP (fun p => p.state == ProcState.completed))
    (h4 : r.queue.Nodup)
    (h5 : ∀ i, r.running = some i → i < r.procs.length ∧
      (r.procs.getD i default).state ≠ ProcState.completed ∧
      (r.procs.getD i default).arrivalTime < r.t ∧
      0 < (r.procs.getD i default).remainingTime ∧ i ∉ r.queue)
    (h6 : ∀ j ∈ r.queue, j < r.procs.length ∧
      0 < (r.procs.getD j default).remainingTime ∧
      (r.procs.getD j default).state ≠ ProcState.completed ∧
      (r.procs.getD j default).arrivalTime < r.t)
    (h7 : ∀ j, j < r.procs.length →
      (r.procs.getD j default).state ≠ ProcState.completed →
      (r.procs.getD j default).arrivalTime < r.t →
      j ∈ r.queue ∨ r.running = some j)
    (h8 : ∀ p ∈ r.procs, r.t ≤ p.arrivalTime →
      p.remainingTime = p.burstTime ∧ p.state ≠ ProcState.completed) :
    SimMid n A { r with queue := r.queue ++
      ((sortLt (fun a b : Nat × Process => decide (a.2.id < b.2.id))
        (r.procs.enum.filter fun ip => ip.2.arrivalTime == r.t)).map (·.1)) } := by
  have hfresh : ∀ j ∈ (sortLt (fun a b : Nat × Process => decide (a.2.id < b.2.id))
      (r.procs.enum.filter fun ip => ip.2.arrivalTime == r.t)).map (fun ip => ip.1),
      j < r.procs.length ∧ (r.procs.getD j default).arrivalTime = r.t := by
    intro j hj
    obtain ⟨hlen, hf⟩ := rr_arr_mem r.procs _ _ j hj
    exact ⟨hlen, by simpa using hf⟩
  have hfresh2 : ∀ j ∈ (sortLt (fun a b : Nat × Process => decide (a.2.id < b.2.id))
      (r.procs.enum.filter fun ip => ip.2.arrivalTime == r.t)).map (fun ip => ip.1),
      (r.procs.getD j default).remainingTime = (r.procs.getD j default).burstTime ∧
      (r.procs.getD j default).state ≠ ProcState.completed := by
    intro j hj
    obtain ⟨hlen, harr⟩ := hfresh j hj
    exact h8 _ (getD_mem _ _ hlen) (le_of_eq harr.symm)
  refine ⟨h1, h2, h3, ?_, ?_, ?_, ?_, h8⟩
  · show (r.queue ++ _).Nodup
    refine h4.append (rr_arr_nodup _ _ _) ?_
    intro a ha hcontra
    have hlt := (h6 a ha).2.2.2
    have heq := (hfresh a hcontra).2
    omega
  · intro i hri
    replace hri : r.running = some i := hri
    obtain ⟨ha1, ha2, ha3, ha4, ha5⟩ := h5 i hri
    refine ⟨ha1, ha2, ha3, ha4, ?_⟩
    intro hcontra
    rcases List.mem_append.1 hcontra with hcq | hcf
    · exact ha5 hcq
    · have := (hfresh i hcf).2
      omega
  · intro j hj
    replace hj : j ∈ r.queue ++ _ := hj
    rcases List.mem_append.1 hj with hjq | hjf
    · obtain ⟨hb1, hb2, hb3, hb4⟩ := h6 j hjq
      exact ⟨hb1, hb2, hb3, le_of_lt hb4⟩
    · obtain ⟨hb1, hb5⟩ := hfresh j hjf
      obtain ⟨hb2, hb3⟩ := hfresh2 j hjf
      have hbp := (h2 _ (getD_mem _ _ hb1)).2
      refine ⟨hb1, ?_, hb3, le_of_eq hb5⟩
      show 0 < (r.procs.getD j default).remainingTime
      omega
  · intro j hj hstate harrle
    replace hj : j < r.procs.length := hj
    rcases Nat.lt_or_ge (r.procs.getD j default).arrivalTime r.t with hlt | hge
    · rcases h7 j hj hstate hlt with hjq | hjr
      · exact Or.inl (List.mem_append.2 (Or.inl hjq))
      · exact Or.inr hjr
    · have heq : (r.procs.getD j default).arrivalTime = r.t := le_antisymm harrle hge
      refine Or.inl (List.mem_append.2 (Or.inr ?_))
      have hget : r.procs.get? j = some (r.procs.getD j default) := by
        rw [List.get?_eq_get hj]
        simp [List.getD, List.getElem?_eq_getElem hj, List.get_eq_getElem]
      have henum : (j, r.procs.getD j default) ∈ r.procs.enum :=
        List.mem_enum_iff_get?.2 hget
      have hfil : (j, r.procs.getD j default) ∈
          r.procs.enum.filter fun ip => ip.2.arrivalTime == r.t := by
        rw [List.mem_filter]
        exact ⟨henum, by simpa using heq⟩
      have hsort : (j, r.procs.getD j default) ∈
          sortLt (fun a b : Nat × Process => decide (a.2.id < b.2.id))
            (r.procs.enum.filter fun ip => ip.2.arrivalTime == r.t) :=
        mem_sortLt.2 hfil
      exact List.mem_map.2 ⟨_, hsort, rfl⟩

lemma simStage1_v1 (quantum n A : Nat) (st : SimRrState)
    (hI : SimRrInv n A st) :
    SimMid n A ((simRrArrive (simRrRetire quantum st)).1) ∧
    ((simRrArrive (simRrRetire quantum st)).1).t = st.t ∧
    (((simRrArrive (simRrRetire quantum st)).1).procs.map
      (fun p => p.remainingTime)).sum =
      (st.procs.map (fun p => p.remainingTime)).sum ∧
    (((simRrArrive (simRrRetire quantum st)).1).completed = st.completed ∨
      ((simRrArrive (simRrRetire quantum st)).1).completed = st.completed + 1) := by
  obtain ⟨i1, i2, i3, i4, i5, i6, i7, i8⟩ := hI
  cases hrun : st.running with
  | none =>
    rw [simRrArrive_fst, simRrRetire_none hrun]
    refine ⟨?_, rfl, rfl, Or.inl rfl⟩
    refine simArriveMid_v1 n A st i1 i2 i3 i4 ?_ i6 i7 i8
    intro i hri
    rw [hrun] at hri
    cases hri
  | some i =>
    by_cases h0 : (st.procs.getD i default).remainingTime = 0
    · rw [simRrArrive_fst, simRrRetire_commit hrun h0]
      obtain ⟨ha1, ha2, ha3, ha4⟩ := i5 i hrun
      have hsum : ((st.procs.set i
          (simCommitP (st.procs.getD i default) st.t)).map
            (fun p => p.remainingTime)).sum =
          (st.procs.map (fun p => p.remainingTime)).sum := by
        have hss := sum_map_set (fun p => p.remainingTime) st.procs i
          (simCommitP (st.procs.getD i default) st.t) ha1
        replace hss : ((st.procs.set i
              (simCommitP (st.procs.getD i default) st.t)).map
              (fun p => p.remainingTime)).sum +
              (st.procs.getD i default).remainingTime =
            (st.procs.map (fun p => p.remainingTime)).sum +
              (st.procs.getD i default).remainingTime := hss
        omega
      refine ⟨?_, rfl, hsum, Or.inr rfl⟩
      refine simArriveMid_v1 n A _ ?_ ?_ ?_ i4 ?_ ?_ ?_ ?_
      · show (st.procs.set i _).length = n
        simpa [List.length_set] using i1
      · intro p hp
        replace hp : p ∈ st.procs.set i _ := hp
        rcases List.mem_or_eq_of_mem_set hp with hp' | rfl
        · exact i2 p hp'
        · have hgf := i2 _ (getD_mem _ _ ha1)
          exact ⟨hgf.1, hgf.2⟩
      · show st.completed + 1 = (st.procs.set i
            (simCommitP (st.procs.getD i default) st.t)).countP
            (fun p => p.state == ProcState.completed)
        have hcs := countP_set (fun p => p.state == ProcState.completed) st.procs i
          (simCommitP (st.procs.getD i default) st.t) ha1
        have hfa : ((st.procs.getD i default).state == ProcState.completed) = false := by
          simpa using ha2
        have htr : ((simCommitP (st.procs.getD i default) st.t).state ==
            ProcState.completed) = true := rfl
        replace hcs : (st.procs.set i
              (simCommitP (st.procs.getD i default) st.t)).countP
              (fun p => p.state == ProcState.completed) +
              (if ((st.procs.getD i default).state == ProcState.completed) = true
                then 1 else 0) =
            st.procs.countP (fun p => p.state == ProcState.completed) +
              (if ((simCommitP (st.procs.getD i default) st.t).state ==
                ProcState.completed) = true then 1 else 0) := hcs
        rw [hfa, htr] at hcs
        simp only [if_neg (by simp : ¬ (false = true)), if_pos trivial] at hcs
        omega
      · intro i' hri'
        exact Option.noConfusion hri'
      · intro j hj
        replace hj : j ∈ st.queue := hj
        have hne : i ≠ j := fun he => ha4 (he ▸ hj)
        obtain ⟨hb1, hb2, hb3, hb4⟩ := i6 j hj
        refine ⟨?_, ?_, ?_, ?_⟩
        · show j < (st.procs.set i _).length
          simpa [List.length_set] using hb1
        · show 0 < ((st.procs.set i _).getD j default).remainingTime
          rw [getD_set_ne _ _ _ _ hne]
          exact hb2
        · show ((st.procs.set i _).getD j default).state ≠ ProcState.completed
          rw [getD_set_ne _ _ _ _ hne]
          exact hb3
        · show ((st.procs.set i _).getD j default).arrivalTime < st.t
          rw [getD_set_ne _ _ _ _ hne]
          exact hb4
      · intro j hj hstate harrlt
        replace hj : j < (st.procs.set i _).length := hj
        rw [List.length_set] at hj
        by_cases hne : i = j
        · subst hne
          exfalso
          apply hstate
          show ((st.procs.set i _).getD i default).state = ProcState.completed
          rw [getD_set_self _ _ _ ha1]
          rfl
        · rw [getD_set_ne _ _ _ _ hne] at hstate harrlt
          rcases i7 j hj hstate harrlt with hjq | hjr
          · exact Or.inl hjq
          · exfalso
            rw [hrun] at hjr
            exact hne (Option.some.inj hjr)
      · intro p hp harrge
        replace hp : p ∈ st.procs.set i _ := hp
        rcases List.mem_or_eq_of_mem_set hp with hp' | rfl
        · exact i8 p hp' harrge
        · exfalso
          replace harrge : st.t ≤ (st.procs.getD i default).arrivalTime := harrge
          omega
    · by_cases hqc : st.qc = quantum
      · rw [simRrArrive_fst, simRrRetire_expire hrun h0 hqc]
        obtain ⟨ha1, ha2, ha3, ha4⟩ := i5 i hrun
        refine ⟨?_, rfl, rfl, Or.inl rfl⟩
        refine simArriveMid_v1 n A _ i1 i2 i3 ?_ ?_ ?_ ?_ i8
        · show (st.queue ++ [i]).Nodup
          refine i4.append (List.nodup_singleton i) ?_
          intro a haq hcontra
          rcases List.mem_singleton.1 hcontra with rfl
          exact ha4 haq
        · intro i' hri'
          exact Option.noConfusion hri'
        · intro j hj
          replace hj : j ∈ st.queue ++ [i] := hj
          rcases List.mem_append.1 hj with hjq | hjf
          · exact i6 j hjq
          · rcases List.mem_singleton.1 hjf with rfl
            exact ⟨ha1, Nat.pos_of_ne_zero h0, ha2, ha3⟩
        · intro j hj hstate harrlt
          rcases i7 j hj hstate harrlt with hjq | hjr
          · exact Or.inl (List.mem_append.2 (Or.inl hjq))
          · rw [hrun] at hjr
            rcases Option.some.inj hjr with rfl
            exact Or.inl (List.mem_append.2 (Or.inr (List.mem_singleton.2 rfl)))
      · rw [simRrArrive_fst, simRrRetire_keep hrun h0 hqc]
        refine ⟨?_, rfl, rfl, Or.inl rfl⟩
        refine simArriveMid_v1 n A st i1 i2 i3 i4 ?_ i6 i7 i8
        intro i' hri'
        have : i = i' := Option.some.inj (hrun.symm.trans hri')
        subst this
        obtain ⟨ha1, ha2, ha3, ha4⟩ := i5 i hrun
        exact ⟨ha1, ha2, ha3, Nat.pos_of_ne_zero h0, ha4⟩

lemma simStage2_v1 (n A : Nat) (sp : SimRrState × String) (hm : SimMid n A sp.1) :
    SimRrInv n A (simRrExec (simRrDispatch sp)) ∧
    (simRrExec (simRrDispatch sp)).t = sp.1.t + 1 ∧
    (simRrExec (simRrDispatch sp)).completed = sp.1.completed ∧
    ((((simRrExec (simRrDispatch sp)).procs.map (fun p => p.remainingTime)).sum + 1 =
        (sp.1.procs.map (fun p => p.remainingTime)).sum) ∨
      ((((simRrExec (simRrDispatch sp)).procs.map (fun p => p.remainingTime)).sum =
        (sp.1.procs.map (fun p => p.remainingTime)).sum) ∧
        sp.1.queue = [] ∧ sp.1.running = none)) := by
  obtain ⟨m1, m2, m3, m4, m5, m6, m7, m8⟩ := hm
  cases hrun : sp.1.running with
  | some i =>
    have hd : (simRrDispatch sp).1 = sp.1 := simRrDispatch_run hrun
    have hrun2 : (simRrDispatch sp).1.running = some i := by
      rw [hd]
      exact hrun
    obtain ⟨he1, he2, he3, he4, he5⟩ := simRrExec_run hrun2
    rw [hd] at he1 he2 he3 he4 he5
    obtain ⟨hleni, hstatei, harrlti, hremi, hnotqi⟩ := m5 i hrun
    refine ⟨⟨?_, ?_, ?_, ?_, ?_, ?_, ?_, ?_⟩, he2, he3, ?_⟩
    · rw [he1]
      simpa [List.length_set] using m1
    · rw [he1]
      intro p hp
      rcases List.mem_or_eq_of_mem_set hp with hp' | rfl
      · exact m2 p hp'
      · have hgf := m2 _ (getD_mem _ _ hleni)
        exact ⟨hgf.1, hgf.2⟩
    · rw [he3, he1]
      rw [countP_set_eq (fun p => p.state == ProcState.completed) sp.1.procs i
        (rrStepP (sp.1.procs.getD i default)) hleni rfl]
      exact m3
    · rw [he4]
      exact m4
    · intro i' hri'
      rw [he5, hrun] at hri'
      rcases Option.some.inj hri' with rfl
      rw [he1, he2, he4]
      refine ⟨?_, ?_, ?_, hnotqi⟩
      · simpa [List.length_set] using hleni
      · rw [getD_set_self _ _ _ hleni]
        exact hstatei
      · rw [getD_set_self _ _ _ hleni]
        show (sp.1.procs.getD i default).arrivalTime < sp.1.t + 1
        omega
    · intro j hj
      rw [he4] at hj
      have hne : i ≠ j := fun he => hnotqi (he ▸ hj)
      obtain ⟨hb1, hb2, hb3, hb4⟩ := m6 j hj
      rw [he1, he2]
      rw [getD_set_ne _ _ _ _ hne]
      refine ⟨by simpa [List.length_set] using hb1, hb2, hb3, by omega⟩
    · intro j hj hstate harrlt
      rw [he1] at hj hstate
      rw [he1, he2] at harrlt
      rw [he4, he5, hrun]
      rw [List.length_set] at hj
      by_cases hne : i = j
      · subst hne
        exact Or.inr rfl
      · rw [getD_set_ne _ _ _ _ hne] at hstate harrlt
        have harrle : (sp.1.procs.getD j default).arrivalTime ≤ sp.1.t := by omega
        rcases m7 j hj hstate harrle with hjq | hjr
        · exact Or.inl hjq
        · rw [hrun] at hjr
          exact absurd (Option.some.inj hjr) hne
    · intro p hp harrge
      rw [he1] at hp
      rw [he2] at harrge
      rcases List.mem_or_eq_of_mem_set hp with hp' | rfl
      · exact m8 p hp' (by omega)
      · exfalso
        replace harrge : sp.1.t + 1 ≤ (sp.1.procs.getD i default).arrivalTime := harrge
        omega
    · left
      rw [he1]
      have hss := sum_map_set (fun p => p.remainingTime) sp.1.procs i
        (rrStepP (sp.1.procs.getD i default)) hleni
      replace hss : ((sp.1.procs.set i
            (rrStepP (sp.1.procs.getD i default))).map
            (fun p => p.remainingTime)).sum +
            (sp.1.procs.getD i default).remainingTime =
          (sp.1.procs.map (fun p => p.remainingTime)).sum +
            ((sp.1.procs.getD i default).remainingTime - 1) := hss
      omega
  | none =>
    cases hq : sp.1.queue with
    | nil =>
      have hd : (simRrDispatch sp).1 = sp.1 := simRrDispatch_idle hrun hq
      have hrun2 : (simRrDispatch sp).1.running = none := by
        rw [hd]
        exact hrun
      obtain ⟨he1, he2, he3, he4, he5⟩ := simRrExec_idle hrun2
      rw [hd] at he1 he2 he3 he4
      refine ⟨⟨?_, ?_, ?_, ?_, ?_, ?_, ?_, ?_⟩, he2, he3, ?_⟩
      · rw [he1]
        exact m1
      · rw [he1]
        exact m2
      · rw [he3, he1]
        exact m3
      · rw [he4]
        exact m4
      · intro i' hri'
        rw [he5] at hri'
        cases hri'
      · intro j hj
        rw [he4, hq] at hj
        cases hj
      · intro j hj hstate harrlt
        exfalso
        rw [he1] at hj hstate
        rw [he1, he2] at harrlt
        have harrle : (sp.1.procs.getD j default).arrivalTime ≤ sp.1.t := by omega
        rcases m7 j hj hstate harrle with hjq | hjr
        · rw [hq] at hjq
          exact List.not_mem_nil j hjq
        · rw [hrun] at hjr
          exact Option.noConfusion hjr
      · intro p hp harrge
        rw [he1] at hp
        rw [he2] at harrge
        exact m8 p hp (by omega)
      · right
        rw [he1]
        exact ⟨rfl, rfl, rfl⟩
    | cons i rest =>
      have hd := simRrDispatch_cons hrun hq
      have hrun2 : (simRrDispatch sp).1.running = some i := by
        rw [hd]
      obtain ⟨he1, he2, he3, he4, he5⟩ := simRrExec_run hrun2
      replace he1 : (simRrExec (simRrDispatch sp)).procs =
          sp.1.procs.set i (rrStepP (sp.1.procs.getD i default)) := by
        rw [he1, hd]
      replace he2 : (simRrExec (simRrDispatch sp)).t = sp.1.t + 1 := by
        rw [he2, hd]
      replace he3 : (simRrExec (simRrDispatch sp)).completed = sp.1.completed := by
        rw [he3, hd]
      replace he4 : (simRrExec (simRrDispatch sp)).queue = rest := by
        rw [he4, hd]
      replace he5 : (simRrExec (simRrDispatch sp)).running = some i := by
        rw [he5, hd]
      have hmemi : i ∈ sp.1.queue := by
        rw [hq]
        exact List.mem_cons_self _ _
      obtain ⟨hleni, hremi, hstatei, harrlei⟩ := m6 i hmemi
      have hndc : i ∉ rest ∧ rest.Nodup := by
        rw [hq] at m4
        exact List.nodup_cons.1 m4
      refine ⟨⟨?_, ?_, ?_, ?_, ?_, ?_, ?_, ?_⟩, he2, he3, ?_⟩
      · rw [he1]
        simpa [List.length_set] using m1
      · rw [he1]
        intro p hp
        rcases List.mem_or_eq_of_mem_set hp with hp' | rfl
        · exact m2 p hp'
        · have hgf := m2 _ (getD_mem _ _ hleni)
          exact ⟨hgf.1, hgf.2⟩
      · rw [he3, he1]
        rw [countP_set_eq (fun p => p.state == ProcState.completed) sp.1.procs i
          (rrStepP (sp.1.procs.getD i default)) hleni rfl]
        exact m3
      · rw [he4]
        exact hndc.2
      · intro i' hri'
        rw [he5] at hri'
        rcases Option.some.inj hri' with rfl
        rw [he1, he2, he4]
        refine ⟨?_, ?_, ?_, hndc.1⟩
        · simpa [List.length_set] using hleni
        · rw [getD_set_self _ _ _ hleni]
          exact hstatei
        · rw [getD_set_self _ _ _ hleni]
          show (sp.1.procs.getD i default).arrivalTime < sp.1.t + 1
          omega
      · intro j hj
        rw [he4] at hj
        have hjq : j ∈ sp.1.queue := by
          rw [hq]
          exact List.mem_cons_of_mem _ hj
        have hne : i ≠ j := fun he => hndc.1 (he ▸ hj)
        obtain ⟨hb1, hb2, hb3, hb4⟩ := m6 j hjq
        rw [he1, he2]
        rw [getD_set_ne _ _ _ _ hne]
        refine ⟨by simpa [List.length_set] using hb1, hb2, hb3, by omega⟩
      · intro j hj hstate harrlt
        rw [he1] at hj hstate
        rw [he1, he2] at harrlt
        rw [he4, he5]
        rw [List.length_set] at hj
        by_cases hne : i = j
        · subst hne
          exact Or.inr rfl
        · rw [getD_set_ne _ _ _ _ hne] at hstate harrlt
          have harrle : (sp.1.procs.getD j default).arrivalTime ≤ sp.1.t := by omega
          rcases m7 j hj hstate harrle with hjq2 | hjr
          · rw [hq] at hjq2
            rcases List.mem_cons.1 hjq2 with rfl | hjq3
            · exact absurd rfl hne
            · exact Or.inl hjq3
          · rw [hrun] at hjr
            exact Option.noConfusion hjr
      · intro p hp harrge
        rw [he1] at hp
        rw [he2] at harrge
        rcases List.mem_or_eq_of_mem_set hp with hp' | rfl
        · exact m8 p hp' (by omega)
        · exfalso
          replace harrge : sp.1.t + 1 ≤ (sp.1.procs.getD i default).arrivalTime := harrge
          omega
      · left
        rw [he1]
        have hss := sum_map_set (fun p => p.remainingTime) sp.1.procs i
          (rrStepP (sp.1.procs.getD i default)) hleni
        replace hss : ((sp.1.procs.set i
              (rrStepP (sp.1.procs.getD i default))).map
              (fun p => p.remainingTime)).sum +
              (sp.1.procs.getD i default).remainingTime =
            (sp.1.procs.map (fun p => p.remainingTime)).sum +
              ((sp.1.procs.getD i default).remainingTime - 1) := hss
        omega

lemma measure_step_lt (A t x y : Nat) (h : x + 1 ≤ y) :
    x * (A + 1) + (A - (t + 1)) < y * (A + 1) + (A - t) := by
  have h1 : (x + 1) * (A + 1) ≤ y * (A + 1) := Nat.mul_le_mul_right _ h
  rw [Nat.succ_mul] at h1
  omega

lemma simRrStep_term (quantum n A : Nat) (st : SimRrState)
    (hc : st.completed < n) (hI : SimRrInv n A st) :
    SimRrInv n A (simRrStep quantum st) ∧
      simRrMeasure n A (simRrStep quantum st) < simRrMeasure n A st := by
  obtain ⟨hmid, ht1, hsum1, hcomp1⟩ := simStage1_v1 quantum n A st hI
  obtain ⟨hinv, ht2, hcomp2, hsumcase⟩ :=
    simStage2_v1 n A (simRrArrive (simRrRetire quantum st)) hmid
  rw [simRrStep_eq]
  refine ⟨hinv, ?_⟩
  unfold simRrMeasure
  rw [ht2, ht1, hcomp2]
  rcases hsumcase with hex | ⟨hid, hqe, hre⟩
  · rw [hsum1] at hex
    apply measure_step_lt
    rcases hcomp1 with hcm | hcm
    · rw [hcm]
      omega
    · rw [hcm]
      omega
  · rw [hsum1] at hid
    rcases hcomp1 with hcm | hcm
    · rw [hcm, hid]
      have htA : st.t < A := by
        obtain ⟨m1, m2, m3, m4, m5, m6, m7, m8⟩ := hmid
        have := simMid_idle n A (simRrArrive (simRrRetire quantum st)).1
          m1 m2 m3 m7 (by rw [hcm]; exact hc) hqe hre
        rw [ht1] at this
        exact this
      omega
    · rw [hcm, hid]
      apply measure_step_lt
      omega

lemma simulateRR_terminates (procs : List Process) (h : ValidInput procs)
    (hne : procs ≠ []) (quantum : Nat) :
    ∃ evs, simulateRoundRobin procs quantum = some evs ∧
      ∃ e, evs.getLast? = some e ∧ e.eventMessage = "All processes complete." := by
  unfold simulateRoundRobin
  rw [if_neg hne]
  simp only []
  have hterm := iterWhile_of_measure
    (fun st : SimRrState => decide (st.completed < procs.length))
    (simRrStep quantum)
    (SimRrInv procs.length (maxArrival procs))
    (simRrMeasure procs.length (maxArrival procs))
    (fun st hI hcond =>
      (simRrStep_term quantum procs.length (maxArrival procs) st
        (by simpa using hcond) hI).1)
    (fun st hI hcond =>
      (simRrStep_term quantum procs.length (maxArrival procs) st
        (by simpa using hcond) hI).2)
    (simRrFuel procs) ⟨procs, [], none, 0, 0, 0, []⟩ ?_ ?_
  · obtain ⟨s, hs⟩ := hterm
    refine ⟨s.events ++ [allCompleteEvent s.procs s.t], ?_, ?_⟩
    · rw [hs]
      rfl
    · exact ⟨allCompleteEvent s.procs s.t, List.getLast?_concat _, rfl⟩
  · refine ⟨rfl, ?_, ?_, List.nodup_nil, ?_, ?_, ?_, ?_⟩
    · intro p hp
      exact ⟨arrival_le_maxArrival procs p hp, (h.2 p hp).1⟩
    · show (0 : Nat) = _
      symm
      rw [List.countP_eq_zero]
      intro p hp
      simp [(h.2 p hp).2.2.1]
    · intro i hi
      exact Option.noConfusion hi
    · intro j hj
      exact absurd hj (List.not_mem_nil j)
    · intro j hj hstate harrlt
      exact absurd (show (procs.getD j default).arrivalTime < 0 from harrlt) (by omega)
    · intro p hp hge
      obtain ⟨hb, hr, hs, _⟩ := h.2 p hp
      rw [hs, hr]
      refine ⟨rfl, ?_⟩
      intro hcontra
      exact absurd hcontra (by decide)
  · show simRrMeasure procs.length (maxArrival procs) _ < simRrFuel procs
    unfold simRrMeasure simRrFuel
    simp only [Nat.sub_zero]
    omega

lemma rr_arr2_mem (procs : List Process) (f : Nat × Process → Bool) :
    ∀ j ∈ (procs.enum.filter f).map Prod.fst,
      j < procs.length ∧ f (j, procs.getD j default) = true := by
  intro j hj
  obtain ⟨⟨j', q⟩, hq, rfl⟩ := List.mem_map.1 hj
  obtain ⟨hqe, hqt⟩ := List.mem_filter.1 hq
  have hget : procs.get? j' = some q := mem_enum_get hqe
  have hlen : j' < procs.length := (List.get?_eq_some.1 hget).1
  have hgd : procs.getD j' default = q := by
    simp only [List.getD, ← List.get?_eq_getElem?, hget, Option.getD_some]
  exact ⟨hlen, by rw [hgd]; exact hqt⟩

lemma rr_arr2_nodup (procs : List Process) (f : Nat × Process → Bool) :
    ((procs.enum.filter f).map Prod.fst).Nodup := by
  have henum : procs.enum.Nodup := by
    have : (procs.enum.map Prod.fst).Nodup := by
      rw [List.enum_map_fst]
      exact List.nodup_range _
    exact this.of_map
  refine (henum.filter f).map_on ?_
  intro a ha b hb hab
  have hga : procs.get? a.1 = some a.2 := mem_enum_get (List.mem_filter.1 ha).1
  have hgb : procs.get? b.1 = some b.2 := mem_enum_get (List.mem_filter.1 hb).1
  have : a.2 = b.2 := by
    rw [hab] at hga
    exact Option.some.inj (hga.symm.trans hgb)
  exact Prod.ext hab this

lemma simStage1_v2 (quantum n A : Nat) (st : SimRrState)
    (hI : SimRrInv2 n A st) :
    SimMid2 n A ((simRrRetire2 quantum (simRrArrive2 st)).1) ∧
    ((simRrRetire2 quantum (simRrArrive2 st)).1).t = st.t ∧
    (((simRrRetire2 quantum (simRrArrive2 st)).1).procs.map
      (fun p => p.remainingTime)).sum =
      (st.procs.map (fun p => p.remainingTime)).sum ∧
    ((simRrRetire2 quantum (simRrArrive2 st)).1).completed = st.completed := by
  obtain ⟨i1, i2, i3, i4, i5, i6, i7, i8, i9⟩ := hI
  have hfresh : ∀ j ∈ (st.procs.enum.filter fun ip =>
      ip.2.arrivalTime == st.t).map Prod.fst,
      j < st.procs.length ∧ (st.procs.getD j default).arrivalTime = st.t := by
    intro j hj
    obtain ⟨hlen, hf⟩ := rr_arr2_mem st.procs _ j hj
    exact ⟨hlen, by simpa using hf⟩
  have hfresh2 : ∀ j ∈ (st.procs.enum.filter fun ip =>
      ip.2.arrivalTime == st.t).map Prod.fst,
      0 < (st.procs.getD j default).remainingTime := by
    intro j hj
    obtain ⟨hlen, harr⟩ := hfresh j hj
    obtain ⟨hr, _⟩ := i9 _ (getD_mem _ _ hlen) (le_of_eq harr.symm)
    have := (i2 _ (getD_mem _ _ hlen)).2
    omega
  have am4 : (st.queue ++ (st.procs.enum.filter fun ip =>
      ip.2.arrivalTime == st.t).map Prod.fst).Nodup := by
    refine i4.append (rr_arr2_nodup _ _) ?_
    intro a ha hcontra
    have hlt := (i7 a ha).2.2
    have heq := (hfresh a hcontra).2
    omega
  have am6 : ∀ i, st.running = some i → i < st.procs.length ∧
      (st.procs.getD i default).arrivalTime < st.t ∧
      i ∉ st.queue ++ (st.procs.enum.filter fun ip =>
        ip.2.arrivalTime == st.t).map Prod.fst := by
    intro i hri
    obtain ⟨ha1, ha2, ha3⟩ := i6 i hri
    refine ⟨ha1, ha2, ?_⟩
    intro hcontra
    rcases List.mem_append.1 hcontra with hcq | hcf
    · exact ha3 hcq
    · have := (hfresh i hcf).2
      omega
  have am7 : ∀ j ∈ st.queue ++ (st.procs.enum.filter fun ip =>
      ip.2.arrivalTime == st.t).map Prod.fst,
      j < st.procs.length ∧ 0 < (st.procs.getD j default).remainingTime ∧
      (st.procs.getD j default).arrivalTime ≤ st.t := by
    intro j hj
    rcases List.mem_append.1 hj with hjq | hjf
    · obtain ⟨hb1, hb2, hb3⟩ := i7 j hjq
      exact ⟨hb1, hb2, le_of_lt hb3⟩
    · obtain ⟨hb1, hb5⟩ := hfresh j hjf
      exact ⟨hb1, hfresh2 j hjf, le_of_eq hb5⟩
  have am8 : ∀ j, j < st.procs.length →
      (st.procs.getD j default).state ≠ ProcState.completed →
      (st.procs.getD j default).arrivalTime ≤ st.t →
      j ∈ st.queue ++ (st.procs.enum.filter fun ip =>
        ip.2.arrivalTime == st.t).map Prod.fst ∨ st.running = some j := by
    intro j hj hstate harrle
    rcases Nat.lt_or_ge (st.procs.getD j default).arrivalTime st.t with hlt | hge
    · rcases i8 j hj hstate hlt with hjq | hjr
      · exact Or.inl (List.mem_append.2 (Or.inl hjq))
      · exact Or.inr hjr
    · have heq : (st.procs.getD j default).arrivalTime = st.t := le_antisymm harrle hge
      refine Or.inl (List.mem_append.2 (Or.inr ?_))
      have hget : st.procs.get? j = some (st.procs.getD j default) := by
        rw [List.get?_eq_get hj]
        simp [List.getD, List.getElem?_eq_getElem hj, List.get_eq_getElem]
      have henum : (j, st.procs.getD j default) ∈ st.procs.enum :=
        List.mem_enum_iff_get?.2 hget
      have hfil : (j, st.procs.getD j default) ∈
          st.procs.enum.filter fun ip => ip.2.arrivalTime == st.t := by
        rw [List.mem_filter]
        exact ⟨henum, by simpa using heq⟩
      exact List.mem_map.2 ⟨_, hfil, rfl⟩
  cases hrun : st.running with
  | none =>
    have hrun' : (simRrArrive2 st).1.running = none := hrun
    rw [simRrRetire2_none hrun', simRrArrive2_fst]
    refine ⟨⟨i1, i2, i3, am4, i5, ?_, am7, am8, i9⟩, rfl, rfl, rfl⟩
    intro i hri
    replace hri : st.running = some i := hri
    rw [hrun] at hri
    cases hri
  | some i =>
    have hrun' : (simRrArrive2 st).1.running = some i := hrun
    by_cases h0 : (st.procs.getD i default).remainingTime = 0
    · have h0' : ((simRrArrive2 st).1.procs.getD i default).remainingTime = 0 := h0
      rw [simRrRetire2_drop hrun' h0', simRrArrive2_fst]
      refine ⟨⟨i1, i2, i3, am4, i5, ?_, am7, ?_, i9⟩, rfl, rfl, rfl⟩
      · intro i' hri'
        exact Option.noConfusion hri'
      · intro j hj hstate harrle
        replace hj : j < st.procs.length := hj
        replace hstate : (st.procs.getD j default).state ≠ ProcState.completed := hstate
        replace harrle : (st.procs.getD j default).arrivalTime ≤ st.t := harrle
        rcases am8 j hj hstate harrle with hjq | hjr
        · exact Or.inl hjq
        · exfalso
          rw [hrun] at hjr
          rcases Option.some.inj hjr with rfl
          apply hstate
          exact (i5 _ (getD_mem _ _ hj)).2 h0
    · by_cases hqc : st.qc = quantum
      · have h0' : ¬ ((simRrArrive2 st).1.procs.getD i default).remainingTime = 0 := h0
        have hqc' : (simRrArrive2 st).1.qc = quantum := hqc
        rw [simRrRetire2_rotate hrun' h0' hqc', simRrArrive2_fst]
        obtain ⟨ha1, ha2, ha3⟩ := am6 i hrun
        refine ⟨⟨i1, i2, i3, ?_, i5, ?_, ?_, ?_, i9⟩, rfl, rfl, rfl⟩
        · show ((st.queue ++ _) ++ [i]).Nodup
          refine am4.append (List.nodup_singleton i) ?_
          intro a haq hcontra
          rcases List.mem_singleton.1 hcontra with rfl
          exact ha3 haq
        · intro i' hri'
          exact Option.noConfusion hri'
        · intro j hj
          replace hj : j ∈ (st.queue ++ _) ++ [i] := hj
          rcases List.mem_append.1 hj with hjq | hjf
          · exact am7 j hjq
          · rcases List.mem_singleton.1 hjf with rfl
            exact ⟨ha1, Nat.pos_of_ne_zero h0, le_of_lt ha2⟩
        · intro j hj hstate harrle
          replace hj : j < st.procs.length := hj
          replace hstate : (st.procs.getD j default).state ≠ ProcState.completed := hstate
          replace harrle : (st.procs.getD j default).arrivalTime ≤ st.t := harrle
          rcases am8 j hj hstate harrle with hjq | hjr
          · exact Or.inl (List.mem_append.2 (Or.inl hjq))
          · rw [hrun] at hjr
            rcases Option.some.inj hjr with rfl
            exact Or.inl (List.mem_append.2 (Or.inr (List.mem_singleton.2 rfl)))
      · have h0' : ¬ ((simRrArrive2 st).1.procs.getD i default).remainingTime = 0 := h0
        have hqc' : ¬ (simRrArrive2 st).1.qc = quantum := hqc
        rw [simRrRetire2_keep hrun' h0' hqc', simRrArrive2_fst]
        refine ⟨⟨i1, i2, i3, am4, i5, ?_, am7, am8, i9⟩, rfl, rfl, rfl⟩
        intro i' hri'
        replace hri' : st.running = some i' := hri'
        have : i = i' := Option.some.inj (hrun.symm.trans hri')
        subst this
        obtain ⟨ha1, ha2, ha3⟩ := am6 i hrun
        exact ⟨ha1, ha2, Nat.pos_of_ne_zero h0, ha3⟩

lemma simStage2_v2 (n A : Nat) (sp : SimRrState × String) (hm : SimMid2 n A sp.1) :
    SimRrInv2 n A (simRrExec2 (simRrDispatch sp)) ∧
    (simRrExec2 (simRrDispatch sp)).t = sp.1.t + 1 ∧
    ((simRrExec2 (simRrDispatch sp)).completed = sp.1.completed ∨
      (simRrExec2 (simRrDispatch sp)).completed = sp.1.completed + 1) ∧
    ((((simRrExec2 (simRrDispatch sp)).procs.map (fun p => p.remainingTime)).sum + 1 =
        (sp.1.procs.map (fun p => p.remainingTime)).sum) ∨
      ((((simRrExec2 (simRrDispatch sp)).procs.map (fun p => p.remainingTime)).sum =
        (sp.1.procs.map (fun p => p.remainingTime)).sum) ∧
        sp.1.queue = [] ∧ sp.1.running = none ∧
        (simRrExec2 (simRrDispatch sp)).completed = sp.1.completed)) := by
  obtain ⟨m1, m2, m3, m4, m5, m6, m7, m8, m9⟩ := hm
  cases hrun : sp.1.running with
  | some i =>
    have hd : (simRrDispatch sp).1 = sp.1 := simRrDispatch_run hrun
    have hrun2 : (simRrDispatch sp).1.running = some i := by
      rw [hd]
      exact hrun
    obtain ⟨he1, he2, he3, he4, he5⟩ := simRrExec2_run hrun2
    rw [hd] at he1 he2 he3 he4 he5
    obtain ⟨hleni, harrlti, hremi, hnotqi⟩ := m6 i hrun
    have hstatei : (sp.1.procs.getD i default).state ≠ ProcState.completed := by
      intro hcontra
      have := (m5 _ (getD_mem _ _ hleni)).1 hcontra
      omega
    refine ⟨⟨?_, ?_, ?_, ?_, ?_, ?_, ?_, ?_, ?_⟩, he2, ?_, ?_⟩
    · rw [he1]
      simpa [List.length_set] using m1
    · rw [he1]
      intro p hp
      rcases List.mem_or_eq_of_mem_set hp with hp' | rfl
      · exact m2 p hp'
      · have hgf := m2 _ (getD_mem _ _ hleni)
        by_cases hdone : (sp.1.procs.getD i default).remainingTime - 1 = 0
        · rw [if_pos hdone]
          exact ⟨hgf.1, hgf.2⟩
        · rw [if_neg hdone]
          exact ⟨hgf.1, hgf.2⟩
    · rw [he3, he1]
      by_cases hdone : (sp.1.procs.getD i default).remainingTime - 1 = 0
      · rw [if_pos hdone, if_pos hdone]
        have hcs := countP_set (fun p => p.state == ProcState.completed) sp.1.procs i
          (rrDoneP (sp.1.procs.getD i default) sp.1.t) hleni
        have hfa : ((sp.1.procs.getD i default).state == ProcState.completed) = false := by
          simpa using hstatei
        have htr : ((rrDoneP (sp.1.procs.getD i default) sp.1.t).state ==
            ProcState.completed) = true := rfl
        replace hcs : (sp.1.procs.set i
              (rrDoneP (sp.1.procs.getD i default) sp.1.t)).countP
              (fun p => p.state == ProcState.completed) +
              (if ((sp.1.procs.getD i default).state == ProcState.completed) = true
                then 1 else 0) =
            sp.1.procs.countP (fun p => p.state == ProcState.completed) +
              (if ((rrDoneP (sp.1.procs.getD i default) sp.1.t).state ==
                ProcState.completed) = true then 1 else 0) := hcs
        rw [hfa, htr] at hcs
        simp only [if_neg (by simp : ¬ (false = true)), if_pos trivial] at hcs
        omega
      · rw [if_neg hdone, if_neg hdone]
        rw [countP_set_eq (fun p => p.state == ProcState.completed) sp.1.procs i
          (rrStepP (sp.1.procs.getD i default)) hleni rfl]
        exact m3
    · rw [he4]
      exact m4
    · rw [he1]
      intro p hp
      rcases List.mem_or_eq_of_mem_set hp with hp' | rfl
      · exact m5 p hp'
      · by_cases hdone : (sp.1.procs.getD i default).remainingTime - 1 = 0
        · rw [if_pos hdone]
          show ProcState.completed = ProcState.completed ↔
            (sp.1.procs.getD i default).remainingTime - 1 = 0
          exact ⟨fun _ => hdone, fun _ => rfl⟩
        · rw [if_neg hdone]
          show (sp.1.procs.getD i default).state = ProcState.completed ↔
            (sp.1.procs.getD i default).remainingTime - 1 = 0
          constructor
          · intro hcontra
            exact absurd hcontra hstatei
          · intro hcontra
            exact absurd hcontra hdone
    · intro i' hri'
      rw [he5, hrun] at hri'
      rcases Option.some.inj hri' with rfl
      rw [he1, he2, he4]
      refine ⟨?_, ?_, hnotqi⟩
      · simpa [List.length_set] using hleni
      · rw [getD_set_self _ _ _ hleni]
        by_cases hdone : (sp.1.procs.getD i default).remainingTime - 1 = 0
        · rw [if_pos hdone]
          show (sp.1.procs.getD i default).arrivalTime < sp.1.t + 1
          omega
        · rw [if_neg hdone]
          show (sp.1.procs.getD i default).arrivalTime < sp.1.t + 1
          omega
    · intro j hj
      rw [he4] at hj
      have hne : i ≠ j := fun he => hnotqi (he ▸ hj)
      obtain ⟨hb1, hb2, hb3⟩ := m7 j hj
      rw [he1, he2]
      rw [getD_set_ne _ _ _ _ hne]
      refine ⟨by simpa [List.length_set] using hb1, hb2, by omega⟩
    · intro j hj hstate harrlt
      rw [he1] at hj hstate
      rw [he1, he2] at harrlt
      rw [he4, he5, hrun]
      rw [List.length_set] at hj
      by_cases hne : i = j
      · subst hne
        exact Or.inr rfl
      · rw [getD_set_ne _ _ _ _ hne] at hstate harrlt
        have harrle : (sp.1.procs.getD j default).arrivalTime ≤ sp.1.t := by omega
        rcases m8 j hj hstate harrle with hjq | hjr
        · exact Or.inl hjq
        · rw [hrun] at hjr
          exact absurd (Option.some.inj hjr) hne
    · intro p hp harrge
      rw [he1] at hp
      rw [he2] at harrge
      rcases List.mem_or_eq_of_mem_set hp with hp' | rfl
      · exact m9 p hp' (by omega)
      · exfalso
        by_cases hdone : (sp.1.procs.getD i default).remainingTime - 1 = 0
        · rw [if_pos hdone] at harrge
          replace harrge : sp.1.t + 1 ≤ (sp.1.procs.getD i default).arrivalTime := harrge
          omega
        · rw [if_neg hdone] at harrge
          replace harrge : sp.1.t + 1 ≤ (sp.1.procs.getD i default).arrivalTime := harrge
          omega
    · rw [he3]
      by_cases hdone : (sp.1.procs.getD i default).remainingTime - 1 = 0
      · rw [if_pos hdone]
        exact Or.inr rfl
      · rw [if_neg hdone]
        exact Or.inl rfl
    · left
      rw [he1]
      by_cases hdone : (sp.1.procs.getD i default).remainingTime - 1 = 0
      · rw [if_pos hdone]
        have hss := sum_map_set (fun p => p.remainingTime) sp.1.procs i
          (rrDoneP (sp.1.procs.getD i default) sp.1.t) hleni
        replace hss : ((sp.1.procs.set i
              (rrDoneP (sp.1.procs.getD i default) sp.1.t)).map
              (fun p => p.remainingTime)).sum +
              (sp.1.procs.getD i default).remainingTime =
            (sp.1.procs.map (fun p => p.remainingTime)).sum +
              ((sp.1.procs.getD i default).remainingTime - 1) := hss
        omega
      · rw [if_neg hdone]
        have hss := sum_map_set (fun p => p.remainingTime) sp.1.procs i
          (rrStepP (sp.1.procs.getD i default)) hleni
        replace hss : ((sp.1.procs.set i
              (rrStepP (sp.1.procs.getD i default))).map
              (fun p => p.remainingTime)).sum +
              (sp.1.procs.getD i default).remainingTime =
            (sp.1.procs.map (fun p => p.remainingTime)).sum +
              ((sp.1.procs.getD i default).remainingTime - 1) := hss
        omega
  | none =>
    cases hq : sp.1.queue with
    | nil =>
      have hd : (simRrDispatch sp).1 = sp.1 := simRrDispatch_idle hrun hq
      have hrun2 : (simRrDispatch sp).1.running = none := by
        rw [hd]
        exact hrun
      obtain ⟨he1, he2, he3, he4, he5⟩ := simRrExec2_idle hrun2
      rw [hd] at he1 he2 he3 he4
      refine ⟨⟨?_, ?_, ?_, ?_, ?_, ?_, ?_, ?_, ?_⟩, he2, Or.inl he3, ?_⟩
      · rw [he1]
        exact m1
      · rw [he1]
        exact m2
      · rw [he3, he1]
        exact m3
      · rw [he4]
        exact m4
      · rw [he1]
        exact m5
      · intro i' hri'
        rw [he5] at hri'
        cases hri'
      · intro j hj
        rw [he4, hq] at hj
        cases hj
      · intro j hj hstate harrlt
        exfalso
        rw [he1] at hj hstate
        rw [he1, he2] at harrlt
        have harrle : (sp.1.procs.getD j default).arrivalTime ≤ sp.1.t := by omega
        rcases m8 j hj hstate harrle with hjq | hjr
        · rw [hq] at hjq
          exact List.not_mem_nil j hjq
        · rw [hrun] at hjr
          exact Option.noConfusion hjr
      · intro p hp harrge
        rw [he1] at hp
        rw [he2] at harrge
        exact m9 p hp (by omega)
      · right
        rw [he1]
        exact ⟨rfl, rfl, rfl, he3⟩
    | cons i rest =>
      have hd := simRrDispatch_cons hrun hq
      have hrun2 : (simRrDispatch sp).1.running = some i := by
        rw [hd]
      obtain ⟨he1, he2, he3, he4, he5⟩ := simRrExec2_run hrun2
      replace he1 : (simRrExec2 (simRrDispatch sp)).procs =
          sp.1.procs.set i
            (if (sp.1.procs.getD i default).remainingTime - 1 = 0 then
              rrDoneP (sp.1.procs.getD i default) sp.1.t
            else rrStepP (sp.1.procs.getD i default)) := by
        rw [he1, hd]
      replace he2 : (simRrExec2 (simRrDispatch sp)).t = sp.1.t + 1 := by
        rw [he2, hd]
      replace he3 : (simRrExec2 (simRrDispatch sp)).completed =
          (if (sp.1.procs.getD i default).remainingTime - 1 = 0 then
            sp.1.completed + 1 else sp.1.completed) := by
        rw [he3, hd]
      replace he4 : (simRrExec2 (simRrDispatch sp)).queue = rest := by
        rw [he4, hd]
      replace he5 : (simRrExec2 (simRrDispatch sp)).running = some i := by
        rw [he5, hd]
      have hmemi : i ∈ sp.1.queue := by
        rw [hq]
        exact List.mem_cons_self _ _
      obtain ⟨hleni, hremi, harrlei⟩ := m7 i hmemi
      have hstatei : (sp.1.procs.getD i default).state ≠ ProcState.completed := by
        intro hcontra
        have := (m5 _ (getD_mem _ _ hleni)).1 hcontra
        omega
      have hndc : i ∉ rest ∧ rest.Nodup := by
        rw [hq] at m4
        exact List.nodup_cons.1 m4
      refine ⟨⟨?_, ?_, ?_, ?_, ?_, ?_, ?_, ?_, ?_⟩, he2, ?_, ?_⟩
      · rw [he1]
        simpa [List.length_set] using m1
      · rw [he1]
        intro p hp
        rcases List.mem_or_eq_of_mem_set hp with hp' | rfl
        · exact m2 p hp'
        · have hgf := m2 _ (getD_mem _ _ hleni)
          by_cases hdone : (sp.1.procs.getD i default).remainingTime - 1 = 0
          · rw [if_pos hdone]
            exact ⟨hgf.1, hgf.2⟩
          · rw [if_neg hdone]
            exact ⟨hgf.1, hgf.2⟩
      · rw [he3, he1]
        by_cases hdone : (sp.1.procs.getD i default).remainingTime - 1 = 0
        · rw [if_pos hdone, if_pos hdone]
          have hcs := countP_set (fun p => p.state == ProcState.completed) sp.1.procs i
            (rrDoneP (sp.1.procs.getD i default) sp.1.t) hleni
          have hfa : ((sp.1.procs.getD i default).state ==
              ProcState.completed) = false := by
            simpa using hstatei
          have htr : ((rrDoneP (sp.1.procs.getD i default) sp.1.t).state ==
              ProcState.completed) = true := rfl
          replace hcs : (sp.1.procs.set i
                (rrDoneP (sp.1.procs.getD i default) sp.1.t)).countP
                (fun p => p.state == ProcState.completed) +
                (if ((sp.1.procs.getD i default).state == ProcState.completed) = true
                  then 1 else 0) =
              sp.1.procs.countP (fun p => p.state == ProcState.completed) +
                (if ((rrDoneP (sp.1.procs.getD i default) sp.1.t).state ==
                  ProcState.completed) = true then 1 else 0) := hcs
          rw [hfa, htr] at hcs
          simp only [if_neg (by simp : ¬ (false = true)), if_pos trivial] at hcs
          omega
        · rw [if_neg hdone, if_neg hdone]
          rw [countP_set_eq (fun p => p.state == ProcState.completed) sp.1.procs i
            (rrStepP (sp.1.procs.getD i default)) hleni rfl]
          exact m3
      · rw [he4]
        exact hndc.2
      · rw [he1]
        intro p hp
        rcases List.mem_or_eq_of_mem_set hp with hp' | rfl
        · exact m5 p hp'
        · by_cases hdone : (sp.1.procs.getD i default).remainingTime - 1 = 0
          · rw [if_pos hdone]
            show ProcState.completed = ProcState.completed ↔
              (sp.1.procs.getD i default).remainingTime - 1 = 0
            exact ⟨fun _ => hdone, fun _ => rfl⟩
          · rw [if_neg hdone]
            show (sp.1.procs.getD i default).state = ProcState.completed ↔
              (sp.1.procs.getD i default).remainingTime - 1 = 0
            constructor
            · intro hcontra
              exact absurd hcontra hstatei
            · intro hcontra
              exact absurd hcontra hdone
      · intro i' hri'
        rw [he5] at hri'
        rcases Option.some.inj hri' with rfl
        rw [he1, he2, he4]
        refine ⟨?_, ?_, hndc.1⟩
        · simpa [List.length_set] using hleni
        · rw [getD_set_self _ _ _ hleni]
          by_cases hdone : (sp.1.procs.getD i default).remainingTime - 1 = 0
          · rw [if_pos hdone]
            show (sp.1.procs.getD i default).arrivalTime < sp.1.t + 1
            omega
          · rw [if_neg hdone]
            show (sp.1.procs.getD i default).arrivalTime < sp.1.t + 1
            omega
      · intro j hj
        rw [he4] at hj
        have hjq : j ∈ sp.1.queue := by
          rw [hq]
          exact List.mem_cons_of_mem _ hj
        have hne : i ≠ j := fun he => hndc.1 (he ▸ hj)
        obtain ⟨hb1, hb2, hb3⟩ := m7 j hjq
        rw [he1, he2]
        rw [getD_set_ne _ _ _ _ hne]
        refine ⟨by simpa [List.length_set] using hb1, hb2, by omega⟩
      · intro j hj hstate harrlt
        rw [he1] at hj hstate
        rw [he1, he2] at harrlt
        rw [he4, he5]
        rw [List.length_set] at hj
        by_cases hne : i = j
        · subst hne
          exact Or.inr rfl
        · rw [getD_set_ne _ _ _ _ hne] at hstate harrlt
          have harrle : (sp.1.procs.getD j default).arrivalTime ≤ sp.1.t := by omega
          rcases m8 j hj hstate harrle with hjq2 | hjr
          · rw [hq] at hjq2
            rcases List.mem_cons.1 hjq2 with rfl | hjq3
            · exact absurd rfl hne
            · exact Or.inl hjq3
          · rw [hrun] at hjr
            exact Option.noConfusion hjr
      · intro p hp harrge
        rw [he1] at hp
        rw [he2] at harrge
        rcases List.mem_or_eq_of_mem_set hp with hp' | rfl
        · exact m9 p hp' (by omega)
        · exfalso
          by_cases hdone : (sp.1.procs.getD i default).remainingTime - 1 = 0
          · rw [if_pos hdone] at harrge
            replace harrge : sp.1.t + 1 ≤ (sp.1.procs.getD i default).arrivalTime := harrge
            omega
          · rw [if_neg hdone] at harrge
            replace harrge : sp.1.t + 1 ≤ (sp.1.procs.getD i default).arrivalTime := harrge
            omega
      · rw [he3]
        by_cases hdone : (sp.1.procs.getD i default).remainingTime - 1 = 0
        · rw [if_pos hdone]
          exact Or.inr rfl
        · rw [if_neg hdone]
          exact Or.inl rfl
      · left
        rw [he1]
        by_cases hdone : (sp.1.procs.getD i default).remainingTime - 1 = 0
        · rw [if_pos hdone]
          have hss := sum_map_set (fun p => p.remainingTime) sp.1.procs i
            (rrDoneP (sp.1.procs.getD i default) sp.1.t) hleni
          replace hss : ((sp.1.procs.set i
                (rrDoneP (sp.1.procs.getD i default) sp.1.t)).map
                (fun p => p.remainingTime)).sum +
                (sp.1.procs.getD i default).remainingTime =
              (sp.1.procs.map (fun p => p.remainingTime)).sum +
                ((sp.1.procs.getD i default).remainingTime - 1) := hss
          omega
        · rw [if_neg hdone]
          have hss := sum_map_set (fun p => p.remainingTime) sp.1.procs i
            (rrStepP (sp.1.procs.getD i default)) hleni
          replace hss : ((sp.1.procs.set i
                (rrStepP (sp.1.procs.getD i default))).map
                (fun p => p.remainingTime)).sum +
                (sp.1.procs.getD i default).remainingTime =
              (sp.1.procs.map (fun p => p.remainingTime)).sum +
                ((sp.1.procs.getD i default).remainingTime - 1) := hss
          omega

lemma simRrStep2_term (quantum n A : Nat) (st : SimRrState)
    (hc : st.completed < n) (hI : SimRrInv2 n A st) :
    SimRrInv2 n A (simRrStep2 quantum st) ∧
      simRrMeasure n A (simRrStep2 quantum st) < simRrMeasure n A st := by
  obtain ⟨hmid, ht1, hsum1, hcomp1⟩ := simStage1_v2 quantum n A st hI
  obtain ⟨hinv, ht2, hcomp2, hsumcase⟩ :=
    simStage2_v2 n A (simRrRetire2 quantum (simRrArrive2 st)) hmid
  rw [simRrStep2_eq]
  refine ⟨hinv, ?_⟩
  unfold simRrMeasure
  rw [ht2, ht1]
  rcases hsumcase with hex | ⟨hid, hqe, hre, hce⟩
  · rw [hsum1] at hex
    apply measure_step_lt
    rcases hcomp2 with hcm | hcm
    · rw [hcm, hcomp1]
      omega
    · rw [hcm, hcomp1]
      omega
  · rw [hsum1] at hid
    rw [hce, hcomp1, hid]
    have htA : st.t < A := by
      obtain ⟨m1, m2, m3, m4, m5, m6, m7, m8, m9⟩ := hmid
      have := simMid_idle n A (simRrRetire2 quantum (simRrArrive2 st)).1
        m1 m2 m3 m8 (by rw [hcomp1]; exact hc) hqe hre
      rw [ht1] at this
      exact this
    omega

lemma simulateRR2_terminates (procs : List Process) (h : ValidInput procs)
    (hne : procs ≠ []) (quantum : Nat) :
    ∃ evs, simulateRoundRobin2 procs quantum = some evs ∧
      ∃ e, evs.getLast? = some e ∧ e.eventMessage = "All processes complete." := by
  unfold simulateRoundRobin2
  rw [if_neg hne]
  simp only []
  have hterm := iterWhile_of_measure
    (fun st : SimRrState => decide (st.completed < procs.length))
    (simRrStep2 quantum)
    (SimRrInv2 procs.length (maxArrival procs))
    (simRrMeasure procs.length (maxArrival procs))
    (fun st hI hcond =>
      (simRrStep2_term quantum procs.length (maxArrival procs) st
        (by simpa using hcond) hI).1)
    (fun st hI hcond =>
      (simRrStep2_term quantum procs.length (maxArrival procs) st
        (by simpa using hcond) hI).2)
    (simRrFuel procs) ⟨procs, [], none, 0, 0, 0, []⟩ ?_ ?_
  · obtain ⟨s, hs⟩ := hterm
    refine ⟨s.events ++ [allCompleteEvent s.procs s.t], ?_, ?_⟩
    · rw [hs]
      rfl
    · exact ⟨allCompleteEvent s.procs s.t, List.getLast?_concat _, rfl⟩
  · refine ⟨rfl, ?_, ?_, List.nodup_nil, ?_, ?_, ?_, ?_, ?_⟩
    · intro p hp
      exact ⟨arrival_le_maxArrival procs p hp, (h.2 p hp).1⟩
    · show (0 : Nat) = _
      symm
      rw [List.countP_eq_zero]
      intro p hp
      simp [(h.2 p hp).2.2.1]
    · intro p hp
      obtain ⟨hb, hr, hs, _⟩ := h.2 p hp
      rw [hs, hr]
      constructor
      · intro hcontra
        exact absurd hcontra (by decide)
      · intro hcontra
        omega
    · intro i hi
      exact Option.noConfusion hi
    · intro j hj
      exact absurd hj (List.not_mem_nil j)
    · intro j hj hstate harrlt
      exact absurd (show (procs.getD j default).arrivalTime < 0 from harrlt) (by omega)
    · intro p hp hge
      obtain ⟨hb, hr, hs, _⟩ := h.2 p hp
      rw [hs, hr]
      refine ⟨rfl, ?_⟩
      intro hcontra
      exact absurd hcontra (by decide)
  · show simRrMeasure procs.length (maxArrival procs) _ < simRrFuel procs
    unfold simRrMeasure simRrFuel
    simp only [Nat.sub_zero]
    omega

lemma simulateFCFS_last (procs : List Process) (hne : procs ≠ []) :
    ∃ e, (simulateFCFS procs).getLast? = some e ∧
      e.eventMessage = "All processes complete." := by
  unfold simulateFCFS
  rw [if_neg hne]
  exact ⟨_, List.getLast?_concat _, rfl⟩

/-- C10 (amended): for every NON-EMPTY valid input and every policy the
stepwise generator yields a finite event sequence terminated by a final
event whose message is "All processes complete." (for the fueled loop
embeddings this includes termination: the loops finish within the stated
fuel); on the EMPTY input, however, every generator returns an empty
sequence with no terminal event at all, contradicting the unconditional
wording of the original claim. -/
theorem c10_amended (procs : List Process) (h : ValidInput procs)
    (hne : procs ≠ []) :
    (∃ e, (simulateFCFS procs).getLast? = some e ∧
      e.eventMessage = "All processes complete.") ∧
    (∃ evs, simulateSJF procs = some evs ∧
      ∃ e, evs.getLast? = some e ∧ e.eventMessage = "All processes complete.") ∧
    (∃ evs, simulatePriorityNonPreemptive procs = some evs ∧
      ∃ e, evs.getLast? = some e ∧ e.eventMessage = "All processes complete.") ∧
    (∃ evs, simulateSRTF procs = some evs ∧
      ∃ e, evs.getLast? = some e ∧ e.eventMessage = "All processes complete.") ∧
    (∃ evs, simulatePriorityPreemptive procs = some evs ∧
      ∃ e, evs.getLast? = some e ∧ e.eventMessage = "All processes complete.") ∧
    (∀ quantum, ∃ evs, simulateRoundRobin procs quantum = some evs ∧
      ∃ e, evs.getLast? = some e ∧ e.eventMessage = "All processes complete.") ∧
    (∀ quantum, ∃ evs, simulateRoundRobin2 procs quantum = some evs ∧
      ∃ e, evs.getLast? = some e ∧ e.eventMessage = "All processes complete.") ∧
    simulateFCFS [] = [] ∧
    simulateSJF [] = some [] ∧
    simulatePriorityNonPreemptive [] = some [] ∧
    simulateSRTF [] = some [] ∧
    simulatePriorityPreemptive [] = some [] ∧
    (∀ quantum, simulateRoundRobin [] quantum = some []) ∧
    (∀ quantum, simulateRoundRobin2 [] quantum = some []) :=
  ⟨simulateFCFS_last procs hne, simulateSJF_terminates procs h hne,
    simulatePNP_terminates procs h hne, simulateSRTF_terminates procs h hne,
    simulatePP_terminates procs h hne,
    fun q => simulateRR_terminates procs h hne q,
    fun q => simulateRR2_terminates procs h hne q,
    rfl, rfl, rfl, rfl, rfl, fun _ => rfl, fun _ => rfl⟩

theorem c10_amended_witness :
    ValidInput exRR ∧ exRR ≠ [] ∧
    ∃ e, (simulateFCFS exRR).getLast? = some e ∧
      e.eventMessage = "All processes complete." :=
  ⟨by decide, by decide, (c10_amended exRR (by decide) (by decide)).1⟩
